import Mathlib

/-!
# Multi-level page table (`mlpt.c`)

A shallow embedding of `src/mlpt.c` and the properties of its three public
operations `translate`, `page_allocate` and `page_free`.

* `size_t` values are natural numbers; arithmetic that can wrap is reduced
  modulo `2 ^ 64`.
* The C heap is a finite map from page base addresses to page contents.  Every
  pointer the module dereferences is the base of a page returned by
  `allocate_new_page`, and it is only ever indexed with an index below
  `ENTRIES`, so a page is a function from entry index to word.
* `posix_memalign` is an oracle: the caller of `page_allocate` supplies the
  list of addresses the allocator is going to hand out, in order.
* An operation whose behaviour the C standard leaves undefined (reading an
  indeterminate array element, dereferencing or freeing a pointer that is not
  a live page) stops with a `Fault`.
-/

namespace Mlpt

/-! ## Configuration and constants -/

/-- The two compile-time constants of `config.h`, which is not part of the
sources: they are parameters of every definition. -/
structure Config where
  POBITS : Nat
  LEVELS : Nat
  deriving DecidableEq, Repr

/-- `#define PAGE_SIZE (1 << (POBITS))`. -/
def PAGE_SIZE (c : Config) : Nat := 1 <<< c.POBITS

/-- `#define VPN_BITS (POBITS - 3)`. -/
def VPN_BITS (c : Config) : Nat := c.POBITS - 3

/-- `#define ENTRIES (1 << (VPN_BITS))`. -/
def ENTRIES (c : Config) : Nat := 1 <<< VPN_BITS c

/-- `#define SEGFAULT (~0UL)`. -/
def SEGFAULT : Nat := 2 ^ 64 - 1

/-- `#define INVALID_BIT (0)`. -/
def INVALID_BIT : Nat := 0

/-- `#define VALID_BIT (1)`. -/
def VALID_BIT : Nat := 1

/-- `#define VPN_MASK ((1 << VPN_BITS) - 1)`. -/
def VPN_MASK (c : Config) : Nat := (1 <<< VPN_BITS c) - 1

/-- `#define ADDR_MASK (~1UL)`. -/
def ADDR_MASK : Nat := 2 ^ 64 - 2

/-- The configurations the module is written for: at least one index bit per
level, `1 << POBITS` representable as an `int`, at least one level, and the
translatable range inside the 64-bit address. -/
def Config.WF (c : Config) : Prop :=
  4 ≤ c.POBITS ∧ c.POBITS ≤ 30 ∧ 1 ≤ c.LEVELS ∧ c.POBITS + c.LEVELS * VPN_BITS c ≤ 64

instance (c : Config) : Decidable c.WF := by
  unfold Config.WF; infer_instance

/-! ## Memory -/

/-- The ways an execution can leave defined behaviour or abort. -/
inductive Fault where
  /-- `posix_memalign` failed and the process exited. -/
  | nomem
  /-- An indeterminate (never written) array element was used. -/
  | uninit
  /-- A pointer that is not the base of a live page was dereferenced. -/
  | badptr
  /-- `free` was called on a pointer that is not a live page. -/
  | badfree
  deriving DecidableEq, Repr

/-- Contents of one page, seen as an array of `size_t` entries. -/
abbrev Page := Nat → Nat

/-- The live pages, by base address. -/
abbrev Heap := Nat → Option Page

/-- The global `ptbr` and the heap. -/
structure State where
  ptbr : Nat
  heap : Heap

/-- The state at program start: `ptbr` is a zero-initialised global and the
module owns no page. -/
def State.init : State := ⟨0, fun _ => none⟩

/-- A page after `memset(new_page, 0, PAGE_SIZE)`. -/
def zero_page : Page := fun _ => 0

/-- Heap with the page at `p` replaced. -/
def Heap.setPage (h : Heap) (p : Nat) (v : Option Page) : Heap :=
  fun a => if a = p then v else h a

/-- Page with entry `i` replaced. -/
def Page.setEntry (t : Page) (i v : Nat) : Page :=
  fun j => if j = i then v else t j

/-- The read `base[idx]`. -/
def load (h : Heap) (base idx : Nat) : Except Fault Nat :=
  match h base with
  | none => .error .badptr
  | some t => .ok (t idx)

/-- The write `base[idx] = v`. -/
def store (h : Heap) (base idx v : Nat) : Except Fault Heap :=
  match h base with
  | none => .error .badptr
  | some t => .ok (h.setPage base (some (t.setEntry idx v)))

/-- The library call `free(p)`; `free(NULL)` does nothing. -/
def free (h : Heap) (p : Nat) : Except Fault Heap :=
  if p = 0 then .ok h
  else
    match h p with
    | none => .error .badfree
    | some _ => .ok (h.setPage p none)

/-- Use of an array element that may be indeterminate. -/
def use (x : Option Nat) : Except Fault Nat :=
  match x with
  | none => .error .uninit
  | some v => .ok v

/-! ## Helper functions for bit manipulation -/

/-- `is_entry_valid`. -/
def is_entry_valid (entry : Nat) : Bool := (entry &&& 1) == VALID_BIT

/-- `clear_valid_bit`. -/
def clear_valid_bit (entry : Nat) : Nat := entry &&& ADDR_MASK

/-- `set_valid_bit`. -/
def set_valid_bit (addr : Nat) : Nat := addr ||| VALID_BIT

/-! ## Memory allocation helpers -/

/-- `allocate_new_page`: the next address of the allocator oracle `fresh`,
zero-filled; an exhausted oracle is the failure of `posix_memalign`. -/
def allocate_new_page (fresh : List Nat) (h : Heap) : Except Fault (Nat × List Nat × Heap) :=
  match fresh with
  | [] => .error .nomem
  | new_page :: rest => .ok (new_page, rest, h.setPage new_page (some zero_page))

/-- `initialize_page_table`. -/
def initialize_page_table (fresh : List Nat) (s : State) : Except Fault (List Nat × State) :=
  if s.ptbr = 0 then
    match allocate_new_page fresh s.heap with
    | .error e => .error e
    | .ok (new_page, rest, h) => .ok (rest, ⟨new_page, h⟩)
  else .ok (fresh, s)

/-! ## VPN calculation -/

/-- The value `populate_vpn_offsets` stores in `vpn_offset[level]`. The code
shifts a `size_t`, masks with the `int` `VPN_MASK` and stores an `int`; the
definition is the same value when the shift is below 64 and `VPN_BITS ≤ 30`,
as `Config.WF` asks. -/
def vpn_index (c : Config) (va level : Nat) : Nat :=
  (va >>> (c.POBITS + (c.LEVELS - 1 - level) * VPN_BITS c)) &&& VPN_MASK c

/-- `populate_vpn_offsets`: the array `vpn_offset[0 .. LEVELS-1]`. -/
def populate_vpn_offsets (c : Config) (va : Nat) : List Nat :=
  (List.range c.LEVELS).map (vpn_index c va)

/-- `calculate_page_offset`. The code computes the mask `(1 << POBITS) - 1` in
`int` and returns an `int`; the definition computes it in the natural numbers,
which is the same value when `POBITS ≤ 30`, as `Config.WF` asks. -/
def calculate_page_offset (c : Config) (va : Nat) : Nat :=
  va &&& ((1 <<< c.POBITS) - 1)

/-! ## Translation -/

/-- The loop of `page_walk`; `rem` is the number of iterations left, so the
loop variable is `level = LEVELS - rem`. -/
def page_walk_loop (c : Config) (h : Heap) (vpn_offset : List Nat) (offset : Nat) :
    Nat → Nat → Except Fault Nat
  | 0, _ => .ok SEGFAULT
  | rem + 1, base_addr =>
    let level := c.LEVELS - (rem + 1)
    if base_addr = 0 then .ok SEGFAULT
    else
      match load h base_addr (vpn_offset.getD level 0) with
      | .error e => .error e
      | .ok entry =>
        if !is_entry_valid entry then .ok SEGFAULT
        else
          if level + 1 = c.LEVELS then .ok ((clear_valid_bit entry + offset) % 2 ^ 64)
          else page_walk_loop c h vpn_offset offset rem (clear_valid_bit entry)

/-- `page_walk`. -/
def page_walk (c : Config) (s : State) (vpn_offset : List Nat) (offset : Nat) :
    Except Fault Nat :=
  page_walk_loop c s.heap vpn_offset offset c.LEVELS s.ptbr

/-- `translate`. -/
def translate (c : Config) (s : State) (va : Nat) : Except Fault Nat :=
  page_walk c s (populate_vpn_offsets c va) (calculate_page_offset c va)

/-! ## Allocation -/

/-- The loop of `allocate_page_tables`; `level = LEVELS - rem`. -/
def allocate_page_tables_loop (c : Config) (vpn_offset : List Nat) :
    Nat → List Nat → Heap → Nat → Except Fault Heap
  | 0, _, h, _ => .ok h
  | rem + 1, fresh, h, base_addr =>
    let level := c.LEVELS - (rem + 1)
    let idx := vpn_offset.getD level 0
    match load h base_addr idx with
    | .error e => .error e
    | .ok entry =>
      if !is_entry_valid entry then
        match allocate_new_page fresh h with
        | .error e => .error e
        | .ok (new_page, fresh1, h1) =>
          match store h1 base_addr idx (set_valid_bit new_page) with
          | .error e => .error e
          | .ok h2 =>
            match load h2 base_addr idx with
            | .error e => .error e
            | .ok entry2 =>
              allocate_page_tables_loop c vpn_offset rem fresh1 h2 (clear_valid_bit entry2)
      else
        match load h base_addr idx with
        | .error e => .error e
        | .ok entry2 =>
          allocate_page_tables_loop c vpn_offset rem fresh h (clear_valid_bit entry2)

/-- `allocate_page_tables`. -/
def allocate_page_tables (c : Config) (fresh : List Nat) (s : State) (vpn_offset : List Nat) :
    Except Fault State :=
  match allocate_page_tables_loop c vpn_offset c.LEVELS fresh s.heap s.ptbr with
  | .error e => .error e
  | .ok h => .ok ⟨s.ptbr, h⟩

/-- `page_allocate`. -/
def page_allocate (c : Config) (fresh : List Nat) (s : State) (va : Nat) : Except Fault State :=
  match initialize_page_table fresh s with
  | .error e => .error e
  | .ok (fresh1, s1) => allocate_page_tables c fresh1 s1 (populate_vpn_offsets c va)

/-! ## Deallocation -/

/-- The loop of `populate_base_address_array`; it runs for
`level = 0 .. LEVELS-2`, and `level = LEVELS - 1 - rem`. -/
def populate_base_address_array_loop (c : Config) (h : Heap) (vpn_offset : List Nat) :
    Nat → List (Option Nat) → Except Fault (List (Option Nat))
  | 0, arr => .ok arr
  | rem + 1, arr =>
    let level := c.LEVELS - 1 - (rem + 1)
    match use (arr.getD level none) with
    | .error e => .error e
    | .ok base =>
      match load h base (vpn_offset.getD level 0) with
      | .error e => .error e
      | .ok entry =>
        if !is_entry_valid entry then .ok arr
        else
          populate_base_address_array_loop c h vpn_offset rem
            (arr.set (level + 1) (some (clear_valid_bit entry)))

/-- `populate_base_address_array`; `base_addr_array` comes in as the caller
declared it. -/
def populate_base_address_array (c : Config) (s : State) (vpn_offset : List Nat)
    (base_addr_array : List (Option Nat)) : Except Fault (List (Option Nat)) :=
  populate_base_address_array_loop c s.heap vpn_offset (c.LEVELS - 1)
    (base_addr_array.set 0 (some s.ptbr))

/-- The loop of `is_page_table_empty`; `entry = ENTRIES - rem`. -/
def is_page_table_empty_loop (c : Config) (h : Heap) (page_table : Nat) :
    Nat → Except Fault Bool
  | 0 => .ok true
  | rem + 1 =>
    match load h page_table (ENTRIES c - (rem + 1)) with
    | .error e => .error e
    | .ok entry =>
      if is_entry_valid entry then .ok false
      else is_page_table_empty_loop c h page_table rem

/-- `is_page_table_empty`. -/
def is_page_table_empty (c : Config) (h : Heap) (page_table : Nat) : Except Fault Bool :=
  is_page_table_empty_loop c h page_table (ENTRIES c)

/-- The loop of `cleanup_empty_tables`, entered with `level = lvl`; it ends
when `level > 0` fails. -/
def cleanup_empty_tables_loop (c : Config) (vpn_offset : List Nat)
    (base_addr_array : List (Option Nat)) : Nat → Heap → Except Fault Heap
  | 0, h => .ok h
  | level + 1, h =>
    match use (base_addr_array.getD (level + 1) none) with
    | .error e => .error e
    | .ok table =>
      match is_page_table_empty c h table with
      | .error e => .error e
      | .ok empty =>
        if !empty then .ok h
        else
          match free h table with
          | .error e => .error e
          | .ok h1 =>
            match use (base_addr_array.getD level none) with
            | .error e => .error e
            | .ok parent =>
              match store h1 parent (vpn_offset.getD level 0) INVALID_BIT with
              | .error e => .error e
              | .ok h2 => cleanup_empty_tables_loop c vpn_offset base_addr_array level h2

/-- `cleanup_empty_tables`. -/
def cleanup_empty_tables (c : Config) (vpn_offset : List Nat)
    (base_addr_array : List (Option Nat)) (h : Heap) : Except Fault Heap :=
  cleanup_empty_tables_loop c vpn_offset base_addr_array (c.LEVELS - 1) h

/-- The block `if (is_entry_valid(leaf_entry)) { free(...); ... = INVALID_BIT; }`
of `page_free`. -/
def free_leaf (h : Heap) (leaf_table idx leaf_entry : Nat) : Except Fault Heap :=
  if is_entry_valid leaf_entry then
    match free h (clear_valid_bit leaf_entry) with
    | .error e => .error e
    | .ok h1 => store h1 leaf_table idx INVALID_BIT
  else .ok h

/-- `page_free`.  The local `base_addr_array` is declared without an
initialiser: all of its `LEVELS` elements start indeterminate. -/
def page_free (c : Config) (s : State) (va : Nat) : Except Fault State :=
  if s.ptbr = 0 then .ok s
  else
    let vpn_offset := populate_vpn_offsets c va
    match populate_base_address_array c s vpn_offset (List.replicate c.LEVELS none) with
    | .error e => .error e
    | .ok base_addr_array =>
      match use (base_addr_array.getD (c.LEVELS - 1) none) with
      | .error e => .error e
      | .ok leaf_table =>
        let idx := vpn_offset.getD (c.LEVELS - 1) 0
        match load s.heap leaf_table idx with
        | .error e => .error e
        | .ok leaf_entry =>
          match free_leaf s.heap leaf_table idx leaf_entry with
          | .error e => .error e
          | .ok h1 =>
            match cleanup_empty_tables c vpn_offset base_addr_array h1 with
            | .error e => .error e
            | .ok h2 => .ok ⟨s.ptbr, h2⟩

/-! ## The tree seen from the root -/

/-- One step down the tree: the page the valid entry `i` of the table `cur`
points to. -/
def child (h : Heap) (cur : Option Nat) (i : Nat) : Option Nat :=
  match cur with
  | none => none
  | some b =>
    match h b with
    | none => none
    | some t => if is_entry_valid (t i) then some (clear_valid_bit (t i)) else none

/-- The page reached from `ptbr` along the entry indices `path`, through
valid entries only. -/
def walk (s : State) (path : List Nat) : Option Nat :=
  path.foldl (child s.heap) (if s.ptbr = 0 then none else some s.ptbr)

/-- The leaf data page backing `va`, when `va` is mapped. -/
def leaf_page (c : Config) (s : State) (va : Nat) : Option Nat :=
  walk s (populate_vpn_offsets c va)

/-- The heap is a tree hanging from `ptbr`: what the root reaches is live,
page-aligned and reached along one path only, every live page is reached,
table entries are either zero or a valid entry for an index below `ENTRIES`,
and leaf data pages are as `allocate_new_page` left them. -/
structure Shape (c : Config) (s : State) : Prop where
  live : ∀ r p, r.length ≤ c.LEVELS → walk s r = some p →
    p ≠ 0 ∧ p % PAGE_SIZE c = 0 ∧ p < 2 ^ 64 ∧ ∃ t, s.heap p = some t
  inj : ∀ r1 r2 p, r1.length ≤ c.LEVELS → r2.length ≤ c.LEVELS →
    walk s r1 = some p → walk s r2 = some p → r1 = r2
  owned : ∀ p t, s.heap p = some t → ∃ r, r.length ≤ c.LEVELS ∧ walk s r = some p
  entries : ∀ r p t i, r.length < c.LEVELS → walk s r = some p → s.heap p = some t →
    t i ≠ 0 → i < ENTRIES c ∧ t i = set_valid_bit (clear_valid_bit (t i))
  leaves : ∀ r p t, r.length = c.LEVELS → walk s r = some p → s.heap p = some t →
    t = zero_page

/-- Every table other than the root and the one at path `ex` has a valid
entry. -/
def Pruned (c : Config) (s : State) (ex : List Nat) : Prop :=
  ∀ r p t, r ≠ [] → r ≠ ex → r.length < c.LEVELS → walk s r = some p → s.heap p = some t →
    ∃ i, i < ENTRIES c ∧ is_entry_valid (t i) = true

/-- What `posix_memalign` may return in heap `h`: distinct, non-null,
page-aligned addresses of pages that are not live and that end below the top
of the 64-bit address space (the address one past the block is a pointer too,
so the block is never the page `2 ^ 64 - PAGE_SIZE`). -/
def FreshValid (c : Config) (h : Heap) (fresh : List Nat) : Prop :=
  fresh.Nodup ∧
    ∀ p ∈ fresh, p ≠ 0 ∧ p % PAGE_SIZE c = 0 ∧ p + PAGE_SIZE c < 2 ^ 64 ∧ h p = none

/-- The states reached from program start by calls of `page_allocate` and
`page_free` that return. -/
inductive Reachable (c : Config) : State → Prop
  | init : Reachable c State.init
  | allocate {s s1 : State} (fresh : List Nat) (va : Nat) :
      Reachable c s → FreshValid c s.heap fresh → page_allocate c fresh s va = .ok s1 →
      Reachable c s1
  | free {s s1 : State} (va : Nat) :
      Reachable c s → page_free c s va = .ok s1 → Reachable c s1

/-- Heap after hanging the new zero page `n` at entry `i` of the table at
`tq`, whose contents were `t`. -/
def linked (h : Heap) (tq : Nat) (t : Page) (i n : Nat) : Heap :=
  (h.setPage n (some zero_page)).setPage tq (some (t.setEntry i (set_valid_bit n)))

/-- Heap after releasing the page `ch` and clearing entry `i` of the table at
`tq`, whose contents were `t`. -/
def unlinked (h : Heap) (tq : Nat) (t : Page) (i ch : Nat) : Heap :=
  (h.setPage ch none).setPage tq (some (t.setEntry i INVALID_BIT))

/-- The number of the page of `va` inside the translatable range: bits
`POBITS .. POBITS + LEVELS * VPN_BITS - 1` of `va`. -/
def virtual_page (c : Config) (va : Nat) : Nat :=
  va % 2 ^ (c.POBITS + c.LEVELS * VPN_BITS c) / PAGE_SIZE c

/-- The address `va` with its low `POBITS` bits cleared. -/
def page_base (c : Config) (va : Nat) : Nat :=
  va / PAGE_SIZE c * PAGE_SIZE c

/-- A call of the interface that can change the state. -/
inductive Call where
  | allocate (va : Nat)
  | free (va : Nat)
  deriving DecidableEq, Repr

/-- The calls made since program start, most recent first, with the state
they led to. -/
inductive History (c : Config) : List Call → State → Prop
  | init : History c [] State.init
  | allocate {calls : List Call} {s s1 : State} (fresh : List Nat) (va : Nat) :
      History c calls s → FreshValid c s.heap fresh → page_allocate c fresh s va = .ok s1 →
      History c (Call.allocate va :: calls) s1
  | free {calls : List Call} {s s1 : State} (va : Nat) :
      History c calls s → page_free c s va = .ok s1 →
      History c (Call.free va :: calls) s1

/-- Among the calls whose address satisfies `same` there is no
`page_allocate`, or the most recent of them is a `page_free`. -/
def last_call_frees (same : Nat → Bool) : List Call → Bool
  | [] => true
  | Call.free vb :: rest => same vb || last_call_frees same rest
  | Call.allocate vb :: rest => !same vb && last_call_frees same rest

/-! ## Concrete states for the worked examples -/

/-- The configuration of the scenarios in the specification: 4 KiB pages and
two levels. -/
def cfg12 : Config := ⟨12, 2⟩

/-- The state a call returned, for a call that is known to return. -/
def after (r : Except Fault State) : State :=
  match r with
  | .ok s => s
  | .error _ => State.init

/-- After `page_allocate(0x1000)` at program start. -/
def st_one : State :=
  after (page_allocate cfg12 [0x10000, 0x20000, 0x30000] State.init 0x1000)

/-- After `page_allocate(0x0)`, `page_allocate(0x1000)`, `page_allocate(0x2000)`. -/
def st_three : State :=
  after (page_allocate cfg12 [0x60000] (after (page_allocate cfg12 [0x50000]
    (after (page_allocate cfg12 [0x10000, 0x20000, 0x30000] State.init 0x0)) 0x1000)) 0x2000)

/-- The address `max_addr` of `test.c` (Test 4),
`(1UL << (POBITS + (LEVELS * VPN_BITS))) - PAGE_SIZE`, as a number. -/
def max_addr (c : Config) : Nat :=
  (1 <<< (c.POBITS + c.LEVELS * VPN_BITS c)) - PAGE_SIZE c

/-- The page at `b`, with contents `t`, is a table the root reaches through
valid entries: it lies at a level below `LEVELS`. -/
def reachable_table (c : Config) (s : State) (b : Nat) (t : Page) : Prop :=
  ∃ r, r.length < c.LEVELS ∧ walk s r = some b ∧ s.heap b = some t

/-- A single-level configuration with 16-byte pages of two entries. -/
def cfg_one_level : Config := ⟨4, 1⟩

/-- After `page_allocate(0x0)` and `page_free(0x0)` at program start, with one
level: the root is left with no valid entry. -/
def st_emptied : State :=
  after (page_free cfg_one_level
    (after (page_allocate cfg_one_level [0x10, 0x20] State.init 0x0)) 0x0)

/-- A configuration without any level, which the two conditions of the
specification on `POBITS` and on the translatable range do not exclude. -/
def cfg_no_level : Config := ⟨12, 0⟩

/-- After `page_allocate(max_addr)` at program start, without any level. -/
def st_no_level : State :=
  after (page_allocate cfg_no_level [0x10000] State.init (max_addr cfg_no_level))

/-! ## Entry encoding -/

theorem testBit_ADDR_MASK (i : Nat) :
    ADDR_MASK.testBit i = (decide (1 ≤ i) && decide (i < 64)) := by
  cases i with
  | zero => decide
  | succ k =>
    rw [Nat.testBit_succ]
    have h : ADDR_MASK / 2 = 2 ^ 63 - 1 := by decide
    rw [h, Nat.testBit_two_pow_sub_one]
    simp
    omega

theorem testBit_one (i : Nat) : (1 : Nat).testBit i = decide (i = 0) := by
  cases i with
  | zero => decide
  | succ k =>
    rw [Nat.testBit_succ]
    simp

theorem is_entry_valid_iff (x : Nat) : is_entry_valid x = true ↔ x % 2 = 1 := by
  simp [is_entry_valid, VALID_BIT]

theorem is_entry_valid_zero : is_entry_valid 0 = false := by decide

theorem is_entry_valid_set (n : Nat) : is_entry_valid (set_valid_bit n) = true := by
  simp [is_entry_valid_iff, set_valid_bit, VALID_BIT]

theorem clear_valid_bit_lt (x : Nat) : clear_valid_bit x < 2 ^ 64 := by
  unfold clear_valid_bit
  exact Nat.and_lt_two_pow x (by decide)

theorem clear_set (n : Nat) (heven : n % 2 = 0) (hlt : n < 2 ^ 64) :
    clear_valid_bit (set_valid_bit n) = n := by
  apply Nat.eq_of_testBit_eq
  intro i
  simp only [clear_valid_bit, set_valid_bit, VALID_BIT, Nat.testBit_and, Nat.testBit_or,
    testBit_ADDR_MASK, testBit_one]
  cases i with
  | zero => simp [heven]
  | succ k =>
    by_cases hk : k + 1 < 64
    · simp [hk]
    · have : n.testBit (k + 1) = false :=
        Nat.testBit_lt_two_pow (lt_of_lt_of_le hlt (Nat.pow_le_pow_right (by decide) (by omega)))
      simp [hk, this]

theorem set_clear (x : Nat) (hv : is_entry_valid x = true) (hlt : x < 2 ^ 64) :
    set_valid_bit (clear_valid_bit x) = x := by
  rw [is_entry_valid_iff] at hv
  apply Nat.eq_of_testBit_eq
  intro i
  simp only [clear_valid_bit, set_valid_bit, VALID_BIT, Nat.testBit_and, Nat.testBit_or,
    testBit_ADDR_MASK, testBit_one]
  cases i with
  | zero => simp [hv]
  | succ k =>
    by_cases hk : k + 1 < 64
    · simp [hk]
    · have : x.testBit (k + 1) = false :=
        Nat.testBit_lt_two_pow (lt_of_lt_of_le hlt (Nat.pow_le_pow_right (by decide) (by omega)))
      simp [hk, this]

theorem valid_ne_zero {x : Nat} (hv : is_entry_valid x = true) : x ≠ 0 := by
  intro h; subst h; simp [is_entry_valid_zero] at hv

/-! ## Walking the tree -/

theorem child_none (h : Heap) (i : Nat) : child h none i = none := rfl

theorem foldl_child_none (h : Heap) (l : List Nat) : l.foldl (child h) none = none := by
  induction l with
  | nil => rfl
  | cons a l ih => simpa [List.foldl, child_none] using ih

theorem walk_nil (s : State) : walk s [] = if s.ptbr = 0 then none else some s.ptbr := rfl

theorem walk_snoc (s : State) (r : List Nat) (i : Nat) :
    walk s (r ++ [i]) = child s.heap (walk s r) i := by
  simp [walk, List.foldl_append]

theorem walk_append_none (s : State) (r t : List Nat) (h : walk s r = none) :
    walk s (r ++ t) = none := by
  unfold walk at *
  rw [List.foldl_append, h]
  exact foldl_child_none _ _

theorem child_eq_some {h : Heap} {cur : Option Nat} {i p : Nat} :
    child h cur i = some p ↔
      ∃ b t, cur = some b ∧ h b = some t ∧ is_entry_valid (t i) = true ∧
        clear_valid_bit (t i) = p := by
  unfold child
  cases cur with
  | none => simp
  | some b =>
    cases hb : h b with
    | none => simp [hb]
    | some t =>
      by_cases hv : is_entry_valid (t i) = true
      · simp [hb, hv]
      · simp [hb, hv]

theorem child_some_heap {h : Heap} {b : Nat} {t : Page} (i : Nat) (hb : h b = some t) :
    child h (some b) i =
      if is_entry_valid (t i) then some (clear_valid_bit (t i)) else none := by
  simp [child, hb]

theorem walk_ptbr (s s1 : State) (r : List Nat) (hp : s1.ptbr = s.ptbr) (hh : s1.heap = s.heap) :
    walk s1 r = walk s r := by
  unfold walk; rw [hp, hh]

theorem walk_prefix_some (s : State) (r t : List Nat) (p : Nat) (h : walk s (r ++ t) = some p) :
    ∃ b, walk s r = some b := by
  cases hr : walk s r with
  | none => rw [walk_append_none s r t hr] at h; cases h
  | some b => exact ⟨b, rfl⟩


/-! ## Hanging a new page in the tree -/

theorem linked_other {h : Heap} {tq : Nat} {t : Page} {i n p : Nat} (h1 : p ≠ tq) (h2 : p ≠ n) :
    linked h tq t i n p = h p := by
  simp [linked, Heap.setPage, h1, h2]

theorem linked_table {h : Heap} {tq : Nat} {t : Page} {i n : Nat} :
    linked h tq t i n tq = some (t.setEntry i (set_valid_bit n)) := by
  simp [linked, Heap.setPage]

theorem linked_new {h : Heap} {tq : Nat} {t : Page} {i n : Nat} (hne : n ≠ tq) :
    linked h tq t i n n = some zero_page := by
  simp [linked, Heap.setPage, hne]

theorem walk_linked (c : Config) (s : State) (hS : Shape c s) (q : List Nat) (tq : Nat)
    (t : Page) (i n : Nat) (hq : q.length < c.LEVELS) (hw : walk s q = some tq)
    (ht : s.heap tq = some t) (hinv : is_entry_valid (t i) = false)
    (hn0 : n % 2 = 0) (hn64 : n < 2 ^ 64) (hfree : s.heap n = none) :
    ∀ r, r.length ≤ c.LEVELS →
      walk ⟨s.ptbr, linked s.heap tq t i n⟩ r = if r = q ++ [i] then some n else walk s r := by
  have hne : n ≠ tq := by
    intro h; rw [h, ht] at hfree; cases hfree
  intro r
  induction r using List.reverseRecOn with
  | nil =>
    intro _
    simp [walk]
  | append_singleton r j ih =>
    intro hr
    have hr1 : r.length ≤ c.LEVELS := by
      simp at hr; omega
    rw [walk_snoc, ih hr1, walk_snoc]
    by_cases h1 : r = q ++ [i]
    · -- below the new page there is nothing
      subst h1
      have h2 : q ++ [i] ++ [j] ≠ q ++ [i] := by
        intro h
        have := congrArg List.length h
        simp at this
      have h3 : walk s (q ++ [i]) = none := by
        rw [walk_snoc, hw, child_some_heap i ht, hinv]; simp
      rw [if_pos rfl, if_neg h2, h3, child_none]
      show child (linked s.heap tq t i n) (some n) j = none
      rw [child_some_heap j (linked_new hne)]
      simp [zero_page, is_entry_valid_zero]
    · simp only [h1, if_false]
      cases hwr : walk s r with
      | none =>
        have h2 : r ++ [j] ≠ q ++ [i] := by
          intro h
          have hrq : r = q := (List.append_inj' h rfl).1
          rw [hrq, hw] at hwr; cases hwr
        simp [h2, child_none]
      | some p =>
        obtain ⟨_, _, _, tp, htp⟩ := hS.live r p hr1 hwr
        have hpn : p ≠ n := by
          intro h; rw [h, hfree] at htp; cases htp
        by_cases hp : p = tq
        · have hrq : r = q := hS.inj r q p hr1 (le_of_lt hq) hwr (hp ▸ hw)
          subst hp
          rw [ht] at htp
          cases htp
          show child (linked s.heap p t i n) (some p) j = _
          rw [child_some_heap j linked_table, child_some_heap j ht]
          by_cases hji : j = i
          · subst hji
            simp [hrq, Page.setEntry, is_entry_valid_set, clear_set n hn0 hn64]
          · have h2 : r ++ [j] ≠ q ++ [i] := by
              intro h
              exact hji (by simpa using (List.append_inj' h rfl).2)
            simp [h2, Page.setEntry, hji]
        · have h2 : r ++ [j] ≠ q ++ [i] := by
            intro h
            have hrq : r = q := (List.append_inj' h rfl).1
            rw [hrq, hw] at hwr
            exact hp (Option.some.inj hwr).symm
          simp only [h2, if_false]
          show child (linked s.heap tq t i n) (some p) j = child s.heap (some p) j
          unfold child
          simp only []
          rw [linked_other hp hpn]


theorem PAGE_SIZE_eq (c : Config) : PAGE_SIZE c = 2 ^ c.POBITS := by
  simp [PAGE_SIZE, Nat.one_shiftLeft]

theorem ENTRIES_eq (c : Config) : ENTRIES c = 2 ^ VPN_BITS c := by
  simp [ENTRIES, Nat.one_shiftLeft]

theorem even_of_aligned {c : Config} (hc : c.WF) {p : Nat} (hp : p % PAGE_SIZE c = 0) :
    p % 2 = 0 := by
  have h2 : 2 ∣ PAGE_SIZE c := by
    rw [PAGE_SIZE_eq]
    exact dvd_pow_self 2 (by have := hc.1; omega)
  have := Nat.mod_mod_of_dvd p h2
  rw [hp] at this
  simpa using this.symm

theorem shape_linked (c : Config) (hc : c.WF) (s : State) (hS : Shape c s) (q : List Nat)
    (tq : Nat) (t : Page) (i n : Nat) (hq : q.length < c.LEVELS) (hw : walk s q = some tq)
    (ht : s.heap tq = some t) (hinv : is_entry_valid (t i) = false) (hi : i < ENTRIES c)
    (hn : n ≠ 0) (hnp : n % PAGE_SIZE c = 0) (hn64 : n < 2 ^ 64) (hfree : s.heap n = none) :
    Shape c ⟨s.ptbr, linked s.heap tq t i n⟩ := by
  have hn0 : n % 2 = 0 := even_of_aligned hc hnp
  have hne : n ≠ tq := by
    intro h; rw [h, ht] at hfree; cases hfree
  have W := walk_linked c s hS q tq t i n hq hw ht hinv hn0 hn64 hfree
  have hnone : walk s (q ++ [i]) = none := by
    rw [walk_snoc, hw, child_some_heap i ht, hinv]; simp
  -- a page the old tree reaches is neither new nor lost
  have old : ∀ r p, r.length ≤ c.LEVELS → walk s r = some p →
      p ≠ n ∧ ∃ t1, linked s.heap tq t i n p = some t1 := by
    intro r p hr hp
    obtain ⟨_, _, _, tp, htp⟩ := hS.live r p hr hp
    have hpn : p ≠ n := by
      intro h; rw [h, hfree] at htp; cases htp
    refine ⟨hpn, ?_⟩
    by_cases hpt : p = tq
    · subst hpt; exact ⟨_, linked_table⟩
    · exact ⟨tp, by rw [linked_other hpt hpn]; exact htp⟩
  constructor
  · intro r p hr hp
    rw [W r hr] at hp
    by_cases h1 : r = q ++ [i]
    · rw [if_pos h1] at hp
      cases hp
      exact ⟨hn, hnp, hn64, _, linked_new hne⟩
    · rw [if_neg h1] at hp
      obtain ⟨a, b, d, _⟩ := hS.live r p hr hp
      exact ⟨a, b, d, (old r p hr hp).2⟩
  · intro r1 r2 p hr1 hr2 h1 h2
    rw [W r1 hr1] at h1
    rw [W r2 hr2] at h2
    by_cases e1 : r1 = q ++ [i]
    · rw [if_pos e1] at h1
      cases h1
      by_cases e2 : r2 = q ++ [i]
      · rw [e1, e2]
      · rw [if_neg e2] at h2
        exact absurd rfl (old r2 _ hr2 h2).1
    · rw [if_neg e1] at h1
      by_cases e2 : r2 = q ++ [i]
      · rw [if_pos e2] at h2
        cases h2
        exact absurd rfl (old r1 _ hr1 h1).1
      · rw [if_neg e2] at h2
        exact hS.inj r1 r2 p hr1 hr2 h1 h2
  · intro p t1 hp
    by_cases hpn : p = n
    · refine ⟨q ++ [i], by simp; omega, ?_⟩
      rw [W _ (by simp; omega), if_pos rfl, hpn]
    · by_cases hpt : p = tq
      · refine ⟨q, le_of_lt hq, ?_⟩
        rw [W _ (le_of_lt hq), if_neg (by simp), hpt]
        exact hw
      · have hp1 : s.heap p = some t1 := by
          change linked s.heap tq t i n p = some t1 at hp
          rw [linked_other hpt hpn] at hp
          exact hp
        obtain ⟨r, hr, hwr⟩ := hS.owned p t1 hp1
        refine ⟨r, hr, ?_⟩
        rw [W r hr, if_neg]
        · exact hwr
        · intro h; rw [h, hnone] at hwr; cases hwr
  · intro r p t1 j hr hp hh hj
    rw [W r (le_of_lt hr)] at hp
    by_cases e1 : r = q ++ [i]
    · rw [if_pos e1] at hp
      cases hp
      change linked s.heap tq t i n n = some t1 at hh
      rw [linked_new hne] at hh
      cases hh
      exact absurd rfl hj
    · rw [if_neg e1] at hp
      have hpn := (old r p (le_of_lt hr) hp).1
      by_cases hpt : p = tq
      · subst hpt
        change linked s.heap p t i n p = some t1 at hh
        rw [linked_table] at hh
        cases hh
        by_cases hji : j = i
        · subst hji
          simp [Page.setEntry, hi, clear_set n hn0 hn64]
        · have hj1 : t j ≠ 0 := by simpa [Page.setEntry, hji] using hj
          have := hS.entries r p t j hr hp ht hj1
          simpa [Page.setEntry, hji] using this
      · change linked s.heap tq t i n p = some t1 at hh
        rw [linked_other hpt hpn] at hh
        exact hS.entries r p t1 j hr hp hh hj
  · intro r p t1 hr hp hh
    rw [W r (le_of_eq hr)] at hp
    by_cases e1 : r = q ++ [i]
    · rw [if_pos e1] at hp
      cases hp
      change linked s.heap tq t i n n = some t1 at hh
      rw [linked_new hne] at hh
      cases hh
      rfl
    · rw [if_neg e1] at hp
      have hpn := (old r p (le_of_eq hr) hp).1
      have hpt : p ≠ tq := by
        intro h
        have := hS.inj r q p (le_of_eq hr) (le_of_lt hq) hp (h ▸ hw)
        rw [this] at hr; omega
      change linked s.heap tq t i n p = some t1 at hh
      rw [linked_other hpt hpn] at hh
      exact hS.leaves r p t1 hr hp hh

theorem pruned_linked (c : Config) (hc : c.WF) (s : State) (hS : Shape c s) (q : List Nat)
    (tq : Nat) (t : Page) (i n : Nat) (hq : q.length < c.LEVELS) (hw : walk s q = some tq)
    (ht : s.heap tq = some t) (hinv : is_entry_valid (t i) = false) (hi : i < ENTRIES c)
    (hnp : n % PAGE_SIZE c = 0) (hn64 : n < 2 ^ 64) (hfree : s.heap n = none)
    (hP : Pruned c s q) :
    Pruned c ⟨s.ptbr, linked s.heap tq t i n⟩ (q ++ [i]) := by
  have hn0 : n % 2 = 0 := even_of_aligned hc hnp
  have W := walk_linked c s hS q tq t i n hq hw ht hinv hn0 hn64 hfree
  intro r p t1 hr0 hrex hr hp hh
  rw [W r (le_of_lt hr), if_neg hrex] at hp
  obtain ⟨_, _, _, tp, htp⟩ := hS.live r p (le_of_lt hr) hp
  have hpn : p ≠ n := by
    intro h; rw [h, hfree] at htp; cases htp
  by_cases hpt : p = tq
  · subst hpt
    change linked s.heap p t i n p = some t1 at hh
    rw [linked_table] at hh
    cases hh
    exact ⟨i, hi, by simp [Page.setEntry, is_entry_valid_set]⟩
  · change linked s.heap tq t i n p = some t1 at hh
    rw [linked_other hpt hpn] at hh
    have hrq : r ≠ q := by
      intro h; rw [h, hw] at hp; exact hpt (Option.some.inj hp).symm
    exact hP r p t1 hr0 hrq hr hp hh


/-! ## Taking a page out of the tree -/

theorem unlinked_other {h : Heap} {tq : Nat} {t : Page} {i ch p : Nat} (h1 : p ≠ tq)
    (h2 : p ≠ ch) : unlinked h tq t i ch p = h p := by
  simp [unlinked, Heap.setPage, h1, h2]

theorem unlinked_table {h : Heap} {tq : Nat} {t : Page} {i ch : Nat} :
    unlinked h tq t i ch tq = some (t.setEntry i INVALID_BIT) := by
  simp [unlinked, Heap.setPage]

theorem unlinked_gone {h : Heap} {tq : Nat} {t : Page} {i ch : Nat} (hne : ch ≠ tq) :
    unlinked h tq t i ch ch = none := by
  simp [unlinked, Heap.setPage, hne]

theorem snoc_ne_self (q : List Nat) (i : Nat) : q ≠ q ++ [i] := by
  intro h
  have := congrArg List.length h
  simp at this

theorem walk_unlinked (c : Config) (s : State) (hS : Shape c s) (q : List Nat) (tq : Nat)
    (t : Page) (i ch : Nat) (hq : q.length < c.LEVELS) (hw : walk s q = some tq)
    (ht : s.heap tq = some t) (hch : walk s (q ++ [i]) = some ch)
    (hempty : q.length + 1 < c.LEVELS → ∀ j, walk s (q ++ [i] ++ [j]) = none) :
    ∀ r, r.length ≤ c.LEVELS →
      walk ⟨s.ptbr, unlinked s.heap tq t i ch⟩ r = if r = q ++ [i] then none else walk s r := by
  have hqi : (q ++ [i]).length ≤ c.LEVELS := by simp; omega
  intro r
  induction r using List.reverseRecOn with
  | nil =>
    intro _
    simp [walk]
  | append_singleton r j ih =>
    intro hr
    have hr1 : r.length ≤ c.LEVELS := by
      simp at hr; omega
    rw [walk_snoc, ih hr1, walk_snoc]
    by_cases h1 : r = q ++ [i]
    · subst h1
      have h2 : q ++ [i] ++ [j] ≠ q ++ [i] := (snoc_ne_self _ _).symm
      have h3 : q.length + 1 < c.LEVELS := by simp at hr; omega
      rw [if_pos rfl, if_neg h2, child_none, ← walk_snoc, hempty h3 j]
    · simp only [h1, if_false]
      cases hwr : walk s r with
      | none => simp [child_none]
      | some p =>
        have hpc : p ≠ ch := by
          intro h
          exact h1 (hS.inj r (q ++ [i]) p hr1 hqi hwr (h ▸ hch))
        by_cases hp : p = tq
        · have hrq : r = q := hS.inj r q p hr1 (le_of_lt hq) hwr (hp ▸ hw)
          subst hp
          show child (unlinked s.heap p t i ch) (some p) j = _
          rw [child_some_heap j unlinked_table, child_some_heap j ht]
          by_cases hji : j = i
          · subst hji
            simp [hrq, Page.setEntry, INVALID_BIT, is_entry_valid_zero]
          · have h2 : r ++ [j] ≠ q ++ [i] := by
              intro h
              exact hji (by simpa using (List.append_inj' h rfl).2)
            simp [h2, Page.setEntry, hji]
        · have h2 : r ++ [j] ≠ q ++ [i] := by
            intro h
            have hrq : r = q := (List.append_inj' h rfl).1
            rw [hrq, hw] at hwr
            exact hp (Option.some.inj hwr).symm
          simp only [h2, if_false]
          show child (unlinked s.heap tq t i ch) (some p) j = child s.heap (some p) j
          unfold child
          simp only []
          rw [unlinked_other hp hpc]

theorem shape_unlinked (c : Config) (s : State) (hS : Shape c s) (q : List Nat)
    (tq : Nat) (t : Page) (i ch : Nat) (hq : q.length < c.LEVELS) (hw : walk s q = some tq)
    (ht : s.heap tq = some t) (hch : walk s (q ++ [i]) = some ch)
    (hempty : q.length + 1 < c.LEVELS → ∀ j, walk s (q ++ [i] ++ [j]) = none) :
    Shape c ⟨s.ptbr, unlinked s.heap tq t i ch⟩ := by
  have hqi : (q ++ [i]).length ≤ c.LEVELS := by simp; omega
  have W := walk_unlinked c s hS q tq t i ch hq hw ht hch hempty
  have hne : ch ≠ tq := by
    intro h
    exact snoc_ne_self q i (hS.inj q (q ++ [i]) tq (le_of_lt hq) hqi hw (h ▸ hch))
  -- what the new tree reaches, the old tree reached, and it is not the released page
  have old : ∀ r p, r.length ≤ c.LEVELS →
      walk ⟨s.ptbr, unlinked s.heap tq t i ch⟩ r = some p →
      r ≠ q ++ [i] ∧ walk s r = some p ∧ p ≠ ch := by
    intro r p hr hp
    rw [W r hr] at hp
    by_cases e1 : r = q ++ [i]
    · rw [if_pos e1] at hp; cases hp
    · rw [if_neg e1] at hp
      refine ⟨e1, hp, ?_⟩
      intro h
      exact e1 (hS.inj r (q ++ [i]) p hr hqi hp (h ▸ hch))
  constructor
  · intro r p hr hp
    obtain ⟨_, hp1, hpc⟩ := old r p hr hp
    obtain ⟨a, b, d, tp, htp⟩ := hS.live r p hr hp1
    refine ⟨a, b, d, ?_⟩
    by_cases hpt : p = tq
    · subst hpt; exact ⟨_, unlinked_table⟩
    · exact ⟨tp, by show unlinked s.heap tq t i ch p = some tp; rw [unlinked_other hpt hpc]; exact htp⟩
  · intro r1 r2 p hr1 hr2 h1 h2
    exact hS.inj r1 r2 p hr1 hr2 (old r1 p hr1 h1).2.1 (old r2 p hr2 h2).2.1
  · intro p t1 hp
    change unlinked s.heap tq t i ch p = some t1 at hp
    have hpc : p ≠ ch := by
      intro h; rw [h, unlinked_gone hne] at hp; cases hp
    by_cases hpt : p = tq
    · refine ⟨q, le_of_lt hq, ?_⟩
      rw [W _ (le_of_lt hq), if_neg (snoc_ne_self q i), hpt]
      exact hw
    · rw [unlinked_other hpt hpc] at hp
      obtain ⟨r, hr, hwr⟩ := hS.owned p t1 hp
      refine ⟨r, hr, ?_⟩
      rw [W r hr, if_neg]
      · exact hwr
      · intro h; rw [h, hch] at hwr; exact hpc (Option.some.inj hwr).symm
  · intro r p t1 j hr hp hh hj
    obtain ⟨_, hp1, hpc⟩ := old r p (le_of_lt hr) hp
    change unlinked s.heap tq t i ch p = some t1 at hh
    by_cases hpt : p = tq
    · subst hpt
      rw [unlinked_table] at hh
      cases hh
      by_cases hji : j = i
      · subst hji
        simp [Page.setEntry, INVALID_BIT] at hj
      · have hj1 : t j ≠ 0 := by simpa [Page.setEntry, hji] using hj
        have := hS.entries r p t j hr hp1 ht hj1
        simpa [Page.setEntry, hji] using this
    · rw [unlinked_other hpt hpc] at hh
      exact hS.entries r p t1 j hr hp1 hh hj
  · intro r p t1 hr hp hh
    obtain ⟨_, hp1, hpc⟩ := old r p (le_of_eq hr) hp
    have hpt : p ≠ tq := by
      intro h
      have := hS.inj r q p (le_of_eq hr) (le_of_lt hq) hp1 (h ▸ hw)
      rw [this] at hr; omega
    change unlinked s.heap tq t i ch p = some t1 at hh
    rw [unlinked_other hpt hpc] at hh
    exact hS.leaves r p t1 hr hp1 hh

theorem pruned_unlinked (c : Config) (s : State) (hS : Shape c s) (q : List Nat)
    (tq : Nat) (t : Page) (i ch : Nat) (hq : q.length < c.LEVELS) (hw : walk s q = some tq)
    (ht : s.heap tq = some t) (hch : walk s (q ++ [i]) = some ch)
    (hempty : q.length + 1 < c.LEVELS → ∀ j, walk s (q ++ [i] ++ [j]) = none)
    (hP : Pruned c s (q ++ [i])) :
    Pruned c ⟨s.ptbr, unlinked s.heap tq t i ch⟩ q := by
  have hqi : (q ++ [i]).length ≤ c.LEVELS := by simp; omega
  have W := walk_unlinked c s hS q tq t i ch hq hw ht hch hempty
  intro r p t1 hr0 hrex hr hp hh
  rw [W r (le_of_lt hr)] at hp
  by_cases e1 : r = q ++ [i]
  · rw [if_pos e1] at hp; cases hp
  · rw [if_neg e1] at hp
    have hpc : p ≠ ch := by
      intro h
      exact e1 (hS.inj r (q ++ [i]) p (le_of_lt hr) hqi hp (h ▸ hch))
    have hpt : p ≠ tq := by
      intro h
      exact hrex (hS.inj r q p (le_of_lt hr) (le_of_lt hq) hp (h ▸ hw))
    change unlinked s.heap tq t i ch p = some t1 at hh
    rw [unlinked_other hpt hpc] at hh
    exact hP r p t1 hr0 e1 hr hp hh

theorem pruned_weaken {c : Config} {s : State} (ex : List Nat) (hP : Pruned c s []) :
    Pruned c s ex := by
  intro r p t hr0 _ hr hp hh
  exact hP r p t hr0 hr0 hr hp hh

theorem pruned_of_nonempty {c : Config} {s : State} {ex : List Nat} (ex1 : List Nat)
    (hP : Pruned c s ex)
    (hne : ∀ p t, walk s ex = some p → s.heap p = some t →
      ∃ i, i < ENTRIES c ∧ is_entry_valid (t i) = true) :
    Pruned c s ex1 := by
  intro r p t hr0 _ hr hp hh
  by_cases h : r = ex
  · subst h; exact hne p t hp hh
  · exact hP r p t hr0 h hr hp hh

theorem pruned_of_length {c : Config} {s : State} {ex : List Nat} (ex1 : List Nat)
    (hP : Pruned c s ex) (hlen : c.LEVELS ≤ ex.length) : Pruned c s ex1 := by
  intro r p t hr0 _ hr hp hh
  refine hP r p t hr0 ?_ hr hp hh
  intro h; rw [h] at hr; omega


/-! ## The index path of an address -/

theorem length_populate_vpn_offsets (c : Config) (va : Nat) :
    (populate_vpn_offsets c va).length = c.LEVELS := by
  simp [populate_vpn_offsets]

theorem getD_populate_vpn_offsets (c : Config) (va : Nat) {level : Nat}
    (h : level < c.LEVELS) :
    (populate_vpn_offsets c va).getD level 0 = vpn_index c va level := by
  simp [populate_vpn_offsets, List.getD_eq_getElem?_getD, List.getElem?_map,
    List.getElem?_range h]

theorem vpn_index_lt (c : Config) (va level : Nat) : vpn_index c va level < ENTRIES c := by
  unfold vpn_index VPN_MASK ENTRIES
  rw [Nat.one_shiftLeft, Nat.and_pow_two_sub_one_eq_mod]
  exact Nat.mod_lt _ (Nat.two_pow_pos _)

theorem take_succ_getD (l : List Nat) {j : Nat} (h : j < l.length) :
    l.take (j + 1) = l.take j ++ [l.getD j 0] := by
  rw [List.take_succ, List.getD_eq_getElem?_getD, List.getElem?_eq_getElem h]
  simp

theorem take_ne_take (l : List Nat) {a b : Nat} (ha : a ≤ l.length) (hab : a ≠ b)
    (hb : b ≤ l.length) : l.take a ≠ l.take b := by
  intro h
  have := congrArg List.length h
  simp [List.length_take, Nat.min_eq_left ha, Nat.min_eq_left hb] at this
  exact hab this

theorem walk_take_none (s : State) (l : List Nat) {a b : Nat} (hab : a ≤ b)
    (h : walk s (l.take a) = none) : walk s (l.take b) = none := by
  have : l.take b = l.take a ++ (l.take b).drop a := by
    conv_lhs => rw [← List.take_append_drop a (l.take b)]
    rw [List.take_take, Nat.min_eq_left hab]
  rw [this]
  exact walk_append_none s _ _ h


/-! ## `translate` reads the leaf of the path -/

theorem calculate_page_offset_eq (c : Config) (va : Nat) :
    calculate_page_offset c va = va % PAGE_SIZE c := by
  unfold calculate_page_offset PAGE_SIZE
  rw [Nat.one_shiftLeft, Nat.and_pow_two_sub_one_eq_mod]

theorem calculate_page_offset_lt (c : Config) (va : Nat) :
    calculate_page_offset c va < PAGE_SIZE c := by
  rw [calculate_page_offset_eq]
  exact Nat.mod_lt _ (by rw [PAGE_SIZE_eq]; exact Nat.two_pow_pos _)

theorem aligned_add_lt {c : Config} (hc : c.WF) {p off : Nat} (hp : p % PAGE_SIZE c = 0)
    (hp64 : p < 2 ^ 64) (hoff : off < PAGE_SIZE c) : p + off < 2 ^ 64 := by
  rw [PAGE_SIZE_eq] at hp hoff
  obtain ⟨k, hk⟩ := Nat.dvd_of_mod_eq_zero hp
  have hP : c.POBITS ≤ 64 := by have := hc.2.1; omega
  have h64 : (2 : Nat) ^ 64 = 2 ^ c.POBITS * 2 ^ (64 - c.POBITS) := by
    rw [← Nat.pow_add]; congr 1; omega
  rw [h64, hk] at hp64
  have hk1 : k < 2 ^ (64 - c.POBITS) := Nat.lt_of_mul_lt_mul_left hp64
  calc p + off < 2 ^ c.POBITS * k + 2 ^ c.POBITS := by omega
    _ = 2 ^ c.POBITS * (k + 1) := by ring
    _ ≤ 2 ^ c.POBITS * 2 ^ (64 - c.POBITS) := Nat.mul_le_mul_left _ hk1
    _ = 2 ^ 64 := h64.symm

theorem load_of_heap {h : Heap} {b : Nat} {t : Page} (hb : h b = some t) (i : Nat) :
    load h b i = .ok (t i) := by
  simp [load, hb]

theorem page_walk_loop_succ (c : Config) (h : Heap) (vpn : List Nat) (off rem b : Nat)
    (t : Page) (hb0 : b ≠ 0) (ht : h b = some t) :
    page_walk_loop c h vpn off (rem + 1) b =
      if is_entry_valid (t (vpn.getD (c.LEVELS - (rem + 1)) 0)) = true then
        if c.LEVELS - (rem + 1) + 1 = c.LEVELS then
          .ok ((clear_valid_bit (t (vpn.getD (c.LEVELS - (rem + 1)) 0)) + off) % 2 ^ 64)
        else
          page_walk_loop c h vpn off rem (clear_valid_bit (t (vpn.getD (c.LEVELS - (rem + 1)) 0)))
      else .ok SEGFAULT := by
  rw [page_walk_loop]
  simp only [hb0, if_false, load_of_heap ht]
  cases is_entry_valid (t (vpn.getD (c.LEVELS - (rem + 1)) 0)) <;> simp

theorem page_walk_loop_spec (c : Config) (s : State) (hS : Shape c s) (vpn : List Nat)
    (hlen : vpn.length = c.LEVELS) (off : Nat) :
    ∀ rem b, rem + 1 ≤ c.LEVELS → walk s (vpn.take (c.LEVELS - (rem + 1))) = some b →
      page_walk_loop c s.heap vpn off (rem + 1) b =
        .ok (match walk s vpn with
             | some p => (p + off) % 2 ^ 64
             | none => SEGFAULT) := by
  intro rem
  induction rem with
  | zero =>
    intro b _ hb
    have hL : c.LEVELS - (0 + 1) < vpn.length := by omega
    obtain ⟨hb0, _, _, t, ht⟩ := hS.live _ b (by rw [List.length_take]; omega) hb
    have hfull : walk s vpn = child s.heap (some b) (vpn.getD (c.LEVELS - (0 + 1)) 0) := by
      conv_lhs => rw [← List.take_length vpn, hlen]
      have : c.LEVELS = (c.LEVELS - (0 + 1)) + 1 := by omega
      conv_lhs => rw [this]
      rw [take_succ_getD vpn hL, walk_snoc, hb]
    rw [hfull, child_some_heap _ ht, page_walk_loop_succ c s.heap vpn off 0 b t hb0 ht]
    have : c.LEVELS - (0 + 1) + 1 = c.LEVELS := by omega
    rw [if_pos this]
    cases is_entry_valid (t (vpn.getD (c.LEVELS - (0 + 1)) 0)) <;> simp
  | succ rem ih =>
    intro b hrem hb
    have hL : c.LEVELS - (rem + 1 + 1) < vpn.length := by omega
    obtain ⟨hb0, _, _, t, ht⟩ := hS.live _ b (by rw [List.length_take]; omega) hb
    have hnext : walk s (vpn.take (c.LEVELS - (rem + 1))) =
        child s.heap (some b) (vpn.getD (c.LEVELS - (rem + 1 + 1)) 0) := by
      have : c.LEVELS - (rem + 1) = (c.LEVELS - (rem + 1 + 1)) + 1 := by omega
      rw [this, take_succ_getD vpn hL, walk_snoc, hb]
    rw [child_some_heap _ ht] at hnext
    rw [page_walk_loop_succ c s.heap vpn off (rem + 1) b t hb0 ht]
    have hne : ¬ (c.LEVELS - (rem + 1 + 1) + 1 = c.LEVELS) := by omega
    rw [if_neg hne]
    cases hv : is_entry_valid (t (vpn.getD (c.LEVELS - (rem + 1 + 1)) 0))
    · rw [hv] at hnext
      have hnone : walk s vpn = none := by
        have := walk_take_none s vpn (Nat.sub_le c.LEVELS (rem + 1)) (by simpa using hnext)
        rwa [← hlen, List.take_length] at this
      simp [hnone]
    · rw [hv] at hnext
      simp only [if_true]
      exact ih _ (by omega) (by simpa using hnext)

theorem translate_eq (c : Config) (hc : c.WF) (s : State) (hS : Shape c s) (va : Nat) :
    translate c s va =
      .ok (match leaf_page c s va with
           | some p => p + calculate_page_offset c va
           | none => SEGFAULT) := by
  have hL : 1 ≤ c.LEVELS := hc.2.2.1
  unfold translate page_walk leaf_page
  by_cases h0 : s.ptbr = 0
  · have hnone : walk s (populate_vpn_offsets c va) = none := by
      unfold walk; rw [if_pos h0]; exact foldl_child_none _ _
    rw [hnone]
    obtain ⟨n, hn⟩ : ∃ n, c.LEVELS = n + 1 := ⟨c.LEVELS - 1, by omega⟩
    rw [hn]
    unfold page_walk_loop
    simp [h0]
  · obtain ⟨n, hn⟩ : ∃ n, c.LEVELS = n + 1 := ⟨c.LEVELS - 1, by omega⟩
    have hroot : walk s ((populate_vpn_offsets c va).take (c.LEVELS - (n + 1))) =
        some s.ptbr := by
      have : c.LEVELS - (n + 1) = 0 := by omega
      rw [this]; simp [walk, h0]
    have := page_walk_loop_spec c s hS (populate_vpn_offsets c va)
      (length_populate_vpn_offsets c va) (calculate_page_offset c va) n s.ptbr (by omega) hroot
    rw [← hn] at this
    rw [this]
    cases hw : walk s (populate_vpn_offsets c va) with
    | none => rfl
    | some p =>
      obtain ⟨_, hal, h64, _⟩ := hS.live _ p (by rw [length_populate_vpn_offsets]) hw
      simp only []
      rw [Nat.mod_eq_of_lt (aligned_add_lt hc hal h64 (calculate_page_offset_lt c va))]

theorem translate_of_leaf {c : Config} (hc : c.WF) {s : State} (hS : Shape c s) {va p : Nat}
    (h : leaf_page c s va = some p) :
    translate c s va = .ok (p + calculate_page_offset c va) := by
  rw [translate_eq c hc s hS va, h]

theorem translate_of_unmapped {c : Config} (hc : c.WF) {s : State} (hS : Shape c s) {va : Nat}
    (h : leaf_page c s va = none) : translate c s va = .ok SEGFAULT := by
  rw [translate_eq c hc s hS va, h]


/-! ## `allocate_page_tables` -/

theorem alloc_step_valid (c : Config) (h : Heap) (vpn : List Nat) (rem : Nat)
    (fresh : List Nat) (b : Nat) (t : Page) (ht : h b = some t)
    (hv : is_entry_valid (t (vpn.getD (c.LEVELS - (rem + 1)) 0)) = true) :
    allocate_page_tables_loop c vpn (rem + 1) fresh h b =
      allocate_page_tables_loop c vpn rem fresh h
        (clear_valid_bit (t (vpn.getD (c.LEVELS - (rem + 1)) 0))) := by
  rw [allocate_page_tables_loop]
  simp only [load_of_heap ht, hv]
  simp

theorem alloc_step_nomem (c : Config) (h : Heap) (vpn : List Nat) (rem : Nat)
    (b : Nat) (t : Page) (ht : h b = some t)
    (hv : is_entry_valid (t (vpn.getD (c.LEVELS - (rem + 1)) 0)) = false) :
    allocate_page_tables_loop c vpn (rem + 1) [] h b = .error .nomem := by
  rw [allocate_page_tables_loop]
  simp only [load_of_heap ht, hv, allocate_new_page]
  simp

theorem alloc_step_new (c : Config) (h : Heap) (vpn : List Nat) (rem : Nat)
    (n : Nat) (rest : List Nat) (b : Nat) (t : Page) (ht : h b = some t)
    (hv : is_entry_valid (t (vpn.getD (c.LEVELS - (rem + 1)) 0)) = false)
    (hne : b ≠ n) (hn0 : n % 2 = 0) (hn64 : n < 2 ^ 64) :
    allocate_page_tables_loop c vpn (rem + 1) (n :: rest) h b =
      allocate_page_tables_loop c vpn rem rest
        (linked h b t (vpn.getD (c.LEVELS - (rem + 1)) 0) n) n := by
  have h1 : (h.setPage n (some zero_page)) b = some t := by
    simp [Heap.setPage, hne, ht]
  have h2 : store (h.setPage n (some zero_page)) b (vpn.getD (c.LEVELS - (rem + 1)) 0)
      (set_valid_bit n) = .ok (linked h b t (vpn.getD (c.LEVELS - (rem + 1)) 0) n) := by
    simp [store, h1, linked]
  have h3 : load (linked h b t (vpn.getD (c.LEVELS - (rem + 1)) 0) n) b
      (vpn.getD (c.LEVELS - (rem + 1)) 0) = .ok (set_valid_bit n) := by
    rw [load_of_heap linked_table]
    simp [Page.setEntry]
  rw [allocate_page_tables_loop]
  simp only [load_of_heap ht, hv, allocate_new_page, h2, h3, clear_set n hn0 hn64]
  simp

theorem freshValid_tail {c : Config} {h : Heap} {n : Nat} {rest : List Nat} {b : Nat}
    {t : Page} {i : Nat} (hf : FreshValid c h (n :: rest)) (ht : h b = some t) :
    FreshValid c (linked h b t i n) rest := by
  obtain ⟨hnd, hall⟩ := hf
  rw [List.nodup_cons] at hnd
  refine ⟨hnd.2, ?_⟩
  intro p hp
  obtain ⟨a1, a2, a3, a4⟩ := hall p (List.mem_cons_of_mem _ hp)
  refine ⟨a1, a2, a3, ?_⟩
  have hpb : p ≠ b := by
    intro e; rw [e, ht] at a4; cases a4
  have hpn : p ≠ n := by
    intro e; rw [e] at hp; exact hnd.1 hp
  rw [linked_other hpb hpn]
  exact a4

theorem alloc_loop_spec (c : Config) (hc : c.WF) (vpn : List Nat)
    (hlen : vpn.length = c.LEVELS) (hidx : ∀ j, vpn.getD j 0 < ENTRIES c) :
    ∀ rem fresh (s : State) b, rem ≤ c.LEVELS → Shape c s →
      Pruned c s (vpn.take (c.LEVELS - rem)) →
      walk s (vpn.take (c.LEVELS - rem)) = some b → FreshValid c s.heap fresh →
      match allocate_page_tables_loop c vpn rem fresh s.heap b with
      | .error e => e = .nomem ∧ fresh.length < rem
      | .ok h1 =>
        Shape c ⟨s.ptbr, h1⟩ ∧ Pruned c ⟨s.ptbr, h1⟩ [] ∧
        (∃ p, walk ⟨s.ptbr, h1⟩ vpn = some p) ∧
        ∀ r, r.length ≤ c.LEVELS → (walk s r = none → ∀ m, r ≠ vpn.take m) →
          walk ⟨s.ptbr, h1⟩ r = walk s r := by
  intro rem
  induction rem with
  | zero =>
    intro fresh s b _ hS hP hb _
    rw [allocate_page_tables_loop]
    simp only [Nat.sub_zero] at hP hb
    refine ⟨hS, pruned_of_length [] hP (by simp [hlen]), ⟨b, ?_⟩, fun r _ _ => rfl⟩
    rw [← hlen, List.take_length] at hb
    exact hb
  | succ rem ih =>
    intro fresh s b hrem hS hP hb hF
    have hL : c.LEVELS - (rem + 1) < vpn.length := by omega
    have hqlen : (vpn.take (c.LEVELS - (rem + 1))).length < c.LEVELS := by
      rw [List.length_take]; omega
    obtain ⟨hb0, _, _, t, ht⟩ := hS.live _ b (le_of_lt hqlen) hb
    have hlev : c.LEVELS - rem = (c.LEVELS - (rem + 1)) + 1 := by omega
    have htake : vpn.take (c.LEVELS - rem) =
        vpn.take (c.LEVELS - (rem + 1)) ++ [vpn.getD (c.LEVELS - (rem + 1)) 0] := by
      rw [hlev, take_succ_getD vpn hL]
    have hnext : walk s (vpn.take (c.LEVELS - rem)) =
        child s.heap (some b) (vpn.getD (c.LEVELS - (rem + 1)) 0) := by
      rw [htake, walk_snoc, hb]
    rw [child_some_heap _ ht] at hnext
    cases hv : is_entry_valid (t (vpn.getD (c.LEVELS - (rem + 1)) 0))
    · -- the entry is invalid: a page is taken from the allocator
      rw [hv] at hnext
      cases fresh with
      | nil =>
        rw [alloc_step_nomem c s.heap vpn rem b t ht hv]
        exact ⟨rfl, by simp⟩
      | cons n rest =>
        obtain ⟨hn, hnp, hntop, hfree⟩ := hF.2 n (List.mem_cons_self _ _)
        have hn64 : n < 2 ^ 64 := by omega
        have hn0 : n % 2 = 0 := even_of_aligned hc hnp
        have hbn : b ≠ n := by
          intro e; rw [e, hfree] at ht; cases ht
        rw [alloc_step_new c s.heap vpn rem n rest b t ht hv hbn hn0 hn64]
        have W := walk_linked c s hS _ b t _ n hqlen hb ht hv hn0 hn64 hfree
        have hS1 := shape_linked c hc s hS _ b t _ n hqlen hb ht hv (hidx _) hn hnp hn64 hfree
        have hP1 := pruned_linked c hc s hS _ b t _ n hqlen hb ht hv (hidx _) hnp hn64 hfree hP
        rw [← htake] at W hP1
        have hb1 := W (vpn.take (c.LEVELS - rem)) (by rw [List.length_take]; omega)
        rw [if_pos rfl] at hb1
        have := ih rest ⟨s.ptbr, linked s.heap b t (vpn.getD (c.LEVELS - (rem + 1)) 0) n⟩ n
          (by omega) hS1 hP1 hb1 (freshValid_tail hF ht)
        simp only [] at this
        generalize allocate_page_tables_loop c vpn rem rest
          (linked s.heap b t (vpn.getD (c.LEVELS - (rem + 1)) 0) n) n = res at this
        cases res with
        | error e =>
          simp only [] at this ⊢
          exact ⟨this.1, by simp; omega⟩
        | ok h1 =>
          simp only [] at this ⊢
          obtain ⟨a1, a2, a3, a4⟩ := this
          refine ⟨a1, a2, a3, ?_⟩
          intro r hr hrn
          have hr1 : r ≠ vpn.take (c.LEVELS - rem) := by
            intro e
            rw [e] at hrn
            exact hrn (by simpa using hnext) _ rfl
          have hw1 := W r hr
          rw [if_neg hr1] at hw1
          rw [a4 r hr (by rw [hw1]; exact hrn), hw1]
    · -- the entry is valid: descend
      rw [hv] at hnext
      rw [alloc_step_valid c s.heap vpn rem fresh b t ht hv]
      have hP1 : Pruned c s (vpn.take (c.LEVELS - rem)) := by
        refine pruned_of_nonempty _ hP ?_
        intro p t1 hp1 ht1
        rw [hb] at hp1
        cases hp1
        rw [ht] at ht1
        cases ht1
        exact ⟨_, hidx _, hv⟩
      have := ih fresh s _ (by omega) hS hP1 (hnext.trans (if_pos rfl)) hF
      generalize allocate_page_tables_loop c vpn rem fresh s.heap
          (clear_valid_bit (t (vpn.getD (c.LEVELS - (rem + 1)) 0))) = res at this
      cases res with
      | error e =>
        simp only [] at this ⊢
        exact ⟨this.1, by omega⟩
      | ok h1 =>
        exact this


/-! ## `page_allocate` -/

theorem walk_ptbr_zero (s : State) (h0 : s.ptbr = 0) (r : List Nat) : walk s r = none := by
  unfold walk; rw [if_pos h0]; exact foldl_child_none _ _

theorem heap_empty_of_ptbr_zero {c : Config} {s : State} (hS : Shape c s) (h0 : s.ptbr = 0)
    (p : Nat) : s.heap p = none := by
  cases hp : s.heap p with
  | none => rfl
  | some t =>
    obtain ⟨r, _, hr⟩ := hS.owned p t hp
    rw [walk_ptbr_zero s h0 r] at hr
    cases hr

theorem walk_root (h : Heap) (n : Nat) (hn : n ≠ 0) :
    ∀ r, walk ⟨n, h.setPage n (some zero_page)⟩ r = if r = [] then some n else none := by
  intro r
  induction r using List.reverseRecOn with
  | nil => simp [walk, hn]
  | append_singleton r j ih =>
    rw [walk_snoc, ih]
    have hne : r ++ [j] ≠ [] := by simp
    rw [if_neg hne]
    by_cases hr : r = []
    · rw [if_pos hr]
      have : (⟨n, h.setPage n (some zero_page)⟩ : State).heap n = some zero_page := by
        simp [Heap.setPage]
      rw [child_some_heap j this]
      simp [zero_page, is_entry_valid_zero]
    · rw [if_neg hr, child_none]

theorem shape_root (c : Config) (h : Heap) (hempty : ∀ p, h p = none) (n : Nat) (hn : n ≠ 0)
    (hnp : n % PAGE_SIZE c = 0) (hn64 : n < 2 ^ 64) :
    Shape c ⟨n, h.setPage n (some zero_page)⟩ := by
  have W := walk_root h n hn
  have hroot : ∀ r p, walk ⟨n, h.setPage n (some zero_page)⟩ r = some p → r = [] ∧ p = n := by
    intro r p hp
    rw [W r] at hp
    by_cases hr : r = []
    · rw [if_pos hr] at hp; exact ⟨hr, (Option.some.inj hp).symm⟩
    · rw [if_neg hr] at hp; cases hp
  have hheap : ∀ p t, (h.setPage n (some zero_page)) p = some t → p = n ∧ t = zero_page := by
    intro p t hp
    by_cases e : p = n
    · simp [Heap.setPage, e] at hp; exact ⟨e, hp.symm⟩
    · simp [Heap.setPage, e, hempty p] at hp
  constructor
  · intro r p _ hp
    obtain ⟨_, e⟩ := hroot r p hp
    subst e
    exact ⟨hn, hnp, hn64, zero_page, by simp [Heap.setPage]⟩
  · intro r1 r2 p _ _ h1 h2
    rw [(hroot r1 p h1).1, (hroot r2 p h2).1]
  · intro p t hp
    obtain ⟨e, _⟩ := hheap p t hp
    exact ⟨[], by simp, by rw [W, if_pos rfl, e]⟩
  · intro r p t i _ _ hp hi
    obtain ⟨_, e⟩ := hheap p t hp
    rw [e] at hi
    exact absurd rfl hi
  · intro r p t _ _ hp
    exact (hheap p t hp).2

theorem pruned_root (c : Config) (h : Heap) (n : Nat) (hn : n ≠ 0) :
    Pruned c ⟨n, h.setPage n (some zero_page)⟩ [] := by
  intro r p t hr0 _ _ hp _
  rw [walk_root h n hn r, if_neg hr0] at hp
  cases hp

theorem page_allocate_eq (c : Config) (fresh : List Nat) (s : State) (va : Nat)
    (h0 : s.ptbr ≠ 0) :
    page_allocate c fresh s va =
      match allocate_page_tables_loop c (populate_vpn_offsets c va) c.LEVELS fresh s.heap
          s.ptbr with
      | .error e => .error e
      | .ok h => .ok ⟨s.ptbr, h⟩ := by
  simp [page_allocate, initialize_page_table, h0, allocate_page_tables]

theorem page_allocate_eq_first (c : Config) (n : Nat) (rest : List Nat) (s : State) (va : Nat)
    (h0 : s.ptbr = 0) :
    page_allocate c (n :: rest) s va =
      match allocate_page_tables_loop c (populate_vpn_offsets c va) c.LEVELS rest
          (s.heap.setPage n (some zero_page)) n with
      | .error e => .error e
      | .ok h => .ok ⟨n, h⟩ := by
  simp [page_allocate, initialize_page_table, h0, allocate_page_tables, allocate_new_page]

theorem page_allocate_nomem (c : Config) (s : State) (va : Nat) (h0 : s.ptbr = 0) :
    page_allocate c [] s va = .error .nomem := by
  simp [page_allocate, initialize_page_table, h0, allocate_new_page]

theorem getD_vpn_lt (c : Config) (va j : Nat) :
    (populate_vpn_offsets c va).getD j 0 < ENTRIES c := by
  by_cases hj : j < c.LEVELS
  · rw [getD_populate_vpn_offsets c va hj]; exact vpn_index_lt c va j
  · rw [List.getD_eq_default _ _ (by rw [length_populate_vpn_offsets]; omega)]
    rw [ENTRIES_eq]; exact Nat.two_pow_pos _

theorem freshValid_after_root {c : Config} {h : Heap} {n : Nat} {rest : List Nat}
    (hF : FreshValid c h (n :: rest)) : FreshValid c (h.setPage n (some zero_page)) rest := by
  obtain ⟨hnd, hall⟩ := hF
  rw [List.nodup_cons] at hnd
  refine ⟨hnd.2, ?_⟩
  intro p hp
  obtain ⟨a1, a2, a3, a4⟩ := hall p (List.mem_cons_of_mem _ hp)
  refine ⟨a1, a2, a3, ?_⟩
  have hpn : p ≠ n := by
    intro e; rw [e] at hp; exact hnd.1 hp
  simp [Heap.setPage, hpn, a4]

theorem page_allocate_first (c : Config) (n : Nat) (rest : List Nat) (s : State) (va : Nat)
    (h0 : s.ptbr = 0) (hn : n ≠ 0) :
    page_allocate c (n :: rest) s va =
      page_allocate c rest ⟨n, s.heap.setPage n (some zero_page)⟩ va :=
  (page_allocate_eq_first c n rest s va h0).trans
    (page_allocate_eq c rest ⟨n, s.heap.setPage n (some zero_page)⟩ va hn).symm

theorem page_allocate_spec (c : Config) (hc : c.WF) (s : State) (fresh : List Nat) (va : Nat)
    (hS : Shape c s) (hP : Pruned c s []) (hF : FreshValid c s.heap fresh) :
    match page_allocate c fresh s va with
    | .error e => e = .nomem ∧ fresh.length < c.LEVELS + (if s.ptbr = 0 then 1 else 0)
    | .ok s1 =>
      Shape c s1 ∧ Pruned c s1 [] ∧ (∃ p, leaf_page c s1 va = some p) ∧
      (s.ptbr ≠ 0 → s1.ptbr = s.ptbr) ∧
      ∀ r, r.length ≤ c.LEVELS →
        (walk s r = none → ∀ m, r ≠ (populate_vpn_offsets c va).take m) →
        walk s1 r = walk s r := by
  have hlen := length_populate_vpn_offsets c va
  have hidx := getD_vpn_lt c va
  by_cases h0 : s.ptbr = 0
  · cases fresh with
    | nil =>
      rw [page_allocate_nomem c s va h0]
      exact ⟨rfl, by simp [h0]⟩
    | cons n rest =>
      obtain ⟨hn, hnp, hntop, _⟩ := hF.2 n (List.mem_cons_self _ _)
      have hn64 : n < 2 ^ 64 := by omega
      have hempty := heap_empty_of_ptbr_zero hS h0
      have hS0 := shape_root c s.heap hempty n hn hnp hn64
      have hP0 := pruned_root c s.heap n hn
      have hF0 : FreshValid c (s.heap.setPage n (some zero_page)) rest :=
        freshValid_after_root hF
      have hw0 : walk ⟨n, s.heap.setPage n (some zero_page)⟩
          ((populate_vpn_offsets c va).take (c.LEVELS - c.LEVELS)) = some n := by
        rw [walk_root s.heap n hn]; simp
      have := alloc_loop_spec c hc _ hlen hidx c.LEVELS rest
        ⟨n, s.heap.setPage n (some zero_page)⟩ n (le_refl _) hS0
        (by simpa using hP0) hw0 hF0
      rw [page_allocate_eq_first c n rest s va h0]
      simp only [] at this
      generalize allocate_page_tables_loop c (populate_vpn_offsets c va) c.LEVELS rest
        (s.heap.setPage n (some zero_page)) n = res at this
      cases res with
      | error e =>
        simp only [] at this ⊢
        exact ⟨this.1, by simp [h0]; omega⟩
      | ok h1 =>
        simp only [] at this ⊢
        obtain ⟨a1, a2, a3, a4⟩ := this
        refine ⟨a1, a2, a3, fun hne => absurd h0 hne, ?_⟩
        intro r hr hrn
        have hr0 : r ≠ [] := by
          intro e
          have := hrn (walk_ptbr_zero s h0 r) 0
          simp [e] at this
        have hw1 : walk ⟨n, s.heap.setPage n (some zero_page)⟩ r = none := by
          rw [walk_root s.heap n hn, if_neg hr0]
        rw [a4 r hr (fun _ => hrn (walk_ptbr_zero s h0 r)), hw1, walk_ptbr_zero s h0 r]
  · have hw0 : walk s ((populate_vpn_offsets c va).take (c.LEVELS - c.LEVELS)) =
        some s.ptbr := by
      simp [walk, h0]
    have := alloc_loop_spec c hc _ hlen hidx c.LEVELS fresh s s.ptbr (le_refl _) hS
      (by simpa using hP) hw0 hF
    rw [page_allocate_eq c fresh s va h0]
    generalize allocate_page_tables_loop c (populate_vpn_offsets c va) c.LEVELS fresh
        s.heap s.ptbr = res at this
    cases res with
    | error e =>
      simp only [] at this ⊢
      exact ⟨this.1, by simp [h0]; omega⟩
    | ok h1 =>
      obtain ⟨a1, a2, a3, a4⟩ := this
      exact ⟨a1, a2, a3, fun _ => rfl, a4⟩


/-! ## Helpers of `page_free` -/

theorem is_page_table_empty_loop_spec (c : Config) (h : Heap) (tb : Nat) (t : Page)
    (ht : h tb = some t) :
    ∀ rem, ∃ e, is_page_table_empty_loop c h tb rem = .ok e ∧
      (e = true ↔ ∀ i, ENTRIES c - rem ≤ i → i < ENTRIES c → is_entry_valid (t i) = false) := by
  intro rem
  induction rem with
  | zero =>
    refine ⟨true, rfl, ?_⟩
    simp only [true_iff]
    intro i h1 h2
    omega
  | succ rem ih =>
    obtain ⟨e, he, hiff⟩ := ih
    rw [is_page_table_empty_loop]
    simp only [load_of_heap ht]
    cases hv : is_entry_valid (t (ENTRIES c - (rem + 1)))
    · refine ⟨e, by simpa using he, ?_⟩
      rw [hiff]
      constructor
      · intro hall i h1 h2
        by_cases hi : i = ENTRIES c - (rem + 1)
        · rw [hi]; exact hv
        · exact hall i (by omega) h2
      · intro hall i h1 h2
        exact hall i (by omega) h2
    · refine ⟨false, by simp, ?_⟩
      simp only [Bool.false_eq_true, false_iff]
      intro hall
      by_cases hr : rem + 1 ≤ ENTRIES c
      · have := hall (ENTRIES c - (rem + 1)) (le_refl _) (by
          have : 0 < ENTRIES c := by rw [ENTRIES_eq]; exact Nat.two_pow_pos _
          omega)
        rw [hv] at this; cases this
      · -- the loop never runs past `ENTRIES` iterations
        have h0 : ENTRIES c - (rem + 1) = 0 := by omega
        have := hall 0 (by omega) (by rw [ENTRIES_eq]; exact Nat.two_pow_pos _)
        rw [h0] at hv
        rw [hv] at this; cases this

theorem is_page_table_empty_spec (c : Config) (h : Heap) (tb : Nat) (t : Page)
    (ht : h tb = some t) :
    ∃ e, is_page_table_empty c h tb = .ok e ∧
      (e = true ↔ ∀ i, i < ENTRIES c → is_entry_valid (t i) = false) := by
  obtain ⟨e, he, hiff⟩ := is_page_table_empty_loop_spec c h tb t ht (ENTRIES c)
  refine ⟨e, he, ?_⟩
  rw [hiff]
  constructor
  · intro hall i hi; exact hall i (by omega) hi
  · intro hall i _ hi; exact hall i hi

theorem getD_set (arr : List (Option Nat)) (k m : Nat) (v : Option Nat) :
    (arr.set k v).getD m none = if m = k ∧ k < arr.length then v else arr.getD m none := by
  simp only [List.getD_eq_getElem?_getD, List.getElem?_set]
  by_cases hkm : k = m
  · subst hkm
    by_cases hk : k < arr.length
    · simp [hk]
    · have : arr[k]? = none := List.getElem?_eq_none (by omega)
      simp [hk, this]
  · have : ¬ (m = k ∧ k < arr.length) := fun h => hkm h.1.symm
    simp [hkm, this]

theorem pbaa_step_invalid (c : Config) (h : Heap) (vpn : List Nat) (rem : Nat)
    (arr : List (Option Nat)) (b : Nat) (t : Page)
    (harr : arr.getD (c.LEVELS - 1 - (rem + 1)) none = some b) (ht : h b = some t)
    (hv : is_entry_valid (t (vpn.getD (c.LEVELS - 1 - (rem + 1)) 0)) = false) :
    populate_base_address_array_loop c h vpn (rem + 1) arr = .ok arr := by
  rw [populate_base_address_array_loop]
  simp only [harr, use, load_of_heap ht, hv]
  simp

theorem pbaa_step_valid (c : Config) (h : Heap) (vpn : List Nat) (rem : Nat)
    (arr : List (Option Nat)) (b : Nat) (t : Page)
    (harr : arr.getD (c.LEVELS - 1 - (rem + 1)) none = some b) (ht : h b = some t)
    (hv : is_entry_valid (t (vpn.getD (c.LEVELS - 1 - (rem + 1)) 0)) = true) :
    populate_base_address_array_loop c h vpn (rem + 1) arr =
      populate_base_address_array_loop c h vpn rem
        (arr.set (c.LEVELS - 1 - (rem + 1) + 1)
          (some (clear_valid_bit (t (vpn.getD (c.LEVELS - 1 - (rem + 1)) 0))))) := by
  rw [populate_base_address_array_loop]
  simp only [harr, use, load_of_heap ht, hv]
  simp

theorem pbaa_loop_spec (c : Config) (s : State) (hS : Shape c s) (vpn : List Nat)
    (hlen : vpn.length = c.LEVELS) :
    ∀ rem (arr : List (Option Nat)), rem + 1 ≤ c.LEVELS → arr.length = c.LEVELS →
      (∀ m, m ≤ c.LEVELS - 1 - rem → arr.getD m none = walk s (vpn.take m)) →
      (∃ b, walk s (vpn.take (c.LEVELS - 1 - rem)) = some b) →
      (∀ m, c.LEVELS - 1 - rem < m → arr.getD m none = none) →
      ∃ arr1, populate_base_address_array_loop c s.heap vpn rem arr = .ok arr1 ∧
        ∀ m, m < c.LEVELS → arr1.getD m none = walk s (vpn.take m) := by
  intro rem
  induction rem with
  | zero =>
    intro arr _ _ hlow _ _
    exact ⟨arr, rfl, fun m hm => hlow m (by omega)⟩
  | succ rem ih =>
    intro arr hrem harrlen hlow hb hhigh
    obtain ⟨b, hb⟩ := hb
    have hL : c.LEVELS - 1 - (rem + 1) < vpn.length := by omega
    obtain ⟨_, _, _, t, ht⟩ := hS.live _ b (by rw [List.length_take]; omega) hb
    have harr : arr.getD (c.LEVELS - 1 - (rem + 1)) none = some b := by
      rw [hlow _ (le_refl _), hb]
    have hlev : c.LEVELS - 1 - rem = (c.LEVELS - 1 - (rem + 1)) + 1 := by omega
    have hnext : walk s (vpn.take (c.LEVELS - 1 - rem)) =
        child s.heap (some b) (vpn.getD (c.LEVELS - 1 - (rem + 1)) 0) := by
      rw [hlev, take_succ_getD vpn hL, walk_snoc, hb]
    rw [child_some_heap _ ht] at hnext
    cases hv : is_entry_valid (t (vpn.getD (c.LEVELS - 1 - (rem + 1)) 0))
    · rw [hv] at hnext
      refine ⟨arr, pbaa_step_invalid c s.heap vpn rem arr b t harr ht hv, ?_⟩
      intro m hm
      by_cases hml : m ≤ c.LEVELS - 1 - (rem + 1)
      · exact hlow m hml
      · rw [hhigh m (by omega)]
        exact (walk_take_none s vpn (a := c.LEVELS - 1 - rem) (b := m) (by omega)
          (by simpa using hnext)).symm
    · rw [hv] at hnext
      rw [pbaa_step_valid c s.heap vpn rem arr b t harr ht hv, ← hlev]
      apply ih _ (by omega) (by simp [harrlen])
      · intro m hm
        rw [getD_set]
        by_cases hmk : m = c.LEVELS - 1 - rem
        · rw [if_pos ⟨hmk, by omega⟩, hmk, hnext]; rfl
        · rw [if_neg (fun h => hmk h.1)]
          exact hlow m (by omega)
      · exact ⟨_, hnext.trans (if_pos rfl)⟩
      · intro m hm
        rw [getD_set, if_neg (fun h => by omega)]
        exact hhigh m (by omega)

theorem pbaa_spec (c : Config) (hc : c.WF) (s : State) (hS : Shape c s) (h0 : s.ptbr ≠ 0)
    (vpn : List Nat) (hlen : vpn.length = c.LEVELS) :
    ∃ arr, populate_base_address_array c s vpn (List.replicate c.LEVELS none) = .ok arr ∧
      ∀ m, m < c.LEVELS → arr.getD m none = walk s (vpn.take m) := by
  have hL : 1 ≤ c.LEVELS := hc.2.2.1
  unfold populate_base_address_array
  have h00 : c.LEVELS - 1 - (c.LEVELS - 1) = 0 := by omega
  apply pbaa_loop_spec c s hS vpn hlen (c.LEVELS - 1) _ (by omega) (by simp)
  · intro m hm
    have hm0 : m = 0 := by omega
    subst hm0
    rw [getD_set, if_pos ⟨rfl, by simp; omega⟩]
    simp [walk, h0]
  · rw [h00]; exact ⟨s.ptbr, by simp [walk, h0]⟩
  · intro m hm
    rw [getD_set, if_neg (fun h => by omega)]
    by_cases hml : m < c.LEVELS <;> simp [List.getD_eq_getElem?_getD, List.getElem?_replicate, hml]


/-! ## `cleanup_empty_tables` -/

theorem free_of_live {h : Heap} {p : Nat} {t : Page} (hp0 : p ≠ 0) (hp : h p = some t) :
    free h p = .ok (h.setPage p none) := by
  simp [free, hp0, hp]

theorem cleanup_step_break (c : Config) (vpn : List Nat) (arr : List (Option Nat))
    (level : Nat) (h : Heap) (tb : Nat) (t : Page)
    (harr : arr.getD (level + 1) none = some tb) (ht : h tb = some t)
    (hne : ∃ i, i < ENTRIES c ∧ is_entry_valid (t i) = true) :
    cleanup_empty_tables_loop c vpn arr (level + 1) h = .ok h := by
  obtain ⟨e, he, hiff⟩ := is_page_table_empty_spec c h tb t ht
  have hef : e = false := by
    cases e with
    | false => rfl
    | true =>
      obtain ⟨i, hi, hv⟩ := hne
      have := hiff.1 rfl i hi
      rw [hv] at this; cases this
  subst hef
  rw [cleanup_empty_tables_loop]
  simp only [harr, use, he]
  simp

theorem cleanup_step_prune (c : Config) (vpn : List Nat) (arr : List (Option Nat))
    (level : Nat) (h : Heap) (tb : Nat) (t : Page) (tp : Nat) (tt : Page)
    (harr : arr.getD (level + 1) none = some tb) (ht : h tb = some t)
    (hempty : ∀ i, i < ENTRIES c → is_entry_valid (t i) = false) (htb0 : tb ≠ 0)
    (hpar : arr.getD level none = some tp) (htp : h tp = some tt) (hne : tp ≠ tb) :
    cleanup_empty_tables_loop c vpn arr (level + 1) h =
      cleanup_empty_tables_loop c vpn arr level (unlinked h tp tt (vpn.getD level 0) tb) := by
  obtain ⟨e, he, hiff⟩ := is_page_table_empty_spec c h tb t ht
  have het : e = true := hiff.2 hempty
  subst het
  have h1 : (h.setPage tb none) tp = some tt := by
    simp [Heap.setPage, hne, htp]
  have h2 : store (h.setPage tb none) tp (vpn.getD level 0) INVALID_BIT =
      .ok (unlinked h tp tt (vpn.getD level 0) tb) := by
    simp [store, h1, unlinked]
  rw [cleanup_empty_tables_loop]
  simp only [harr, hpar, use, he, free_of_live htb0 ht, h2]
  simp

theorem table_empty_walk {c : Config} {s : State} (hS : Shape c s) {q : List Nat} {tb : Nat}
    {t : Page} (hq : q.length < c.LEVELS) (hw : walk s q = some tb) (ht : s.heap tb = some t)
    (hempty : ∀ i, i < ENTRIES c → is_entry_valid (t i) = false) (j : Nat) :
    walk s (q ++ [j]) = none := by
  rw [walk_snoc, hw, child_some_heap j ht]
  cases hv : is_entry_valid (t j)
  · simp
  · have := (hS.entries q tb t j hq hw ht (valid_ne_zero hv)).1
    rw [hempty j this] at hv; cases hv

theorem cleanup_loop_spec (c : Config) (vpn : List Nat) (hlen : vpn.length = c.LEVELS)
    (arr : List (Option Nat)) (ptbr : Nat) :
    ∀ level (h : Heap), level < c.LEVELS → Shape c ⟨ptbr, h⟩ →
      (∀ m, m ≤ level → ∃ b, arr.getD m none = some b ∧ walk ⟨ptbr, h⟩ (vpn.take m) = some b) →
      ∃ h1, cleanup_empty_tables_loop c vpn arr level h = .ok h1 ∧ Shape c ⟨ptbr, h1⟩ ∧
        (Pruned c ⟨ptbr, h⟩ (vpn.take level) → Pruned c ⟨ptbr, h1⟩ []) ∧
        (∀ r, r.length ≤ c.LEVELS → level < r.length →
          walk ⟨ptbr, h1⟩ r = walk ⟨ptbr, h⟩ r) ∧
        (∀ r, r.length ≤ c.LEVELS →
          walk ⟨ptbr, h1⟩ r = none ∨ walk ⟨ptbr, h1⟩ r = walk ⟨ptbr, h⟩ r) ∧
        (∀ r, r.length ≤ c.LEVELS → (∀ m, r ≠ vpn.take m) →
          walk ⟨ptbr, h1⟩ r = walk ⟨ptbr, h⟩ r) := by
  intro level
  induction level with
  | zero =>
    intro h _ hS _
    exact ⟨h, rfl, hS, fun hP => by simpa using hP, fun _ _ _ => rfl, fun _ _ => Or.inr rfl,
      fun _ _ _ => rfl⟩
  | succ level ih =>
    intro h hlev hS harr
    obtain ⟨tb, harr1, hwtb⟩ := harr (level + 1) (le_refl _)
    obtain ⟨tp, harr0, hwtp⟩ := harr level (by omega)
    have hq : (vpn.take level).length < c.LEVELS := by rw [List.length_take]; omega
    have hq1 : (vpn.take (level + 1)).length < c.LEVELS := by rw [List.length_take]; omega
    have hq1e : (vpn.take (level + 1)).length = level + 1 := by rw [List.length_take]; omega
    obtain ⟨htb0, _, _, t, ht⟩ := hS.live _ tb (le_of_lt hq1) hwtb
    obtain ⟨_, _, _, tt, htt⟩ := hS.live _ tp (le_of_lt hq) hwtp
    change h tb = some t at ht
    change h tp = some tt at htt
    have htake : vpn.take (level + 1) = vpn.take level ++ [vpn.getD level 0] :=
      take_succ_getD vpn (by omega)
    by_cases hne : ∃ i, i < ENTRIES c ∧ is_entry_valid (t i) = true
    · refine ⟨h, cleanup_step_break c vpn arr level h tb t harr1 ht hne, hS, ?_,
        fun _ _ _ => rfl, fun _ _ => Or.inr rfl, fun _ _ _ => rfl⟩
      intro hP
      refine pruned_of_nonempty [] hP ?_
      intro p t1 hp1 ht1
      rw [hwtb] at hp1
      cases hp1
      change h tb = some t1 at ht1
      rw [ht] at ht1
      cases ht1
      exact hne
    · have hempty : ∀ i, i < ENTRIES c → is_entry_valid (t i) = false := by
        intro i hi
        cases hv : is_entry_valid (t i)
        · rfl
        · exact absurd ⟨i, hi, hv⟩ hne
      have hne1 : tp ≠ tb := by
        intro e
        exact take_ne_take vpn (a := level) (b := level + 1) (by omega) (by omega) (by omega)
          (hS.inj _ _ tp (le_of_lt hq) (le_of_lt hq1) hwtp (e ▸ hwtb))
      rw [cleanup_step_prune c vpn arr level h tb t tp tt harr1 ht hempty htb0 harr0 htt hne1]
      have hch : walk ⟨ptbr, h⟩ (vpn.take level ++ [vpn.getD level 0]) = some tb := by
        rw [← htake]; exact hwtb
      have hemp : (vpn.take level).length + 1 < c.LEVELS →
          ∀ j, walk ⟨ptbr, h⟩ (vpn.take level ++ [vpn.getD level 0] ++ [j]) = none := by
        intro _ j
        rw [← htake]
        exact table_empty_walk hS hq1 hwtb ht hempty j
      have W := walk_unlinked c ⟨ptbr, h⟩ hS _ tp tt _ tb hq hwtp htt hch hemp
      have hS1 := shape_unlinked c ⟨ptbr, h⟩ hS _ tp tt _ tb hq hwtp htt hch hemp
      rw [← htake] at W
      obtain ⟨h1, hrun, hS2, hP2, hfr, hmono, hoff⟩ := ih (unlinked h tp tt (vpn.getD level 0) tb)
        (by omega) hS1 (by
          intro m hm
          obtain ⟨b, hb1, hb2⟩ := harr m (by omega)
          refine ⟨b, hb1, ?_⟩
          rw [W _ (by rw [List.length_take]; omega), if_neg, hb2]
          exact take_ne_take vpn (by omega) (by omega) (by omega))
      refine ⟨h1, hrun, hS2, ?_, ?_, ?_, ?_⟩
      · intro hP
        apply hP2
        rw [htake] at hP
        exact pruned_unlinked c ⟨ptbr, h⟩ hS _ tp tt _ tb hq hwtp htt hch hemp hP
      · intro r hr hrl
        rw [hfr r hr (by omega), W r hr, if_neg]
        intro e
        rw [e, hq1e] at hrl
        omega
      · intro r hr
        rcases hmono r hr with h1' | h1'
        · exact Or.inl h1'
        · rw [h1', W r hr]
          by_cases e : r = vpn.take (level + 1)
          · rw [if_pos e]; exact Or.inl rfl
          · rw [if_neg e]; exact Or.inr rfl
      · intro r hr hrm
        rw [hoff r hr hrm, W r hr, if_neg (hrm _)]


/-! ## `page_free` -/

theorem free_leaf_invalid (h : Heap) (tl idx e : Nat) (hv : is_entry_valid e = false) :
    free_leaf h tl idx e = .ok h := by
  simp [free_leaf, hv]

theorem free_leaf_valid (h : Heap) (tl idx e : Nat) (t tc : Page)
    (hv : is_entry_valid e = true) (hch0 : clear_valid_bit e ≠ 0)
    (hch : h (clear_valid_bit e) = some tc) (htl : h tl = some t)
    (hne : tl ≠ clear_valid_bit e) :
    free_leaf h tl idx e = .ok (unlinked h tl t idx (clear_valid_bit e)) := by
  have h1 : (h.setPage (clear_valid_bit e) none) tl = some t := by
    simp [Heap.setPage, hne, htl]
  simp [free_leaf, hv, free_of_live hch0 hch, store, h1, unlinked]

theorem page_free_eq (c : Config) (s : State) (va : Nat) (h0 : s.ptbr ≠ 0)
    (arr : List (Option Nat)) (tl : Nat) (t : Page)
    (harr : populate_base_address_array c s (populate_vpn_offsets c va)
      (List.replicate c.LEVELS none) = .ok arr)
    (hleaf : arr.getD (c.LEVELS - 1) none = some tl) (ht : s.heap tl = some t) :
    page_free c s va =
      match free_leaf s.heap tl ((populate_vpn_offsets c va).getD (c.LEVELS - 1) 0)
          (t ((populate_vpn_offsets c va).getD (c.LEVELS - 1) 0)) with
      | .error e => .error e
      | .ok h1 =>
        match cleanup_empty_tables c (populate_vpn_offsets c va) arr h1 with
        | .error e => .error e
        | .ok h2 => .ok ⟨s.ptbr, h2⟩ := by
  unfold page_free
  simp only [h0, if_false, harr, hleaf, use, load_of_heap ht]

theorem page_free_uninit (c : Config) (hc : c.WF) (s : State) (hS : Shape c s) (va : Nat)
    (h0 : s.ptbr ≠ 0)
    (hw : walk s ((populate_vpn_offsets c va).take (c.LEVELS - 1)) = none) :
    page_free c s va = .error .uninit := by
  obtain ⟨arr, harr, hget⟩ := pbaa_spec c hc s hS h0 _ (length_populate_vpn_offsets c va)
  have hL : 1 ≤ c.LEVELS := hc.2.2.1
  have : arr.getD (c.LEVELS - 1) none = none := by
    rw [hget _ (by omega), hw]
  unfold page_free
  simp only [h0, if_false, harr, this, use]

theorem page_free_root_unset (c : Config) (s : State) (va : Nat) (h0 : s.ptbr = 0) :
    page_free c s va = .ok s := by
  simp [page_free, h0]

theorem page_free_ok (c : Config) (hc : c.WF) (s : State) (hS : Shape c s) (va : Nat)
    (h0 : s.ptbr ≠ 0) (tl : Nat)
    (hw : walk s ((populate_vpn_offsets c va).take (c.LEVELS - 1)) = some tl) :
    ∃ s1, page_free c s va = .ok s1 ∧ s1.ptbr = s.ptbr ∧ Shape c s1 ∧
      (Pruned c s [] → Pruned c s1 []) ∧
      walk s1 (populate_vpn_offsets c va) = none ∧
      (∀ r, r.length = c.LEVELS → r ≠ populate_vpn_offsets c va → walk s1 r = walk s r) ∧
      (∀ r, r.length ≤ c.LEVELS → walk s1 r = none ∨ walk s1 r = walk s r) ∧
      (∀ r, r.length ≤ c.LEVELS → (∀ m, r ≠ (populate_vpn_offsets c va).take m) →
        walk s1 r = walk s r) ∧
      (walk s (populate_vpn_offsets c va) = none → Pruned c s [] → s1 = s) := by
  have hL : 1 ≤ c.LEVELS := hc.2.2.1
  have hlen := length_populate_vpn_offsets c va
  generalize hvpn : populate_vpn_offsets c va = vpn at *
  obtain ⟨arr, harr, hget⟩ := pbaa_spec c hc s hS h0 vpn hlen
  have hq : (vpn.take (c.LEVELS - 1)).length < c.LEVELS := by rw [List.length_take]; omega
  obtain ⟨_, _, _, t, ht⟩ := hS.live _ tl (le_of_lt hq) hw
  have hleaf : arr.getD (c.LEVELS - 1) none = some tl := by rw [hget _ (by omega), hw]
  have hfull : vpn = vpn.take (c.LEVELS - 1) ++ [vpn.getD (c.LEVELS - 1) 0] := by
    rw [← take_succ_getD vpn (by omega)]
    have : c.LEVELS - 1 + 1 = vpn.length := by omega
    rw [this, List.take_length]
  have hwfull : walk s vpn = child s.heap (some tl) (vpn.getD (c.LEVELS - 1) 0) := by
    conv_lhs => rw [hfull]
    rw [walk_snoc, hw]
  rw [child_some_heap _ ht] at hwfull
  -- the table pointers recorded for the levels of the path
  have harrs : ∀ m, m ≤ c.LEVELS - 1 →
      ∃ b, arr.getD m none = some b ∧ walk s (vpn.take m) = some b := by
    intro m hm
    cases hwm : walk s (vpn.take m) with
    | none =>
      have := walk_take_none s vpn hm hwm
      rw [hw] at this; cases this
    | some b => exact ⟨b, by rw [hget m (by omega), hwm], rfl⟩
  have hpf := page_free_eq c s va h0 arr tl t (by rw [hvpn]; exact harr) hleaf ht
  rw [hvpn] at hpf
  rw [hpf]
  unfold cleanup_empty_tables
  cases hv : is_entry_valid (t (vpn.getD (c.LEVELS - 1) 0))
  · -- the leaf entry is invalid: only the pruning pass runs
    rw [hv] at hwfull
    have hnone : walk s vpn = none := by simpa using hwfull
    rw [free_leaf_invalid _ _ _ _ hv]
    obtain ⟨h1, hrun, hS1, hP1, hfr, hmono, hoff⟩ :=
      cleanup_loop_spec c vpn hlen arr s.ptbr (c.LEVELS - 1) s.heap (by omega) hS harrs
    simp only [hrun]
    refine ⟨_, rfl, rfl, hS1, fun hP => hP1 (pruned_weaken _ hP), ?_, ?_, hmono, hoff, ?_⟩
    · rw [hfr vpn (by omega) (by omega)]; exact hnone
    · intro r hr _
      exact hfr r (by omega) (by omega)
    · intro _ hP
      have hsame : cleanup_empty_tables_loop c vpn arr (c.LEVELS - 1) s.heap = .ok s.heap := by
        cases hk1 : c.LEVELS - 1 with
        | zero => rfl
        | succ k =>
          rw [hk1] at hleaf hw hq
          have hne : vpn.take (k + 1) ≠ [] := by
            have := take_ne_take vpn (a := k + 1) (b := 0) (by omega) (by omega) (by omega)
            simpa using this
          exact cleanup_step_break c vpn arr k s.heap tl t hleaf ht
            (hP _ tl t hne hne hq hw ht)
      rw [hsame] at hrun
      cases hrun
      rfl
  · -- the leaf entry is valid: the data page is released first
    rw [hv] at hwfull
    have hch : walk s vpn = some (clear_valid_bit (t (vpn.getD (c.LEVELS - 1) 0))) := by
      simpa using hwfull
    obtain ⟨hch0, _, _, tc, htc⟩ := hS.live vpn _ (by omega) hch
    have hne : tl ≠ clear_valid_bit (t (vpn.getD (c.LEVELS - 1) 0)) := by
      intro e
      have := hS.inj _ _ tl (le_of_lt hq) (by omega) hw (e ▸ hch)
      have := congrArg List.length this
      rw [List.length_take] at this
      omega
    rw [free_leaf_valid _ _ _ _ t tc hv hch0 htc ht hne]
    have hch1 : walk s (vpn.take (c.LEVELS - 1) ++ [vpn.getD (c.LEVELS - 1) 0]) =
        some (clear_valid_bit (t (vpn.getD (c.LEVELS - 1) 0))) := by
      rw [← hfull]; exact hch
    have hemp : (vpn.take (c.LEVELS - 1)).length + 1 < c.LEVELS →
        ∀ j, walk s (vpn.take (c.LEVELS - 1) ++ [vpn.getD (c.LEVELS - 1) 0] ++ [j]) = none := by
      intro hlt
      rw [List.length_take] at hlt
      omega
    have W := walk_unlinked c s hS _ tl t _ _ hq hw ht hch1 hemp
    have hSm := shape_unlinked c s hS _ tl t _ _ hq hw ht hch1 hemp
    rw [← hfull] at W
    obtain ⟨h1, hrun, hS1, hP1, hfr, hmono, hoff⟩ :=
      cleanup_loop_spec c vpn hlen arr s.ptbr (c.LEVELS - 1) _ (by omega) hSm (by
        intro m hm
        obtain ⟨b, hb1, hb2⟩ := harrs m hm
        refine ⟨b, hb1, ?_⟩
        rw [W _ (by rw [List.length_take]; omega), if_neg, hb2]
        intro e
        have := congrArg List.length e
        rw [List.length_take] at this
        omega)
    simp only [hrun]
    refine ⟨_, rfl, rfl, hS1, ?_, ?_, ?_, ?_, ?_, ?_⟩
    · intro hP
      apply hP1
      have hP2 : Pruned c s (vpn.take (c.LEVELS - 1) ++ [vpn.getD (c.LEVELS - 1) 0]) :=
        pruned_weaken _ hP
      exact pruned_unlinked c s hS _ tl t _ _ hq hw ht hch1 hemp hP2
    · rw [hfr vpn (by omega) (by omega), W vpn (by omega), if_pos rfl]
    · intro r hr hrne
      rw [hfr r (by omega) (by omega), W r (by omega), if_neg hrne]
    · intro r hr
      rcases hmono r hr with h1' | h1'
      · exact Or.inl h1'
      · rw [h1', W r hr]
        by_cases e : r = vpn
        · rw [if_pos e]; exact Or.inl rfl
        · rw [if_neg e]; exact Or.inr rfl
    · intro r hr hrm
      rw [hoff r hr hrm, W r hr, if_neg]
      intro e
      have := hrm c.LEVELS
      rw [← hlen, List.take_length] at this
      exact this e
    · intro hn
      rw [hn] at hch; cases hch

/-! ## Reachable states are pruned trees -/

theorem shape_init (c : Config) : Shape c State.init := by
  have W : ∀ r, walk State.init r = none := fun r => walk_ptbr_zero _ rfl r
  constructor
  · intro r p _ hp; rw [W r] at hp; cases hp
  · intro r1 _ p _ _ hp; rw [W r1] at hp; cases hp
  · intro p t hp; cases hp
  · intro r p _ _ _ hp; rw [W r] at hp; cases hp
  · intro r p _ _ hp; rw [W r] at hp; cases hp

theorem pruned_init (c : Config) : Pruned c State.init [] := by
  intro r p _ _ _ _ hp
  rw [walk_ptbr_zero _ rfl r] at hp
  cases hp

theorem page_free_preserves (c : Config) (hc : c.WF) (s s1 : State) (va : Nat)
    (hS : Shape c s) (hP : Pruned c s []) (hrun : page_free c s va = .ok s1) :
    Shape c s1 ∧ Pruned c s1 [] := by
  by_cases h0 : s.ptbr = 0
  · rw [page_free_root_unset c s va h0] at hrun
    cases hrun
    exact ⟨hS, hP⟩
  · cases hw : walk s ((populate_vpn_offsets c va).take (c.LEVELS - 1)) with
    | none =>
      rw [page_free_uninit c hc s hS va h0 hw] at hrun
      cases hrun
    | some tl =>
      obtain ⟨s2, hrun2, _, hS2, hP2, _⟩ := page_free_ok c hc s hS va h0 tl hw
      rw [hrun2] at hrun
      cases hrun
      exact ⟨hS2, hP2 hP⟩

theorem page_allocate_preserves (c : Config) (hc : c.WF) (s s1 : State) (fresh : List Nat)
    (va : Nat) (hS : Shape c s) (hP : Pruned c s []) (hF : FreshValid c s.heap fresh)
    (hrun : page_allocate c fresh s va = .ok s1) :
    Shape c s1 ∧ Pruned c s1 [] := by
  have := page_allocate_spec c hc s fresh va hS hP hF
  rw [hrun] at this
  exact ⟨this.1, this.2.1⟩

theorem reachable_inv (c : Config) (hc : c.WF) (s : State) (hR : Reachable c s) :
    Shape c s ∧ Pruned c s [] := by
  induction hR with
  | init => exact ⟨shape_init c, pruned_init c⟩
  | allocate fresh va _ hF hrun ih =>
    exact page_allocate_preserves c hc _ _ fresh va ih.1 ih.2 hF hrun
  | free va _ hrun ih =>
    exact page_free_preserves c hc _ _ va ih.1 ih.2 hrun

theorem fresh_enough {c : Config} {s : State} {fresh : List Nat}
    (hlen : c.LEVELS + 1 ≤ fresh.length) :
    c.LEVELS + (if s.ptbr = 0 then 1 else 0) ≤ fresh.length := by
  split <;> omega

theorem page_allocate_ok (c : Config) (hc : c.WF) (s : State) (fresh : List Nat) (va : Nat)
    (hS : Shape c s) (hP : Pruned c s []) (hF : FreshValid c s.heap fresh)
    (hlen : c.LEVELS + (if s.ptbr = 0 then 1 else 0) ≤ fresh.length) :
    ∃ s1, page_allocate c fresh s va = .ok s1 ∧
      Shape c s1 ∧ Pruned c s1 [] ∧ (∃ p, leaf_page c s1 va = some p) ∧
      (s.ptbr ≠ 0 → s1.ptbr = s.ptbr) ∧
      ∀ r, r.length ≤ c.LEVELS →
        (walk s r = none → ∀ m, r ≠ (populate_vpn_offsets c va).take m) →
        walk s1 r = walk s r := by
  have := page_allocate_spec c hc s fresh va hS hP hF
  cases hrun : page_allocate c fresh s va with
  | error e =>
    rw [hrun] at this
    have := this.2
    omega
  | ok s1 =>
    rw [hrun] at this
    exact ⟨s1, rfl, this⟩

/-! ## Allocating a mapped page -/

theorem alloc_loop_mapped (c : Config) (s : State) (hS : Shape c s) (vpn : List Nat)
    (hlen : vpn.length = c.LEVELS) (p : Nat) (hp : walk s vpn = some p) (fresh : List Nat) :
    ∀ rem b, rem ≤ c.LEVELS → walk s (vpn.take (c.LEVELS - rem)) = some b →
      allocate_page_tables_loop c vpn rem fresh s.heap b = .ok s.heap := by
  intro rem
  induction rem with
  | zero => intro b _ _; rfl
  | succ rem ih =>
    intro b hrem hb
    have hL : c.LEVELS - (rem + 1) < vpn.length := by omega
    obtain ⟨_, _, _, t, ht⟩ := hS.live _ b (by rw [List.length_take]; omega) hb
    have hlev : c.LEVELS - rem = (c.LEVELS - (rem + 1)) + 1 := by omega
    have hnext : walk s (vpn.take (c.LEVELS - rem)) =
        child s.heap (some b) (vpn.getD (c.LEVELS - (rem + 1)) 0) := by
      rw [hlev, take_succ_getD vpn hL, walk_snoc, hb]
    rw [child_some_heap _ ht] at hnext
    cases hv : is_entry_valid (t (vpn.getD (c.LEVELS - (rem + 1)) 0))
    · rw [hv] at hnext
      have := walk_take_none s vpn (a := c.LEVELS - rem) (b := vpn.length) (by omega)
        (by simpa using hnext)
      rw [List.take_length, hp] at this
      cases this
    · rw [hv] at hnext
      rw [alloc_step_valid c s.heap vpn rem fresh b t ht hv]
      exact ih _ (by omega) (hnext.trans (if_pos rfl))

theorem page_allocate_mapped (c : Config) (s : State) (hS : Shape c s) (va : Nat)
    (p : Nat) (hp : leaf_page c s va = some p) (fresh : List Nat) :
    page_allocate c fresh s va = .ok s := by
  have h0 : s.ptbr ≠ 0 := by
    intro h0
    have := walk_ptbr_zero s h0 (populate_vpn_offsets c va)
    unfold leaf_page at hp
    rw [this] at hp; cases hp
  rw [page_allocate_eq c fresh s va h0]
  rw [alloc_loop_mapped c s hS _ (length_populate_vpn_offsets c va) p hp fresh c.LEVELS s.ptbr
    (le_refl _) (by simp [walk, h0])]


/-! ## Pages and index paths -/

theorem vpn_index_eq (c : Config) (va level : Nat) :
    vpn_index c va level =
      va / 2 ^ c.POBITS / 2 ^ ((c.LEVELS - 1 - level) * VPN_BITS c) % 2 ^ VPN_BITS c := by
  unfold vpn_index VPN_MASK
  rw [Nat.one_shiftLeft, Nat.and_pow_two_sub_one_eq_mod, Nat.shiftRight_eq_div_pow,
    Nat.pow_add, Nat.div_div_eq_div_mul]

theorem virtual_page_eq (c : Config) (va : Nat) :
    virtual_page c va = va / 2 ^ c.POBITS % 2 ^ (c.LEVELS * VPN_BITS c) := by
  unfold virtual_page
  rw [PAGE_SIZE_eq, Nat.pow_add, Nat.mod_mul_right_div_self]

theorem digits_determine (V x y : Nat) :
    ∀ n, (∀ j, j < n → x / 2 ^ (j * V) % 2 ^ V = y / 2 ^ (j * V) % 2 ^ V) →
      x % 2 ^ (n * V) = y % 2 ^ (n * V) := by
  intro n
  induction n with
  | zero => intro _; simp [Nat.mod_one]
  | succ n ih =>
    intro h
    have e : 2 ^ ((n + 1) * V) = 2 ^ (n * V) * 2 ^ V := by
      rw [← Nat.pow_add]; congr 1; ring
    rw [e, Nat.mod_mul, Nat.mod_mul, ih (fun j hj => h j (by omega)), h n (by omega)]

theorem digit_of_mod (V x y n j : Nat) (hj : j < n)
    (h : x % 2 ^ (n * V) = y % 2 ^ (n * V)) :
    x / 2 ^ (j * V) % 2 ^ V = y / 2 ^ (j * V) % 2 ^ V := by
  have hd : 2 ^ (j * V) * 2 ^ V ∣ 2 ^ (n * V) := by
    rw [← Nat.pow_add]
    apply Nat.pow_dvd_pow
    calc j * V + V = (j + 1) * V := by ring
      _ ≤ n * V := Nat.mul_le_mul_right _ hj
  rw [← Nat.mod_mul_right_div_self, ← Nat.mod_mul_right_div_self (m := y),
    ← Nat.mod_mod_of_dvd x hd, ← Nat.mod_mod_of_dvd y hd, h]

theorem vpn_eq_iff (c : Config) (va vb : Nat) :
    populate_vpn_offsets c va = populate_vpn_offsets c vb ↔
      virtual_page c va = virtual_page c vb := by
  rw [virtual_page_eq, virtual_page_eq]
  constructor
  · intro h
    apply digits_determine
    intro j hj
    have hlev : c.LEVELS - 1 - j < c.LEVELS := by omega
    have := congrArg (fun l => l.getD (c.LEVELS - 1 - j) 0) h
    simp only [getD_populate_vpn_offsets c _ hlev, vpn_index_eq] at this
    have e : c.LEVELS - 1 - (c.LEVELS - 1 - j) = j := by omega
    rw [e] at this
    exact this
  · intro h
    unfold populate_vpn_offsets
    apply List.map_congr_left
    intro i hi
    rw [List.mem_range] at hi
    rw [vpn_index_eq, vpn_index_eq]
    exact digit_of_mod _ _ _ c.LEVELS _ (by omega) h

theorem page_base_div (c : Config) (va : Nat) :
    page_base c va / 2 ^ c.POBITS = va / 2 ^ c.POBITS := by
  unfold page_base
  rw [PAGE_SIZE_eq, Nat.mul_div_cancel _ (Nat.two_pow_pos _)]

theorem vpn_of_div_eq (c : Config) (va vb : Nat) (h : va / 2 ^ c.POBITS = vb / 2 ^ c.POBITS) :
    populate_vpn_offsets c va = populate_vpn_offsets c vb := by
  unfold populate_vpn_offsets
  apply List.map_congr_left
  intro i _
  rw [vpn_index_eq, vpn_index_eq, h]

theorem vpn_page_base (c : Config) (va : Nat) :
    populate_vpn_offsets c (page_base c va) = populate_vpn_offsets c va :=
  vpn_of_div_eq c _ _ (page_base_div c va)

theorem offset_page_base (c : Config) (va : Nat) :
    calculate_page_offset c (page_base c va) = 0 := by
  rw [calculate_page_offset_eq]
  unfold page_base
  exact Nat.mul_mod_left _ _

theorem page_base_add_offset (c : Config) (va : Nat) :
    page_base c va + calculate_page_offset c va = va := by
  rw [calculate_page_offset_eq]
  unfold page_base
  exact Nat.div_add_mod' va (PAGE_SIZE c)

/-! ## A tree is determined by what its paths reach -/

theorem heap_le_of_walk (c : Config) (s s1 : State) (hS : Shape c s) (hS1 : Shape c s1)
    (hw : ∀ r, r.length ≤ c.LEVELS → walk s r = walk s1 r) (p : Nat) (t : Page)
    (hp : s.heap p = some t) : s1.heap p = some t := by
  obtain ⟨r, hr, hwr⟩ := hS.owned p t hp
  have hwr1 : walk s1 r = some p := by rw [← hw r hr]; exact hwr
  obtain ⟨_, _, _, t1, ht1⟩ := hS1.live r p hr hwr1
  rw [ht1]
  congr 1
  by_cases hlen : r.length = c.LEVELS
  · rw [hS.leaves r p t hlen hwr hp, hS1.leaves r p t1 hlen hwr1 ht1]
  · have hlt : r.length < c.LEVELS := by omega
    funext i
    have hi := hw (r ++ [i]) (by simp; omega)
    rw [walk_snoc, walk_snoc, hwr, hwr1, child_some_heap i hp, child_some_heap i ht1] at hi
    have hz : ∀ (s2 : State) (t2 : Page), Shape c s2 → walk s2 r = some p →
        s2.heap p = some t2 → is_entry_valid (t2 i) = false → t2 i = 0 := by
      intro s2 t2 hS2 hw2 hh2 hv
      by_contra hne
      have := (hS2.entries r p t2 i hlt hw2 hh2 hne).2
      rw [this, is_entry_valid_set] at hv
      cases hv
    cases hv : is_entry_valid (t i) <;> cases hv1 : is_entry_valid (t1 i)
    · rw [hz s t hS hwr hp hv, hz s1 t1 hS1 hwr1 ht1 hv1]
    · rw [hv, hv1] at hi; simp at hi
    · rw [hv, hv1] at hi; simp at hi
    · rw [hv, hv1] at hi
      simp only [if_true, Option.some.injEq] at hi
      rw [(hS.entries r p t i hlt hwr hp (valid_ne_zero hv)).2,
        (hS1.entries r p t1 i hlt hwr1 ht1 (valid_ne_zero hv1)).2, hi]

theorem state_ext_of_walk (c : Config) (s s1 : State) (hS : Shape c s) (hS1 : Shape c s1)
    (hp : s.ptbr = s1.ptbr) (hw : ∀ r, r.length ≤ c.LEVELS → walk s r = walk s1 r) :
    s = s1 := by
  have hheap : s.heap = s1.heap := by
    funext p
    cases h1 : s.heap p with
    | some t => exact (heap_le_of_walk c s s1 hS hS1 hw p t h1).symm
    | none =>
      cases h2 : s1.heap p with
      | none => rfl
      | some t1 =>
        have := heap_le_of_walk c s1 s hS1 hS (fun r hr => (hw r hr).symm) p t1 h2
        rw [h1] at this; cases this
  cases s; cases s1
  simp only at hp hheap
  rw [hp, hheap]


/-! ## Allocating and freeing an unmapped page -/

theorem off_path_snoc (vpn : List Nat) (m i : Nat) (hm : m < vpn.length)
    (hi : i ≠ vpn.getD m 0) : ∀ k, vpn.take m ++ [i] ≠ vpn.take k := by
  intro k e
  have hlen := congrArg List.length e
  simp only [List.length_append, List.length_take, List.length_singleton] at hlen
  have hk : m + 1 ≤ k := by omega
  have h1 := congrArg (List.take (m + 1)) e
  rw [List.take_take, Nat.min_eq_left hk, take_succ_getD vpn hm] at h1
  have h2 : List.take (m + 1) (vpn.take m ++ [i]) = vpn.take m ++ [i] := by
    apply List.take_of_length_le
    simp only [List.length_append, List.length_take, List.length_singleton]
    omega
  rw [h2] at h1
  exact hi (by simpa using (List.append_inj' h1 rfl).2)

theorem roundtrip_walk (c : Config) (s s1 s2 : State) (vpn : List Nat)
    (hlen : vpn.length = c.LEVELS) (hS : Shape c s) (hP : Pruned c s []) (h0 : s.ptbr ≠ 0)
    (hun : walk s vpn = none) (hS2 : Shape c s2) (hP2 : Pruned c s2 [])
    (hp2 : s2.ptbr = s.ptbr)
    (hA : ∀ r, r.length ≤ c.LEVELS → (walk s r = none → ∀ m, r ≠ vpn.take m) →
      walk s1 r = walk s r)
    (hnone : walk s2 vpn = none)
    (hmono : ∀ r, r.length ≤ c.LEVELS → walk s2 r = none ∨ walk s2 r = walk s1 r)
    (hoff : ∀ r, r.length ≤ c.LEVELS → (∀ m, r ≠ vpn.take m) → walk s2 r = walk s1 r) :
    ∀ r, r.length ≤ c.LEVELS → walk s2 r = walk s r := by
  have hroot2 : walk s2 [] = some s2.ptbr := by
    rw [walk_nil, if_neg (by rw [hp2]; exact h0)]
  have key : ∀ d m, m + d = c.LEVELS → walk s2 (vpn.take m) = walk s (vpn.take m) := by
    intro d
    induction d with
    | zero =>
      intro m hm
      have : m = vpn.length := by omega
      rw [this, List.take_length, hnone, hun]
    | succ d ih =>
      intro m hm
      have hmL : m < vpn.length := by omega
      have hql : (vpn.take m).length < c.LEVELS := by rw [List.length_take]; omega
      have hsl : ∀ i, (vpn.take m ++ [i]).length ≤ c.LEVELS := by
        intro i; simp only [List.length_append, List.length_singleton]; omega
      have hnext := ih (m + 1) (by omega)
      rw [take_succ_getD vpn hmL] at hnext
      cases hw : walk s (vpn.take m) with
      | none =>
        cases hw2 : walk s2 (vpn.take m) with
        | none => rfl
        | some p2 =>
          exfalso
          have hm0 : vpn.take m ≠ [] := by
            intro e
            rw [e, walk_nil, if_neg h0] at hw
            cases hw
          obtain ⟨_, _, _, t2, ht2⟩ := hS2.live _ p2 (le_of_lt hql) hw2
          obtain ⟨i, _, hv⟩ := hP2 _ p2 t2 hm0 hm0 hql hw2 ht2
          have hch : walk s2 (vpn.take m ++ [i]) = some (clear_valid_bit (t2 i)) := by
            rw [walk_snoc, hw2, child_some_heap i ht2, hv]; rfl
          have hsn : walk s (vpn.take m ++ [i]) = none := walk_append_none s _ _ hw
          by_cases hi : i = vpn.getD m 0
          · rw [hi] at hch hsn
            rw [hnext, hsn] at hch
            cases hch
          · have hop := off_path_snoc vpn m i hmL hi
            rw [hoff _ (hsl i) hop, hA _ (hsl i) (fun _ => hop), hsn] at hch
            cases hch
      | some b =>
        have h1 : walk s1 (vpn.take m) = some b := by
          rw [hA _ (le_of_lt hql) (fun h => by rw [hw] at h; cases h), hw]
        rcases hmono _ (le_of_lt hql) with hn | hs
        · exfalso
          have hm0 : vpn.take m ≠ [] := by
            intro e
            rw [e, hroot2] at hn
            cases hn
          obtain ⟨_, _, _, t, ht⟩ := hS.live _ b (le_of_lt hql) hw
          obtain ⟨i, _, hv⟩ := hP _ b t hm0 hm0 hql hw ht
          have hch : walk s (vpn.take m ++ [i]) = some (clear_valid_bit (t i)) := by
            rw [walk_snoc, hw, child_some_heap i ht, hv]; rfl
          have hsn : walk s2 (vpn.take m ++ [i]) = none := walk_append_none s2 _ _ hn
          by_cases hi : i = vpn.getD m 0
          · rw [hi] at hch hsn
            rw [hnext, hch] at hsn
            cases hsn
          · have hop := off_path_snoc vpn m i hmL hi
            rw [hoff _ (hsl i) hop, hA _ (hsl i) (fun _ => hop), hch] at hsn
            cases hsn
        · rw [hs, h1]
  intro r hr
  by_cases hon : ∃ m, r = vpn.take m
  · obtain ⟨m, rfl⟩ := hon
    by_cases hm : m ≤ c.LEVELS
    · exact key (c.LEVELS - m) m (by omega)
    · rw [List.take_of_length_le (by omega), hnone, hun]
  · have hop : ∀ m, r ≠ vpn.take m := fun m e => hon ⟨m, e⟩
    rw [hoff r hr hop, hA r hr (fun _ => hop)]

theorem allocate_free_roundtrip (c : Config) (hc : c.WF) (s : State) (fresh : List Nat)
    (va : Nat) (hS : Shape c s) (hP : Pruned c s []) (h0 : s.ptbr ≠ 0)
    (hun : leaf_page c s va = none) (hF : FreshValid c s.heap fresh)
    (hlen : c.LEVELS ≤ fresh.length) :
    ∃ s1, page_allocate c fresh s va = .ok s1 ∧ (∃ p, leaf_page c s1 va = some p) ∧
      page_free c s1 va = .ok s := by
  have hL : 1 ≤ c.LEVELS := hc.2.2.1
  obtain ⟨s1, hrun1, hS1, hP1, ⟨p, hp⟩, hptbr, hA⟩ :=
    page_allocate_ok c hc s fresh va hS hP hF (by rw [if_neg h0]; omega)
  refine ⟨s1, hrun1, ⟨p, hp⟩, ?_⟩
  have hvlen := length_populate_vpn_offsets c va
  unfold leaf_page at hp hun
  have h01 : s1.ptbr ≠ 0 := by rw [hptbr h0]; exact h0
  have hpre : ∃ tl, walk s1 ((populate_vpn_offsets c va).take (c.LEVELS - 1)) = some tl := by
    cases hw : walk s1 ((populate_vpn_offsets c va).take (c.LEVELS - 1)) with
    | some tl => exact ⟨tl, rfl⟩
    | none =>
      have := walk_take_none s1 (populate_vpn_offsets c va) (a := c.LEVELS - 1)
        (b := (populate_vpn_offsets c va).length) (by omega) hw
      rw [List.take_length, hp] at this
      cases this
  obtain ⟨tl, htl⟩ := hpre
  obtain ⟨s2, hrun2, hp2, hS2, hP2, hnone, _, hmono, hoff, _⟩ :=
    page_free_ok c hc s1 hS1 va h01 tl htl
  have hW := roundtrip_walk c s s1 s2 _ hvlen hS hP h0 hun hS2 (hP2 hP1)
    (by rw [hp2, hptbr h0]) hA hnone hmono hoff
  have : s2 = s := state_ext_of_walk c s2 s hS2 hS (by rw [hp2, hptbr h0]) hW
  rw [hrun2, this]


/-! ## The worked examples are reachable -/

theorem freshValid_init (c : Config) (fresh : List Nat) (hnd : fresh.Nodup)
    (hall : ∀ p ∈ fresh, p ≠ 0 ∧ p % PAGE_SIZE c = 0 ∧ p + PAGE_SIZE c < 2 ^ 64) :
    FreshValid c State.init.heap fresh :=
  ⟨hnd, fun p hp => ⟨(hall p hp).1, (hall p hp).2.1, (hall p hp).2.2, rfl⟩⟩

theorem reachable_st_one : Reachable cfg12 st_one :=
  Reachable.allocate [0x10000, 0x20000, 0x30000] 0x1000 Reachable.init
    (freshValid_init _ _ (by decide) (by decide)) rfl

theorem freshValid_single (c : Config) (h : Heap) (p : Nat) (h0 : p ≠ 0)
    (hal : p % PAGE_SIZE c = 0) (h64 : p + PAGE_SIZE c < 2 ^ 64) (hfree : h p = none) :
    FreshValid c h [p] := by
  refine ⟨List.nodup_singleton p, ?_⟩
  intro q hq
  rw [List.mem_singleton] at hq
  subst hq
  exact ⟨h0, hal, h64, hfree⟩

theorem reachable_st_three : Reachable cfg12 st_three :=
  Reachable.allocate [0x60000] 0x2000
    (Reachable.allocate [0x50000] 0x1000
      (Reachable.allocate [0x10000, 0x20000, 0x30000] 0x0 Reachable.init
        (freshValid_init _ _ (by decide) (by decide)) rfl)
      (freshValid_single _ _ _ (by decide) (by decide) (by decide) rfl) rfl)
    (freshValid_single _ _ _ (by decide) (by decide) (by decide) rfl) rfl



/-! ## Consequences used by the contract theorems -/

theorem page_free_result (c : Config) (hc : c.WF) (s s1 : State) (va : Nat) (hS : Shape c s)
    (hrun : page_free c s va = .ok s1) :
    s1.ptbr = s.ptbr ∧ Shape c s1 ∧ leaf_page c s1 va = none ∧
      ∀ r, r.length = c.LEVELS → r ≠ populate_vpn_offsets c va → walk s1 r = walk s r := by
  by_cases h0 : s.ptbr = 0
  · rw [page_free_root_unset c s va h0] at hrun
    cases hrun
    exact ⟨rfl, hS, walk_ptbr_zero _ h0 _, fun _ _ _ => rfl⟩
  · cases hw : walk s ((populate_vpn_offsets c va).take (c.LEVELS - 1)) with
    | none =>
      rw [page_free_uninit c hc s hS va h0 hw] at hrun
      cases hrun
    | some tl =>
      obtain ⟨s2, hrun2, hp, hS2, _, hnone, hfr, _⟩ := page_free_ok c hc s hS va h0 tl hw
      rw [hrun2] at hrun
      cases hrun
      exact ⟨hp, hS2, hnone, hfr⟩

theorem history_reachable {c : Config} {calls : List Call} {s : State}
    (hH : History c calls s) : Reachable c s := by
  induction hH with
  | init => exact Reachable.init
  | allocate fresh va _ hF hrun ih => exact Reachable.allocate fresh va ih hF hrun
  | free va _ hrun ih => exact Reachable.free va ih hrun

theorem full_path_off (c : Config) (va vb : Nat)
    (hne : populate_vpn_offsets c vb ≠ populate_vpn_offsets c va) :
    ∀ m, populate_vpn_offsets c vb ≠ (populate_vpn_offsets c va).take m := by
  intro m e
  have hl := congrArg List.length e
  rw [List.length_take, length_populate_vpn_offsets, length_populate_vpn_offsets] at hl
  rw [List.take_of_length_le (by rw [length_populate_vpn_offsets]; omega)] at e
  exact hne e

theorem leaf_prefix_some (c : Config) (hc : c.WF) (s : State) (va p : Nat)
    (hp : leaf_page c s va = some p) :
    s.ptbr ≠ 0 ∧ ∃ tl, walk s ((populate_vpn_offsets c va).take (c.LEVELS - 1)) = some tl := by
  have hL : 1 ≤ c.LEVELS := hc.2.2.1
  unfold leaf_page at hp
  constructor
  · intro h0
    rw [walk_ptbr_zero s h0] at hp; cases hp
  · cases hw : walk s ((populate_vpn_offsets c va).take (c.LEVELS - 1)) with
    | some tl => exact ⟨tl, rfl⟩
    | none =>
      have := walk_take_none s (populate_vpn_offsets c va) (a := c.LEVELS - 1)
        (b := (populate_vpn_offsets c va).length) (by rw [length_populate_vpn_offsets]; omega) hw
      rw [List.take_length, hp] at this
      cases this

theorem sentinel_iff {c : Config} (hc : c.WF) {p off : Nat} (hp : p % PAGE_SIZE c = 0)
    (hp64 : p < 2 ^ 64) (hoff : off < PAGE_SIZE c) :
    p + off = SEGFAULT ↔ p = 2 ^ 64 - PAGE_SIZE c ∧ off = PAGE_SIZE c - 1 := by
  have hpos : 0 < PAGE_SIZE c := by rw [PAGE_SIZE_eq]; exact Nat.two_pow_pos _
  have hle : PAGE_SIZE c ≤ 2 ^ 64 := by
    rw [PAGE_SIZE_eq]
    exact Nat.pow_le_pow_right (by decide) (by have := hc.2.1; omega)
  have hmax : p + (PAGE_SIZE c - 1) < 2 ^ 64 := aligned_add_lt hc hp hp64 (by omega)
  unfold SEGFAULT
  constructor
  · intro h; constructor <;> omega
  · rintro ⟨h1, h2⟩; omega


/-! ## Address decomposition -/

theorem virtual_page_mod (c : Config) (va : Nat) :
    virtual_page c (va % 2 ^ (c.POBITS + c.LEVELS * VPN_BITS c)) = virtual_page c va := by
  unfold virtual_page
  rw [Nat.mod_mod]

theorem vpn_mod (c : Config) (va : Nat) :
    populate_vpn_offsets c (va % 2 ^ (c.POBITS + c.LEVELS * VPN_BITS c)) =
      populate_vpn_offsets c va :=
  (vpn_eq_iff c _ _).2 (virtual_page_mod c va)

theorem offset_mod (c : Config) (va : Nat) :
    calculate_page_offset c (va % 2 ^ (c.POBITS + c.LEVELS * VPN_BITS c)) =
      calculate_page_offset c va := by
  rw [calculate_page_offset_eq, calculate_page_offset_eq, PAGE_SIZE_eq]
  exact Nat.mod_mod_of_dvd va (Nat.pow_dvd_pow 2 (Nat.le_add_right _ _))

theorem digits_sum (V x : Nat) :
    ∀ n, ∑ j ∈ Finset.range n, x / 2 ^ (j * V) % 2 ^ V * 2 ^ (j * V) = x % 2 ^ (n * V) := by
  intro n
  induction n with
  | zero => simp [Nat.mod_one]
  | succ n ih =>
    have e : 2 ^ ((n + 1) * V) = 2 ^ (n * V) * 2 ^ V := by
      rw [← Nat.pow_add]; congr 1; ring
    rw [Finset.sum_range_succ, ih, e, Nat.mod_mul]
    ring

theorem vpn_sum (c : Config) (va : Nat) :
    ∑ i ∈ Finset.range c.LEVELS,
        vpn_index c va i * 2 ^ (c.POBITS + (c.LEVELS - 1 - i) * VPN_BITS c) +
      calculate_page_offset c va = va % 2 ^ (c.POBITS + c.LEVELS * VPN_BITS c) := by
  have h1 : ∀ i, vpn_index c va i * 2 ^ (c.POBITS + (c.LEVELS - 1 - i) * VPN_BITS c) =
      2 ^ c.POBITS * (va / 2 ^ c.POBITS / 2 ^ ((c.LEVELS - 1 - i) * VPN_BITS c)
        % 2 ^ VPN_BITS c * 2 ^ ((c.LEVELS - 1 - i) * VPN_BITS c)) := by
    intro i
    rw [vpn_index_eq, Nat.pow_add]
    ring
  simp only [h1]
  rw [← Finset.mul_sum,
    Finset.sum_range_reflect (fun j => va / 2 ^ c.POBITS / 2 ^ (j * VPN_BITS c)
        % 2 ^ VPN_BITS c * 2 ^ (j * VPN_BITS c)) c.LEVELS,
    digits_sum, calculate_page_offset_eq, PAGE_SIZE_eq, Nat.pow_add, Nat.mod_mul]
  ring


/-! ## The maximum address -/

theorem pred_div (a b : Nat) (ha : 0 < a) (hb : 0 < b) : (a * b - 1) / a = b - 1 := by
  obtain ⟨k, rfl⟩ : ∃ k, b = k + 1 := ⟨b - 1, by omega⟩
  have : a * (k + 1) - 1 = a * k + (a - 1) := by
    rw [Nat.mul_succ]; omega
  rw [this, Nat.mul_add_div ha, Nat.div_eq_of_lt (by omega)]
  simp

theorem pred_mod (a b : Nat) (ha : 0 < a) (hb : 0 < b) : (a * b - 1) % a = a - 1 := by
  obtain ⟨k, rfl⟩ : ∃ k, b = k + 1 := ⟨b - 1, by omega⟩
  have : a * (k + 1) - 1 = a * k + (a - 1) := by
    rw [Nat.mul_succ]; omega
  rw [this, Nat.mul_add_mod, Nat.mod_eq_of_lt (by omega)]

theorem max_addr_eq (c : Config) :
    max_addr c = 2 ^ c.POBITS * (2 ^ (c.LEVELS * VPN_BITS c) - 1) := by
  unfold max_addr
  rw [Nat.one_shiftLeft, PAGE_SIZE_eq, Nat.pow_add, Nat.mul_sub_one]

theorem vpn_index_max_addr (c : Config) {i : Nat} (hi : i < c.LEVELS) :
    vpn_index c (max_addr c) i = ENTRIES c - 1 := by
  rw [vpn_index_eq, max_addr_eq, Nat.mul_div_cancel_left _ (Nat.two_pow_pos _), ENTRIES_eq]
  have e1 : c.LEVELS * VPN_BITS c =
      (c.LEVELS - 1 - i) * VPN_BITS c + (VPN_BITS c + i * VPN_BITS c) := by
    have : c.LEVELS = (c.LEVELS - 1 - i) + (1 + i) := by omega
    conv_lhs => rw [this]
    ring
  rw [e1, Nat.pow_add, pred_div _ _ (Nat.two_pow_pos _) (Nat.two_pow_pos _), Nat.pow_add,
    pred_mod _ _ (Nat.two_pow_pos _) (Nat.two_pow_pos _)]

theorem vpn_max_addr (c : Config) :
    populate_vpn_offsets c (max_addr c) = List.replicate c.LEVELS (ENTRIES c - 1) := by
  apply List.ext_getElem
  · simp [populate_vpn_offsets]
  · intro i h1 h2
    simp only [populate_vpn_offsets, List.getElem_map, List.getElem_range,
      List.getElem_replicate]
    exact vpn_index_max_addr c (by simpa [populate_vpn_offsets] using h1)

theorem offset_max_addr (c : Config) : calculate_page_offset c (max_addr c) = 0 := by
  rw [calculate_page_offset_eq, max_addr_eq, PAGE_SIZE_eq]
  exact Nat.mul_mod_right _ _

theorem max_addr_lt (c : Config) (hc : c.WF) : max_addr c < 2 ^ 64 := by
  unfold max_addr
  rw [Nat.one_shiftLeft, PAGE_SIZE_eq]
  have h1 : 2 ^ (c.POBITS + c.LEVELS * VPN_BITS c) ≤ 2 ^ 64 :=
    Nat.pow_le_pow_right (by decide) hc.2.2.2
  have h2 : 0 < 2 ^ c.POBITS := Nat.two_pow_pos _
  omega

theorem shift_lt (c : Config) (hc : c.WF) {i : Nat} (hi : i < c.LEVELS) :
    c.POBITS + (c.LEVELS - 1 - i) * VPN_BITS c < 64 := by
  have h1 := hc.2.2.2
  have h2 : 1 ≤ VPN_BITS c := by unfold VPN_BITS; have := hc.1; omega
  have h3 : (c.LEVELS - 1 - i) * VPN_BITS c + VPN_BITS c ≤ c.LEVELS * VPN_BITS c := by
    calc (c.LEVELS - 1 - i) * VPN_BITS c + VPN_BITS c
        = (c.LEVELS - 1 - i + 1) * VPN_BITS c := by ring
      _ ≤ c.LEVELS * VPN_BITS c := Nat.mul_le_mul_right _ (by omega)
  omega

theorem aligned_ne_sentinel {c : Config} (hc : c.WF) {p : Nat} (hp : p % PAGE_SIZE c = 0) :
    p ≠ SEGFAULT := by
  intro h
  have := even_of_aligned hc hp
  rw [h] at this
  simp [SEGFAULT] at this


/-! ## Ownership -/

theorem reachable_st_emptied : Reachable cfg_one_level st_emptied :=
  Reachable.free 0x0
    (Reachable.allocate [0x10, 0x20] 0x0 Reachable.init
      (freshValid_init _ _ (by decide) (by decide)) rfl) rfl

theorem entry_valid_iff_live {c : Config} {s : State} (hS : Shape c s) {b : Nat} {t : Page}
    (hb : reachable_table c s b t) (i : Nat) :
    is_entry_valid (t i) = true ↔ ∃ t1, s.heap (clear_valid_bit (t i)) = some t1 := by
  obtain ⟨r, hr, hw, ht⟩ := hb
  constructor
  · intro hv
    have hch : walk s (r ++ [i]) = some (clear_valid_bit (t i)) := by
      rw [walk_snoc, hw, child_some_heap i ht, hv]; rfl
    obtain ⟨_, _, _, t1, ht1⟩ := hS.live _ _ (by simp; omega) hch
    exact ⟨t1, ht1⟩
  · rintro ⟨t1, ht1⟩
    by_contra hv
    have hz : t i = 0 := by
      by_contra hne
      have := (hS.entries r b t i hr hw ht hne).2
      rw [this, is_entry_valid_set] at hv
      exact hv rfl
    rw [hz] at ht1
    obtain ⟨r1, hr1, hw1⟩ := hS.owned _ t1 ht1
    exact (hS.live r1 _ hr1 hw1).1 (by decide)

theorem owner_unique {c : Config} {s : State} (hS : Shape c s) {b1 b2 : Nat} {t1 t2 : Page}
    (h1 : reachable_table c s b1 t1) (h2 : reachable_table c s b2 t2) {i1 i2 : Nat}
    (hv1 : is_entry_valid (t1 i1) = true) (hv2 : is_entry_valid (t2 i2) = true)
    (he : clear_valid_bit (t1 i1) = clear_valid_bit (t2 i2)) : b1 = b2 ∧ i1 = i2 := by
  obtain ⟨r1, hr1, hw1, ht1⟩ := h1
  obtain ⟨r2, hr2, hw2, ht2⟩ := h2
  have hc1 : walk s (r1 ++ [i1]) = some (clear_valid_bit (t1 i1)) := by
    rw [walk_snoc, hw1, child_some_heap i1 ht1, hv1]; rfl
  have hc2 : walk s (r2 ++ [i2]) = some (clear_valid_bit (t1 i1)) := by
    rw [walk_snoc, hw2, child_some_heap i2 ht2, hv2, he]; rfl
  have := hS.inj _ _ _ (by simp; omega) (by simp; omega) hc1 hc2
  obtain ⟨e1, e2⟩ := List.append_inj' this rfl
  subst e1
  rw [hw1] at hw2
  exact ⟨Option.some.inj hw2, by simpa using e2⟩

theorem owner_exists {c : Config} {s : State} (hS : Shape c s) {p : Nat} {tp : Page}
    (hp : s.heap p = some tp) :
    p = s.ptbr ∨
      ∃ b t i, reachable_table c s b t ∧ is_entry_valid (t i) = true ∧
        clear_valid_bit (t i) = p := by
  obtain ⟨r, hr, hw⟩ := hS.owned p tp hp
  rcases List.eq_nil_or_concat r with e | ⟨r1, i, e⟩
  · left
    rw [e, walk_nil] at hw
    by_cases h0 : s.ptbr = 0
    · rw [if_pos h0] at hw; cases hw
    · rw [if_neg h0] at hw; exact (Option.some.inj hw).symm
  · right
    rw [List.concat_eq_append] at e
    rw [e, walk_snoc] at hw
    obtain ⟨b, t, hb, ht, hv, hcl⟩ := child_eq_some.1 hw
    refine ⟨b, t, i, ⟨r1, ?_, hb, ht⟩, hv, hcl⟩
    rw [e] at hr
    simp at hr
    omega

theorem root_not_referenced {c : Config} {s : State} (hS : Shape c s) {b : Nat} {t : Page}
    (hb : reachable_table c s b t) {i : Nat} (hv : is_entry_valid (t i) = true) :
    clear_valid_bit (t i) ≠ s.ptbr := by
  obtain ⟨r, hr, hw, ht⟩ := hb
  intro e
  have hch : walk s (r ++ [i]) = some s.ptbr := by
    rw [walk_snoc, hw, child_some_heap i ht, hv, ← e]; rfl
  have h0 : s.ptbr ≠ 0 := by
    intro h0
    rw [walk_ptbr_zero s h0] at hw; cases hw
  have hroot : walk s [] = some s.ptbr := by rw [walk_nil, if_neg h0]
  have := hS.inj _ _ _ (by simp; omega) (by simp) hch hroot
  simp at this

theorem page_free_outcome (c : Config) (hc : c.WF) (s : State) (hR : Reachable c s)
    (va : Nat) :
    (∃ s1, page_free c s va = .ok s1 ∧ Reachable c s1) ∨
      page_free c s va = .error .uninit := by
  obtain ⟨hS, _⟩ := reachable_inv c hc s hR
  by_cases h0 : s.ptbr = 0
  · left
    exact ⟨s, page_free_root_unset c s va h0, hR⟩
  · cases hw : walk s ((populate_vpn_offsets c va).take (c.LEVELS - 1)) with
    | none => right; exact page_free_uninit c hc s hS va h0 hw
    | some tl =>
      left
      obtain ⟨s1, hrun, _⟩ := page_free_ok c hc s hS va h0 tl hw
      exact ⟨s1, hrun, Reachable.free va hR hrun⟩


/-- The ownership invariant of reachable states: an entry of a reachable table
is valid iff its address field is a live page, every live page is the root or
held by exactly one valid entry of a reachable table, and no such entry holds
the root. -/
theorem ownership_of_reachable (c : Config) (s : State) (hc : c.WF) (hR : Reachable c s) :
    (∀ b t i, reachable_table c s b t →
      (is_entry_valid (t i) = true ↔ ∃ t1, s.heap (clear_valid_bit (t i)) = some t1)) ∧
    (∀ p tp, s.heap p = some tp →
      p = s.ptbr ∨
      ∃ b t i, reachable_table c s b t ∧ is_entry_valid (t i) = true ∧
        clear_valid_bit (t i) = p ∧
        ∀ b1 t1 i1, reachable_table c s b1 t1 → is_entry_valid (t1 i1) = true →
          clear_valid_bit (t1 i1) = p → b1 = b ∧ i1 = i) ∧
    (∀ b t i, reachable_table c s b t → is_entry_valid (t i) = true →
      clear_valid_bit (t i) ≠ s.ptbr) := by
  obtain ⟨hS, _⟩ := reachable_inv c hc s hR
  refine ⟨fun b t i hb => entry_valid_iff_live hS hb i, ?_,
    fun b t i hb hv => root_not_referenced hS hb hv⟩
  intro p tp hp
  rcases owner_exists hS hp with h | ⟨b, t, i, hb, hv, hcl⟩
  · exact Or.inl h
  · refine Or.inr ⟨b, t, i, hb, hv, hcl, ?_⟩
    intro b1 t1 i1 hb1 hv1 hcl1
    exact owner_unique hS hb1 hb hv1 hv (hcl1.trans hcl.symm)

/-! ## Where live pages come from -/

theorem store_live {h h1 : Heap} {b i v : Nat} (hrun : store h b i v = .ok h1) {p : Nat}
    {t : Page} (hp : h1 p = some t) : ∃ t0, h p = some t0 := by
  unfold store at hrun
  cases hb : h b with
  | none => rw [hb] at hrun; cases hrun
  | some tb =>
    rw [hb] at hrun
    cases hrun
    by_cases e : p = b
    · exact ⟨tb, e ▸ hb⟩
    · exact ⟨t, by simpa [Heap.setPage, e] using hp⟩

theorem free_live {h h1 : Heap} {q : Nat} (hrun : free h q = .ok h1) {p : Nat} {t : Page}
    (hp : h1 p = some t) : h p = some t := by
  unfold free at hrun
  by_cases hq : q = 0
  · rw [if_pos hq] at hrun; cases hrun; exact hp
  · rw [if_neg hq] at hrun
    cases hb : h q with
    | none => rw [hb] at hrun; cases hrun
    | some tb =>
      rw [hb] at hrun
      cases hrun
      by_cases e : p = q
      · simp [Heap.setPage, e] at hp
      · simpa [Heap.setPage, e] using hp

theorem alloc_loop_live (c : Config) (vpn : List Nat) :
    ∀ rem fresh (h : Heap) b h1, allocate_page_tables_loop c vpn rem fresh h b = .ok h1 →
      ∀ p t, h1 p = some t → (∃ t0, h p = some t0) ∨ p ∈ fresh := by
  intro rem
  induction rem with
  | zero =>
    intro fresh h b h1 hrun p t hp
    rw [allocate_page_tables_loop] at hrun
    cases hrun
    exact Or.inl ⟨t, hp⟩
  | succ rem ih =>
    intro fresh h b h1 hrun p t hp
    rw [allocate_page_tables_loop] at hrun
    split at hrun
    · cases hrun
    · split at hrun
      · cases fresh with
        | nil => simp [allocate_new_page] at hrun
        | cons n rest =>
          simp only [allocate_new_page] at hrun
          split at hrun
          · cases hrun
          · rename_i h2 hst
            split at hrun
            · cases hrun
            · rcases ih _ _ _ _ hrun p t hp with ⟨t0, h0⟩ | hmem
              · obtain ⟨t1, h1'⟩ := store_live hst h0
                by_cases e : p = n
                · exact Or.inr (by simp [e])
                · exact Or.inl ⟨t1, by simpa [Heap.setPage, e] using h1'⟩
              · exact Or.inr (List.mem_cons_of_mem _ hmem)
      · split at hrun
        · cases hrun
        · exact ih _ _ _ _ hrun p t hp

theorem page_allocate_live (c : Config) (fresh : List Nat) (s s1 : State) (va : Nat)
    (hrun : page_allocate c fresh s va = .ok s1) {p : Nat} {t : Page}
    (hp : s1.heap p = some t) : (∃ t0, s.heap p = some t0) ∨ p ∈ fresh := by
  by_cases h0 : s.ptbr = 0
  · cases fresh with
    | nil => rw [page_allocate_nomem c s va h0] at hrun; cases hrun
    | cons n rest =>
      rw [page_allocate_eq_first c n rest s va h0] at hrun
      split at hrun
      · cases hrun
      · rename_i h1 hloop
        cases hrun
        rcases alloc_loop_live c _ _ _ _ _ _ hloop p t hp with ⟨t0, ht0⟩ | hmem
        · by_cases e : p = n
          · exact Or.inr (by simp [e])
          · exact Or.inl ⟨t0, by simpa [Heap.setPage, e] using ht0⟩
        · exact Or.inr (List.mem_cons_of_mem _ hmem)
  · rw [page_allocate_eq c fresh s va h0] at hrun
    split at hrun
    · cases hrun
    · rename_i h1 hloop
      cases hrun
      exact alloc_loop_live c _ _ _ _ _ _ hloop p t hp

theorem cleanup_loop_live (c : Config) (vpn : List Nat) (arr : List (Option Nat)) :
    ∀ level (h h1 : Heap), cleanup_empty_tables_loop c vpn arr level h = .ok h1 →
      ∀ p t, h1 p = some t → ∃ t0, h p = some t0 := by
  intro level
  induction level with
  | zero =>
    intro h h1 hrun p t hp
    rw [cleanup_empty_tables_loop] at hrun
    cases hrun
    exact ⟨t, hp⟩
  | succ level ih =>
    intro h h1 hrun p t hp
    rw [cleanup_empty_tables_loop] at hrun
    split at hrun
    · cases hrun
    · split at hrun
      · cases hrun
      · split at hrun
        · cases hrun; exact ⟨t, hp⟩
        · split at hrun
          · cases hrun
          · rename_i h2 hfree
            split at hrun
            · cases hrun
            · split at hrun
              · cases hrun
              · rename_i h3 hst
                obtain ⟨t0, h0⟩ := ih _ _ hrun p t hp
                obtain ⟨t1, h1'⟩ := store_live hst h0
                exact ⟨t1, free_live hfree h1'⟩

theorem page_free_live (c : Config) (s s1 : State) (va : Nat)
    (hrun : page_free c s va = .ok s1) {p : Nat} {t : Page} (hp : s1.heap p = some t) :
    ∃ t0, s.heap p = some t0 := by
  unfold page_free at hrun
  split at hrun
  · cases hrun; exact ⟨t, hp⟩
  · simp only [] at hrun
    split at hrun
    · cases hrun
    · split at hrun
      · cases hrun
      · split at hrun
        · cases hrun
        · split at hrun
          · cases hrun
          · rename_i h1 hleaf
            split at hrun
            · cases hrun
            · rename_i h2 hclean
              cases hrun
              obtain ⟨t0, h0⟩ := cleanup_loop_live c _ _ _ _ _ hclean p t hp
              unfold free_leaf at hleaf
              split at hleaf
              · split at hleaf
                · cases hleaf
                · rename_i h3 hfree
                  obtain ⟨t1, h1'⟩ := store_live hleaf h0
                  exact ⟨t1, free_live hfree h1'⟩
              · cases hleaf
                exact ⟨t0, h0⟩

theorem reachable_below_top (c : Config) (s : State) (hR : Reachable c s) :
    ∀ p t, s.heap p = some t → p + PAGE_SIZE c < 2 ^ 64 := by
  induction hR with
  | init => intro p t hp; cases hp
  | allocate fresh va _ hF hrun ih =>
    intro p t hp
    rcases page_allocate_live c fresh _ _ va hrun hp with ⟨t0, h0⟩ | hmem
    · exact ih p t0 h0
    · exact (hF.2 p hmem).2.2.1
  | free va _ hrun ih =>
    intro p t hp
    obtain ⟨t0, h0⟩ := page_free_live c _ _ va hrun hp
    exact ih p t0 h0


/-! ## The contract of the three operations -/

/-- C1: in every reachable state, for every `va`, when the allocator can
supply `LEVELS + 1` pages, `page_allocate(va)` returns and afterwards `va` has
a leaf data page `p`, `translate(va)` returns `p + offset(va)`, and this value
is not the fault sentinel. -/
theorem C1_allocate_then_translate (c : Config) (s : State) (fresh : List Nat) (va : Nat)
    (hc : c.WF) (hR : Reachable c s) (hF : FreshValid c s.heap fresh)
    (hlen : c.LEVELS + 1 ≤ fresh.length) :
    ∃ s1 p, page_allocate c fresh s va = .ok s1 ∧ leaf_page c s1 va = some p ∧
      translate c s1 va = .ok (p + calculate_page_offset c va) ∧
      p + calculate_page_offset c va ≠ SEGFAULT ∧
      translate c s1 va ≠ .ok SEGFAULT := by
  obtain ⟨hS, hP⟩ := reachable_inv c hc s hR
  obtain ⟨s1, hrun, hS1, _, ⟨p, hp⟩, _, _⟩ :=
    page_allocate_ok c hc s fresh va hS hP hF (fresh_enough hlen)
  obtain ⟨_, hal, h64, tp, htp⟩ := hS1.live _ p (by rw [length_populate_vpn_offsets]) hp
  have htop := reachable_below_top c s1 (Reachable.allocate fresh va hR hF hrun) p tp htp
  have ht := translate_of_leaf hc hS1 hp
  have hne : p + calculate_page_offset c va ≠ SEGFAULT := by
    intro h
    have := ((sentinel_iff hc hal h64 (calculate_page_offset_lt c va)).1 h).1
    omega
  refine ⟨s1, p, hrun, hp, ht, hne, ?_⟩
  rw [ht]
  intro h
  exact hne (Except.ok.inj h)

/-- C1 (witness): at program start, with two levels and 4 KiB pages,
`page_allocate(0x1000)` returns and `translate(0x1000)` is then not the
sentinel. -/
theorem C1_witness :
    ∃ s1 p, page_allocate cfg12 [0x10000, 0x20000, 0x30000] State.init 0x1000 = .ok s1 ∧
      leaf_page cfg12 s1 0x1000 = some p ∧
      translate cfg12 s1 0x1000 = .ok (p + calculate_page_offset cfg12 0x1000) ∧
      p + calculate_page_offset cfg12 0x1000 ≠ SEGFAULT ∧
      translate cfg12 s1 0x1000 ≠ .ok SEGFAULT :=
  C1_allocate_then_translate cfg12 State.init [0x10000, 0x20000, 0x30000] 0x1000 (by decide)
    Reachable.init (freshValid_init _ _ (by decide) (by decide)) (by decide)

/-- C2: in every reachable state, for every `va`, when the allocator can
supply `LEVELS + 1` pages, `page_allocate(va)` followed by `page_free(va)`
both return, and `translate(va)` then returns the fault sentinel. -/
theorem C2_free_then_unmapped (c : Config) (s : State) (fresh : List Nat) (va : Nat)
    (hc : c.WF) (hR : Reachable c s) (hF : FreshValid c s.heap fresh)
    (hlen : c.LEVELS + 1 ≤ fresh.length) :
    ∃ s1 s2, page_allocate c fresh s va = .ok s1 ∧ page_free c s1 va = .ok s2 ∧
      translate c s2 va = .ok SEGFAULT := by
  obtain ⟨hS, hP⟩ := reachable_inv c hc s hR
  obtain ⟨s1, hrun, hS1, _, ⟨p, hp⟩, _, _⟩ :=
    page_allocate_ok c hc s fresh va hS hP hF (fresh_enough hlen)
  obtain ⟨h01, tl, htl⟩ := leaf_prefix_some c hc s1 va p hp
  obtain ⟨s2, hrun2, _, hS2, _, hnone, _⟩ := page_free_ok c hc s1 hS1 va h01 tl htl
  exact ⟨s1, s2, hrun, hrun2, translate_of_unmapped hc hS2 hnone⟩

/-- C2 (witness): allocate then free `0x1000` at program start, with two
levels and 4 KiB pages. -/
theorem C2_witness :
    ∃ s1 s2, page_allocate cfg12 [0x10000, 0x20000, 0x30000] State.init 0x1000 = .ok s1 ∧
      page_free cfg12 s1 0x1000 = .ok s2 ∧ translate cfg12 s2 0x1000 = .ok SEGFAULT :=
  C2_free_then_unmapped cfg12 State.init [0x10000, 0x20000, 0x30000] 0x1000 (by decide)
    Reachable.init (freshValid_init _ _ (by decide) (by decide)) (by decide)

/-- C3: in every reachable state, for every `va` mapped to the leaf data page
`p`: `translate(page_base(va))` returns `p`, whose low `POBITS` bits are zero,
`translate(va)` returns `p + offset(va)`, and every `vb` with the same page
base translates to `p + offset(vb)`, which agrees with `p` above the low
`POBITS` bits. -/
theorem C3_translate_within_page (c : Config) (s : State) (va p : Nat) (hc : c.WF)
    (hR : Reachable c s) (hm : leaf_page c s va = some p) :
    translate c s (page_base c va) = .ok p ∧ p % PAGE_SIZE c = 0 ∧
    translate c s va = .ok (p + calculate_page_offset c va) ∧
    ∀ vb, page_base c vb = page_base c va →
      translate c s vb = .ok (p + calculate_page_offset c vb) ∧
      (p + calculate_page_offset c vb) / PAGE_SIZE c = p / PAGE_SIZE c := by
  obtain ⟨hS, _⟩ := reachable_inv c hc s hR
  obtain ⟨_, hal, _, _⟩ := hS.live _ p (by rw [length_populate_vpn_offsets]) hm
  have hpos : 0 < PAGE_SIZE c := by rw [PAGE_SIZE_eq]; exact Nat.two_pow_pos _
  have hbase : leaf_page c s (page_base c va) = some p := by
    unfold leaf_page; rw [vpn_page_base]; exact hm
  refine ⟨?_, hal, translate_of_leaf hc hS hm, ?_⟩
  · rw [translate_of_leaf hc hS hbase, offset_page_base, Nat.add_zero]
  · intro vb hvb
    have hb : leaf_page c s vb = some p := by
      unfold leaf_page
      rw [← vpn_page_base c vb, hvb, vpn_page_base]
      exact hm
    refine ⟨translate_of_leaf hc hS hb, ?_⟩
    obtain ⟨k, hk⟩ := Nat.dvd_of_mod_eq_zero hal
    rw [hk, Nat.mul_add_div hpos, Nat.div_eq_of_lt (calculate_page_offset_lt c vb),
      Nat.mul_div_cancel_left _ hpos, Nat.add_zero]

/-- C3 (witness): with 4 KiB pages, after `page_allocate(0x1000)`,
`translate(0x1000)` is page-aligned and `translate(0x1001)` is one more. -/
theorem C3_witness :
    translate cfg12 st_one 0x1000 = .ok 0x30000 ∧ 0x30000 % PAGE_SIZE cfg12 = 0 ∧
    translate cfg12 st_one 0x1001 = .ok (0x30000 + 1) :=
  have h := C3_translate_within_page cfg12 st_one 0x1001 0x30000 (by decide)
    reachable_st_one rfl
  ⟨h.1, h.2.1, h.2.2.1⟩

/-- C4: in every reachable state, `page_allocate(va)` on a mapped `va` returns
the state unchanged, whatever the allocator would supply (also nothing); and
after any `page_allocate(va)` a second `page_allocate(va)` returns the state
of the first, so `translate` is the same for every address. -/
theorem C4_allocate_idempotent (c : Config) (s : State) (fresh : List Nat) (va : Nat)
    (hc : c.WF) (hR : Reachable c s) (hF : FreshValid c s.heap fresh)
    (hlen : c.LEVELS + 1 ≤ fresh.length) :
    ((∃ p, leaf_page c s va = some p) → ∀ fresh2, page_allocate c fresh2 s va = .ok s) ∧
    ∃ s1, page_allocate c fresh s va = .ok s1 ∧
      (∀ fresh2, page_allocate c fresh2 s1 va = .ok s1) ∧
      ∀ fresh2 s2, page_allocate c fresh2 s1 va = .ok s2 →
        ∀ vb, translate c s2 vb = translate c s1 vb := by
  obtain ⟨hS, hP⟩ := reachable_inv c hc s hR
  constructor
  · rintro ⟨p, hp⟩ fresh2
    exact page_allocate_mapped c s hS va p hp fresh2
  · obtain ⟨s1, hrun, hS1, _, ⟨p, hp⟩, _, _⟩ :=
      page_allocate_ok c hc s fresh va hS hP hF (fresh_enough hlen)
    refine ⟨s1, hrun, fun fresh2 => page_allocate_mapped c s1 hS1 va p hp fresh2, ?_⟩
    intro fresh2 s2 h2 vb
    rw [page_allocate_mapped c s1 hS1 va p hp fresh2] at h2
    cases h2
    rfl

/-- C4 (witness): a second `page_allocate(0x1000)` with an allocator that has
nothing to give returns the state unchanged. -/
theorem C4_witness :
    page_allocate cfg12 [] st_one 0x1000 = .ok st_one :=
  (C4_allocate_idempotent cfg12 st_one [0x40000, 0x50000, 0x60000] 0x1000 (by decide)
    reachable_st_one
    ⟨by decide, fun p hp => by
      simp only [List.mem_cons, List.mem_singleton, List.mem_nil_iff, or_false] at hp
      rcases hp with h | h | h <;> subst h <;> exact ⟨by decide, by decide, by decide, rfl⟩⟩
    (by decide)).1 ⟨0x30000, rfl⟩ []

/-- C5 (failing input): with two levels and 4 KiB pages, after
`page_allocate(0x0)` the address `0x200000` is unmapped (its root entry is
invalid, `translate` returns the fault sentinel), and `page_free(0x200000)`
uses the element `base_addr_array[1]` that `populate_base_address_array`
never wrote. -/
theorem C5_free_unmapped_uses_uninitialised :
    Reachable cfg12 (after (page_allocate cfg12 [0x10000, 0x20000, 0x30000] State.init 0x0)) ∧
    translate cfg12 (after (page_allocate cfg12 [0x10000, 0x20000, 0x30000] State.init 0x0))
      0x200000 = .ok SEGFAULT ∧
    page_free cfg12 (after (page_allocate cfg12 [0x10000, 0x20000, 0x30000] State.init 0x0))
      0x200000 = .error Fault.uninit :=
  ⟨Reachable.allocate [0x10000, 0x20000, 0x30000] 0x0 Reachable.init
      (freshValid_init _ _ (by decide) (by decide)) rfl, rfl, rfl⟩


/-- C6: in every reachable state, for every mapped `va` and every `vb` whose
page within the translatable range differs from the page of `va`,
`page_free(va)` returns, `translate(vb)` is afterwards what it was before, and
`translate(va)` returns the fault sentinel. -/
theorem C6_free_keeps_other_pages (c : Config) (s : State) (va vb p : Nat) (hc : c.WF)
    (hR : Reachable c s) (hm : leaf_page c s va = some p)
    (hne : virtual_page c vb ≠ virtual_page c va) :
    ∃ s1, page_free c s va = .ok s1 ∧ translate c s1 vb = translate c s vb ∧
      translate c s1 va = .ok SEGFAULT := by
  obtain ⟨hS, _⟩ := reachable_inv c hc s hR
  obtain ⟨h0, tl, htl⟩ := leaf_prefix_some c hc s va p hm
  obtain ⟨s1, hrun, _, hS1, _, hnone, hfr, _⟩ := page_free_ok c hc s hS va h0 tl htl
  refine ⟨s1, hrun, ?_, translate_of_unmapped hc hS1 hnone⟩
  have hpath : populate_vpn_offsets c vb ≠ populate_vpn_offsets c va :=
    fun e => hne ((vpn_eq_iff c vb va).1 e)
  have hleaf : leaf_page c s1 vb = leaf_page c s vb :=
    hfr _ (length_populate_vpn_offsets c vb) hpath
  rw [translate_eq c hc s1 hS1 vb, translate_eq c hc s hS vb, hleaf]

/-- C6 (witness): after allocating `0x0`, `0x1000` and `0x2000`, freeing
`0x1000` leaves `translate(0x0)` and `translate(0x2000)` as they were, not
faulting, and makes `translate(0x1000)` fault. -/
theorem C6_witness :
    translate cfg12 st_three 0x0 = .ok 0x30000 ∧
    translate cfg12 st_three 0x2000 = .ok 0x60000 ∧
    (∃ s1, page_free cfg12 st_three 0x1000 = .ok s1 ∧
      translate cfg12 s1 0x0 = translate cfg12 st_three 0x0 ∧
      translate cfg12 s1 0x1000 = .ok SEGFAULT) ∧
    (∃ s1, page_free cfg12 st_three 0x1000 = .ok s1 ∧
      translate cfg12 s1 0x2000 = translate cfg12 st_three 0x2000 ∧
      translate cfg12 s1 0x1000 = .ok SEGFAULT) :=
  ⟨rfl, rfl,
    C6_free_keeps_other_pages cfg12 st_three 0x1000 0x0 0x50000 (by decide)
      reachable_st_three rfl (by decide),
    C6_free_keeps_other_pages cfg12 st_three 0x1000 0x2000 0x50000 (by decide)
      reachable_st_three rfl (by decide)⟩

/-- C7: in every reachable state, for every `va` and every `vb` whose page
within the translatable range differs from the page of `va`, when the
allocator can supply `LEVELS + 1` pages, `page_allocate(va)` returns and
`translate(vb)` is afterwards what it was before. -/
theorem C7_allocate_keeps_other_pages (c : Config) (s : State) (fresh : List Nat)
    (va vb : Nat) (hc : c.WF) (hR : Reachable c s) (hF : FreshValid c s.heap fresh)
    (hlen : c.LEVELS + 1 ≤ fresh.length) (hne : virtual_page c vb ≠ virtual_page c va) :
    ∃ s1, page_allocate c fresh s va = .ok s1 ∧ translate c s1 vb = translate c s vb := by
  obtain ⟨hS, hP⟩ := reachable_inv c hc s hR
  obtain ⟨s1, hrun, hS1, _, _, _, hfr⟩ :=
    page_allocate_ok c hc s fresh va hS hP hF (fresh_enough hlen)
  refine ⟨s1, hrun, ?_⟩
  have hpath : populate_vpn_offsets c vb ≠ populate_vpn_offsets c va :=
    fun e => hne ((vpn_eq_iff c vb va).1 e)
  have hleaf : leaf_page c s1 vb = leaf_page c s vb :=
    hfr _ (by rw [length_populate_vpn_offsets]) (fun _ => full_path_off c va vb hpath)
  rw [translate_eq c hc s1 hS1 vb, translate_eq c hc s hS vb, hleaf]

/-- C7 (witness): after `page_allocate(0x1000)`, allocating `0x2000` leaves
the translation of `0x1000` and the fault at `0x3000` as they were. -/
theorem C7_witness :
    (∃ s1, page_allocate cfg12 [0x40000, 0x50000, 0x60000] st_one 0x2000 = .ok s1 ∧
      translate cfg12 s1 0x1000 = translate cfg12 st_one 0x1000) ∧
    (∃ s1, page_allocate cfg12 [0x40000, 0x50000, 0x60000] st_one 0x2000 = .ok s1 ∧
      translate cfg12 s1 0x3000 = translate cfg12 st_one 0x3000) :=
  have hF : FreshValid cfg12 st_one.heap [0x40000, 0x50000, 0x60000] :=
    ⟨by decide, fun p hp => by
      simp only [List.mem_cons, List.mem_singleton, List.mem_nil_iff, or_false] at hp
      rcases hp with h | h | h <;> subst h <;> exact ⟨by decide, by decide, by decide, rfl⟩⟩
  ⟨C7_allocate_keeps_other_pages cfg12 st_one [0x40000, 0x50000, 0x60000] 0x2000 0x1000
      (by decide) reachable_st_one hF (by decide) (by decide),
    C7_allocate_keeps_other_pages cfg12 st_one [0x40000, 0x50000, 0x60000] 0x2000 0x3000
      (by decide) reachable_st_one hF (by decide) (by decide)⟩

/-- C8 (counterexample): after the single call `page_allocate(0x1000)` the
address `0x1001` was never passed to `page_allocate`, and `translate(0x1001)`
is not the fault sentinel. -/
theorem C8_counterexample :
    History cfg12 [Call.allocate 0x1000] st_one ∧
    last_call_frees (fun vb => decide (vb = 0x1001)) [Call.allocate 0x1000] = true ∧
    translate cfg12 st_one 0x1001 = .ok 0x30001 ∧ (0x30001 : Nat) ≠ SEGFAULT :=
  ⟨History.allocate [0x10000, 0x20000, 0x30000] 0x1000 History.init
      (freshValid_init _ _ (by decide) (by decide)) rfl, by decide, rfl, by decide⟩

/-- C8 (amended): for every sequence of `page_allocate` / `page_free` calls
from program start and every `va` such that no call of the sequence is a
`page_allocate` on the page of `va` (within the translatable range), or the
most recent call on that page is a `page_free`, `translate(va)` returns the
fault sentinel. -/
theorem C8_unmapped_read (c : Config) (calls : List Call) (s : State) (va : Nat)
    (hc : c.WF) (hH : History c calls s)
    (hu : last_call_frees (fun vb => decide (virtual_page c vb = virtual_page c va)) calls
      = true) :
    translate c s va = .ok SEGFAULT := by
  have hS := (reachable_inv c hc s (history_reachable hH)).1
  refine translate_of_unmapped hc hS ?_
  clear hS
  induction hH with
  | init => exact walk_ptbr_zero _ rfl _
  | allocate fresh vb hprev hF hrun ih =>
    rename_i calls0 s0 s1
    simp only [last_call_frees, Bool.and_eq_true, Bool.not_eq_true', decide_eq_false_iff_not]
      at hu
    obtain ⟨hS0, hP0⟩ := reachable_inv c hc s0 (history_reachable hprev)
    have hspec := page_allocate_spec c hc s0 fresh vb hS0 hP0 hF
    rw [hrun] at hspec
    obtain ⟨_, _, _, _, hfr⟩ := hspec
    have hpath : populate_vpn_offsets c va ≠ populate_vpn_offsets c vb :=
      fun e => hu.1 ((vpn_eq_iff c va vb).1 e).symm
    have : leaf_page c s1 va = leaf_page c s0 va :=
      hfr _ (by rw [length_populate_vpn_offsets]) (fun _ => full_path_off c vb va hpath)
    rw [this]
    exact ih hu.2
  | free vb hprev hrun ih =>
    rename_i calls0 s0 s1
    simp only [last_call_frees, Bool.or_eq_true, decide_eq_true_eq] at hu
    obtain ⟨hS0, _⟩ := reachable_inv c hc s0 (history_reachable hprev)
    obtain ⟨_, _, hnone, hfr⟩ := page_free_result c hc s0 s1 vb hS0 hrun
    by_cases hsame : virtual_page c vb = virtual_page c va
    · unfold leaf_page at hnone ⊢
      rw [← (vpn_eq_iff c vb va).2 hsame]
      exact hnone
    · have hpath : populate_vpn_offsets c va ≠ populate_vpn_offsets c vb :=
        fun e => hsame ((vpn_eq_iff c va vb).1 e).symm
      have : leaf_page c s1 va = leaf_page c s0 va :=
        hfr _ (length_populate_vpn_offsets c va) hpath
      rw [this]
      rcases hu with h | h
      · exact absurd h hsame
      · exact ih h

/-- C8 (witness): after `page_allocate(0x1000)` no call touched the page of
`0x2001`, and `translate(0x2001)` faults. -/
theorem C8_witness : translate cfg12 st_one 0x2001 = .ok SEGFAULT :=
  C8_unmapped_read cfg12 [Call.allocate 0x1000] st_one 0x2001 (by decide)
    (History.allocate [0x10000, 0x20000, 0x30000] 0x1000 History.init
      (freshValid_init _ _ (by decide) (by decide)) rfl)
    (by decide)


/-- C9: in every reachable state in which the page of `va` is unmapped, when
the allocator can supply `LEVELS + 1` pages, `page_allocate(va)` followed by
`page_free(va)` both return; if the root existed the final state is the
state before the two calls (same live pages, same entries), and if it did not
the final state is the new root with all entries zero and no other live
page. -/
theorem C9_prune_round_trip (c : Config) (s : State) (fresh : List Nat) (va : Nat)
    (hc : c.WF) (hR : Reachable c s) (hun : leaf_page c s va = none)
    (hF : FreshValid c s.heap fresh) (hlen : c.LEVELS + 1 ≤ fresh.length) :
    ∃ s1 s2, page_allocate c fresh s va = .ok s1 ∧ page_free c s1 va = .ok s2 ∧
      (s.ptbr ≠ 0 → s2 = s) ∧
      (s.ptbr = 0 → ∃ root, fresh.head? = some root ∧ s2.ptbr = root ∧
        s2.heap = fun a => if a = root then some zero_page else none) := by
  obtain ⟨hS, hP⟩ := reachable_inv c hc s hR
  have hL : 1 ≤ c.LEVELS := hc.2.2.1
  by_cases h0 : s.ptbr = 0
  · cases fresh with
    | nil => simp at hlen
    | cons n rest =>
      obtain ⟨hn, hnp, hntop, _⟩ := hF.2 n (List.mem_cons_self _ _)
      have hn64 : n < 2 ^ 64 := by omega
      have hempty := heap_empty_of_ptbr_zero hS h0
      have hvne : populate_vpn_offsets c va ≠ [] := by
        intro e
        have := congrArg List.length e
        rw [length_populate_vpn_offsets] at this
        simp at this
        omega
      obtain ⟨s1, hrun, _, hfree⟩ := allocate_free_roundtrip c hc
        ⟨n, s.heap.setPage n (some zero_page)⟩ rest va
        (shape_root c s.heap hempty n hn hnp hn64) (pruned_root c s.heap n hn) hn
        (by unfold leaf_page; rw [walk_root s.heap n hn, if_neg hvne])
        (freshValid_after_root hF) (by simp at hlen; omega)
      refine ⟨s1, _, ?_, hfree, fun h => absurd h0 h, fun _ => ⟨n, rfl, rfl, ?_⟩⟩
      · rw [page_allocate_first c n rest s va h0 hn]; exact hrun
      · funext a
        simp only [Heap.setPage, hempty a]
  · obtain ⟨s1, hrun, _, hfree⟩ :=
      allocate_free_roundtrip c hc s fresh va hS hP h0 hun hF (by omega)
    exact ⟨s1, s, hrun, hfree, fun _ => rfl, fun h => absurd h h0⟩

/-- C9 (witness): at program start, allocating and freeing `0x1000` leaves
the root table at `0x10000` with all entries zero and no other live page;
after `page_allocate(0x1000)`, allocating and freeing `0x200000` gives back
the same state. -/
theorem C9_witness :
    (∃ s1 s2, page_allocate cfg12 [0x10000, 0x20000, 0x30000] State.init 0x1000 = .ok s1 ∧
      page_free cfg12 s1 0x1000 = .ok s2 ∧ s2.ptbr = 0x10000 ∧
      s2.heap = fun a => if a = 0x10000 then some zero_page else none) ∧
    (∃ s1, page_allocate cfg12 [0x40000, 0x50000, 0x60000] st_one 0x200000 = .ok s1 ∧
      page_free cfg12 s1 0x200000 = .ok st_one) := by
  constructor
  · obtain ⟨s1, s2, h1, h2, _, h4⟩ :=
      C9_prune_round_trip cfg12 State.init [0x10000, 0x20000, 0x30000] 0x1000 (by decide)
        Reachable.init rfl (freshValid_init _ _ (by decide) (by decide)) (by decide)
    obtain ⟨root, hroot, hp, hh⟩ := h4 rfl
    cases hroot
    exact ⟨s1, s2, h1, h2, hp, hh⟩
  · obtain ⟨s1, s2, h1, h2, h3, _⟩ :=
      C9_prune_round_trip cfg12 st_one [0x40000, 0x50000, 0x60000] 0x200000 (by decide)
        reachable_st_one rfl
        ⟨by decide, fun p hp => by
          simp only [List.mem_cons, List.mem_singleton, List.mem_nil_iff, or_false] at hp
          rcases hp with h | h | h <;> subst h <;>
            exact ⟨by decide, by decide, by decide, rfl⟩⟩
        (by decide)
    have hs : s2 = st_one := h3 (by decide)
    rw [hs] at h2
    exact ⟨s1, h1, h2⟩

/-- C10: `page_allocate` returns with `ptbr` unchanged whenever `ptbr` was not
0, and `page_free` returns with `ptbr` unchanged, in every state; in every
state whose heap is a tree hanging from `ptbr`, which every reachable state
is, the root table is still live when `page_free` returns.  (`translate`
returns a value only: it has no state to change.) -/
theorem C10_root_kept (c : Config) (hc : c.WF) :
    (∀ fresh s va s1, page_allocate c fresh s va = .ok s1 → s.ptbr ≠ 0 →
      s1.ptbr = s.ptbr) ∧
    (∀ fresh s va s1, page_allocate c fresh s va = .ok s1 → s.ptbr = 0 →
      fresh.head? = some s1.ptbr) ∧
    (∀ s va s1, page_free c s va = .ok s1 → s1.ptbr = s.ptbr) ∧
    (∀ s, Reachable c s → Shape c s) ∧
    (∀ s va s1, Shape c s → page_free c s va = .ok s1 → s.ptbr ≠ 0 →
      ∃ t, s1.heap s.ptbr = some t) := by
  refine ⟨?_, ?_, ?_, fun s hR => (reachable_inv c hc s hR).1, ?_⟩
  · intro fresh s va s1 hrun h0
    rw [page_allocate_eq c fresh s va h0] at hrun
    split at hrun
    · cases hrun
    · cases hrun; rfl
  · intro fresh s va s1 hrun h0
    cases fresh with
    | nil => rw [page_allocate_nomem c s va h0] at hrun; cases hrun
    | cons n rest =>
      rw [page_allocate_eq_first c n rest s va h0] at hrun
      split at hrun
      · cases hrun
      · cases hrun; rfl
  · intro s va s1 hrun
    unfold page_free at hrun
    split at hrun
    · cases hrun; rfl
    · simp only [] at hrun
      repeat' split at hrun
      all_goals cases hrun
      all_goals rfl
  · intro s va s1 hS hrun h0
    obtain ⟨hp, hS1, _, _⟩ := page_free_result c hc s s1 va hS hrun
    have hw : walk s1 [] = some s.ptbr := by
      rw [walk_nil, hp, if_neg h0]
    obtain ⟨_, _, _, t, ht⟩ := hS1.live [] _ (by simp) hw
    exact ⟨t, ht⟩

set_option maxRecDepth 100000 in
/-- C10 (witness): after `page_allocate(0x1000)` and `page_free(0x1000)` the
root has no valid entry left, `ptbr` is still `0x10000` and the root table is
still live. -/
theorem C10_witness :
    st_one.ptbr = 0x10000 ∧
    (after (page_free cfg12 st_one 0x1000)).ptbr = st_one.ptbr ∧
    (∃ t, (after (page_free cfg12 st_one 0x1000)).heap st_one.ptbr = some t) ∧
    is_page_table_empty cfg12 (after (page_free cfg12 st_one 0x1000)).heap 0x10000
      = .ok true :=
  have h := C10_root_kept cfg12 (by decide)
  ⟨rfl, h.2.2.1 st_one 0x1000 _ rfl,
    h.2.2.2.2 st_one 0x1000 _ (h.2.2.2.1 st_one reachable_st_one) rfl (by decide), rfl⟩


/-- C11: for every configuration, state and `va`, reducing `va` modulo
`2 ^ (POBITS + LEVELS * VPN_BITS)` changes neither the index array nor the
page offset, hence neither the result of `translate` nor the outcome of
`page_allocate` (for every allocator) nor of `page_free`; no address is
treated differently from its reduced form. -/
theorem C11_high_bits_ignored (c : Config) (s : State) (va : Nat) :
    populate_vpn_offsets c (va % 2 ^ (c.POBITS + c.LEVELS * VPN_BITS c)) =
      populate_vpn_offsets c va ∧
    calculate_page_offset c (va % 2 ^ (c.POBITS + c.LEVELS * VPN_BITS c)) =
      calculate_page_offset c va ∧
    translate c s (va % 2 ^ (c.POBITS + c.LEVELS * VPN_BITS c)) = translate c s va ∧
    (∀ fresh, page_allocate c fresh s (va % 2 ^ (c.POBITS + c.LEVELS * VPN_BITS c)) =
      page_allocate c fresh s va) ∧
    page_free c s (va % 2 ^ (c.POBITS + c.LEVELS * VPN_BITS c)) = page_free c s va := by
  refine ⟨vpn_mod c va, offset_mod c va, ?_, ?_, ?_⟩
  · unfold translate
    rw [vpn_mod, offset_mod]
  · intro fresh
    unfold page_allocate
    rw [vpn_mod]
  · unfold page_free
    rw [vpn_mod]

/-- C12 (counterexample): the configuration `POBITS = 12`, `LEVELS = 0` has
`POBITS > 3` and a translatable range of 12 bits; its `max_addr` is 0, and
after `page_allocate(max_addr)` at program start `translate(max_addr)` is the
fault sentinel, as the loop of `page_walk` has no iteration. -/
theorem C12_counterexample :
    3 < cfg_no_level.POBITS ∧
    cfg_no_level.POBITS + cfg_no_level.LEVELS * VPN_BITS cfg_no_level ≤ 64 ∧
    max_addr cfg_no_level = 0 ∧
    FreshValid cfg_no_level State.init.heap [0x10000] ∧
    page_allocate cfg_no_level [0x10000] State.init (max_addr cfg_no_level)
      = .ok st_no_level ∧
    Reachable cfg_no_level st_no_level ∧
    translate cfg_no_level st_no_level (max_addr cfg_no_level) = .ok SEGFAULT :=
  ⟨by decide, by decide, by decide, freshValid_init _ _ (by decide) (by decide), rfl,
    Reachable.allocate [0x10000] (max_addr cfg_no_level) Reachable.init
      (freshValid_init _ _ (by decide) (by decide)) rfl, rfl⟩

/-- C12 (amended): for every configuration with `POBITS > 3`, `POBITS ≤ 30`,
`LEVELS ≥ 1` and the translatable range within 64 bits, in every
reachable state, `max_addr = 2 ^ (POBITS + LEVELS * VPN_BITS) - PAGE_SIZE` is a
64-bit value, every shift of its decomposition is by less than 64 bits, its
index is `ENTRIES - 1` at every level and its page offset is 0; and when the
allocator can supply `LEVELS + 1` pages, `page_allocate(max_addr)` returns and
`translate(max_addr)` is then not the fault sentinel. -/
theorem C12_maximum_address (c : Config) (s : State) (fresh : List Nat) (hc : c.WF)
    (hR : Reachable c s) (hF : FreshValid c s.heap fresh)
    (hlen : c.LEVELS + 1 ≤ fresh.length) :
    max_addr c = 2 ^ (c.POBITS + c.LEVELS * VPN_BITS c) - PAGE_SIZE c ∧
    max_addr c < 2 ^ 64 ∧
    (∀ i, i < c.LEVELS → c.POBITS + (c.LEVELS - 1 - i) * VPN_BITS c < 64) ∧
    (∀ i, i < c.LEVELS → (populate_vpn_offsets c (max_addr c)).getD i 0 = ENTRIES c - 1) ∧
    calculate_page_offset c (max_addr c) = 0 ∧
    ∃ s1 a, page_allocate c fresh s (max_addr c) = .ok s1 ∧
      translate c s1 (max_addr c) = .ok a ∧ a ≠ SEGFAULT := by
  obtain ⟨hS, hP⟩ := reachable_inv c hc s hR
  obtain ⟨s1, hrun, hS1, _, ⟨p, hp⟩, _, _⟩ :=
    page_allocate_ok c hc s fresh (max_addr c) hS hP hF (fresh_enough hlen)
  obtain ⟨_, hal, _, _⟩ := hS1.live _ p (by rw [length_populate_vpn_offsets]) hp
  refine ⟨by unfold max_addr; rw [Nat.one_shiftLeft], max_addr_lt c hc,
    fun i hi => shift_lt c hc hi, ?_, offset_max_addr c, s1, p, hrun, ?_,
    aligned_ne_sentinel hc hal⟩
  · intro i hi
    rw [getD_populate_vpn_offsets c _ hi, vpn_index_max_addr c hi]
  · rw [translate_of_leaf hc hS1 hp, offset_max_addr, Nat.add_zero]

/-- C12 (witness): with two levels and 4 KiB pages `max_addr` is
`0x3FFFF000`, its two indices are 511, and after allocating it at program
start its translation is the data page `0x30000`. -/
theorem C12_witness :
    max_addr cfg12 = 0x3FFFF000 ∧
    (populate_vpn_offsets cfg12 (max_addr cfg12)).getD 0 0 = ENTRIES cfg12 - 1 ∧
    (populate_vpn_offsets cfg12 (max_addr cfg12)).getD 1 0 = ENTRIES cfg12 - 1 ∧
    ∃ s1 a, page_allocate cfg12 [0x10000, 0x20000, 0x30000] State.init (max_addr cfg12)
        = .ok s1 ∧
      translate cfg12 s1 (max_addr cfg12) = .ok a ∧ a ≠ SEGFAULT :=
  have h := C12_maximum_address cfg12 State.init [0x10000, 0x20000, 0x30000] (by decide)
    Reachable.init (freshValid_init _ _ (by decide) (by decide)) (by decide)
  ⟨by decide, h.2.2.2.1 0 (by decide), h.2.2.2.1 1 (by decide), h.2.2.2.2.2⟩

/-- C13: in every state whose heap is a tree hanging from `ptbr`, which every
reachable state is, and for every `va`: `translate(va)` returns the fault
sentinel when `ptbr` is 0, and when at some level `k` the table reached
through the valid entries of levels `0 .. k-1` has an invalid entry at the
index of `va`; and when the entry `e` at the index of `va` in the table of
level `LEVELS - 1` is valid it returns `clear_valid_bit e + offset(va)`.
(`translate` returns a value only: it cannot allocate or change an entry.) -/
theorem C13_translate_is_walk (c : Config) (hc : c.WF) :
    (∀ s, Reachable c s → Shape c s) ∧
    ∀ s va, Shape c s →
      (s.ptbr = 0 → translate c s va = .ok SEGFAULT) ∧
      (∀ k b t, k < c.LEVELS → walk s ((populate_vpn_offsets c va).take k) = some b →
        s.heap b = some t → is_entry_valid (t (vpn_index c va k)) = false →
        translate c s va = .ok SEGFAULT) ∧
      (∀ b t, walk s ((populate_vpn_offsets c va).take (c.LEVELS - 1)) = some b →
        s.heap b = some t → is_entry_valid (t (vpn_index c va (c.LEVELS - 1))) = true →
        translate c s va =
          .ok (clear_valid_bit (t (vpn_index c va (c.LEVELS - 1))) +
            calculate_page_offset c va)) := by
  have hL : 1 ≤ c.LEVELS := hc.2.2.1
  refine ⟨fun s hR => (reachable_inv c hc s hR).1, ?_⟩
  intro s va hS
  have hlen := length_populate_vpn_offsets c va
  have hstep : ∀ k b t, k < c.LEVELS →
      walk s ((populate_vpn_offsets c va).take k) = some b → s.heap b = some t →
      walk s ((populate_vpn_offsets c va).take (k + 1)) =
        if is_entry_valid (t (vpn_index c va k)) = true then
          some (clear_valid_bit (t (vpn_index c va k))) else none := by
    intro k b t hk hw ht
    rw [take_succ_getD _ (by rw [hlen]; exact hk), walk_snoc, hw, child_some_heap _ ht,
      getD_populate_vpn_offsets c va hk]
  refine ⟨?_, ?_, ?_⟩
  · intro h0
    exact translate_of_unmapped hc hS (walk_ptbr_zero s h0 _)
  · intro k b t hk hw ht hv
    have h1 := hstep k b t hk hw ht
    rw [hv] at h1
    have h2 := walk_take_none s (populate_vpn_offsets c va) (a := k + 1)
      (b := (populate_vpn_offsets c va).length) (by omega) (by simpa using h1)
    rw [List.take_length] at h2
    exact translate_of_unmapped hc hS h2
  · intro b t hw ht hv
    have h1 := hstep (c.LEVELS - 1) b t (by omega) hw ht
    rw [hv, if_pos rfl] at h1
    have e : c.LEVELS - 1 + 1 = (populate_vpn_offsets c va).length := by omega
    rw [e, List.take_length] at h1
    exact translate_of_leaf hc hS h1

/-- C13 (witness): after `page_allocate(0x1000)` the walk for `0x1234` passes
the root entry 0 and the entry 1 of the table at `0x20000`, which holds
`0x30001`; the walk for `0x200000` stops at the invalid root entry 1. -/
theorem C13_witness :
    translate cfg12 st_one 0x1234 = .ok (clear_valid_bit 0x30001 + 0x234) ∧
    translate cfg12 st_one 0x200000 = .ok SEGFAULT :=
  have h := (C13_translate_is_walk cfg12 (by decide)).2
  have hS := (C13_translate_is_walk cfg12 (by decide)).1 st_one reachable_st_one
  ⟨(h st_one 0x1234 hS).2.2 0x20000 ((zero_page.setEntry 1 0x30001)) rfl rfl rfl,
    (h st_one 0x200000 hS).2.1 0 0x10000 ((zero_page.setEntry 0 0x20001)) (by decide) rfl rfl
      rfl⟩

/-- C14: for every configuration the module is written for and every `va`,
the element `i` of the array filled by `populate_vpn_offsets` is
`va / 2 ^ (POBITS + (LEVELS-1-i) * VPN_BITS)` modulo `2 ^ VPN_BITS`, which is
below `ENTRIES`; `calculate_page_offset` returns `va mod 2 ^ POBITS`; and the
indices weighted by `2 ^ (POBITS + (LEVELS-1-i) * VPN_BITS)` plus the offset
add up to `va mod 2 ^ (POBITS + LEVELS * VPN_BITS)`. -/
theorem C14_address_decomposition (c : Config) (va : Nat) (_hc : c.WF) :
    (populate_vpn_offsets c va).length = c.LEVELS ∧
    (∀ i, i < c.LEVELS →
      (populate_vpn_offsets c va).getD i 0 =
        va / 2 ^ (c.POBITS + (c.LEVELS - 1 - i) * VPN_BITS c) % 2 ^ VPN_BITS c ∧
      (populate_vpn_offsets c va).getD i 0 < ENTRIES c) ∧
    calculate_page_offset c va = va % 2 ^ c.POBITS ∧
    ∑ i ∈ Finset.range c.LEVELS,
        (populate_vpn_offsets c va).getD i 0 *
          2 ^ (c.POBITS + (c.LEVELS - 1 - i) * VPN_BITS c) +
      calculate_page_offset c va = va % 2 ^ (c.POBITS + c.LEVELS * VPN_BITS c) := by
  refine ⟨length_populate_vpn_offsets c va, ?_, ?_, ?_⟩
  · intro i hi
    refine ⟨?_, getD_vpn_lt c va i⟩
    rw [getD_populate_vpn_offsets c va hi, vpn_index_eq, Nat.pow_add, Nat.div_div_eq_div_mul]
  · rw [calculate_page_offset_eq, PAGE_SIZE_eq]
  · rw [← vpn_sum c va]
    congr 1
    apply Finset.sum_congr rfl
    intro i hi
    rw [Finset.mem_range] at hi
    rw [getD_populate_vpn_offsets c va hi]

/-- C14 (witness): with two levels and 4 KiB pages the address `0x40201ABC`
has the indices 1 and 1 and the offset `0xABC`, which add up to `0x201ABC`,
the address modulo `2 ^ 30`. -/
theorem C14_witness :
    (populate_vpn_offsets cfg12 0x40201ABC).getD 0 0 = 1 ∧
    (populate_vpn_offsets cfg12 0x40201ABC).getD 1 0 = 1 ∧
    calculate_page_offset cfg12 0x40201ABC = 0xABC ∧
    ∑ i ∈ Finset.range cfg12.LEVELS,
        (populate_vpn_offsets cfg12 0x40201ABC).getD i 0 *
          2 ^ (cfg12.POBITS + (cfg12.LEVELS - 1 - i) * VPN_BITS cfg12) +
      calculate_page_offset cfg12 0x40201ABC = 0x201ABC :=
  have h := C14_address_decomposition cfg12 0x40201ABC (by decide)
  ⟨by decide, by decide, by decide, h.2.2.2.trans (by decide)⟩

/-- C15: in every reachable state every table other than the root that the
root reaches through valid entries has a valid entry at an index below
`ENTRIES`; and on every tree-shaped state with this property a returning
`page_allocate` and a returning `page_free` lead to a state that has it. -/
theorem C15_pruning_invariant (c : Config) (hc : c.WF) :
    (∀ s, Reachable c s → ∀ r p t, r ≠ [] → r.length < c.LEVELS → walk s r = some p →
      s.heap p = some t → ∃ i, i < ENTRIES c ∧ is_entry_valid (t i) = true) ∧
    (∀ s, Reachable c s → Shape c s ∧ Pruned c s []) ∧
    (∀ s fresh va s1, Shape c s → Pruned c s [] → FreshValid c s.heap fresh →
      page_allocate c fresh s va = .ok s1 → Shape c s1 ∧ Pruned c s1 []) ∧
    (∀ s va s1, Shape c s → Pruned c s [] → page_free c s va = .ok s1 →
      Shape c s1 ∧ Pruned c s1 []) := by
  refine ⟨?_, fun s hR => reachable_inv c hc s hR, ?_, ?_⟩
  · intro s hR r p t hr0 hr hw ht
    exact (reachable_inv c hc s hR).2 r p t hr0 hr0 hr hw ht
  · intro s fresh va s1 hS hP hF hrun
    exact page_allocate_preserves c hc s s1 fresh va hS hP hF hrun
  · intro s va s1 hS hP hrun
    exact page_free_preserves c hc s s1 va hS hP hrun

/-- C15 (witness): after `page_allocate(0x1000)` the table at `0x20000`,
reached through root entry 0, has a valid entry. -/
theorem C15_witness :
    ∃ i, i < ENTRIES cfg12 ∧ is_entry_valid ((zero_page.setEntry 1 0x30001) i) = true :=
  (C15_pruning_invariant cfg12 (by decide)).1 st_one reachable_st_one [0] 0x20000
    (zero_page.setEntry 1 0x30001) (by decide) (by decide) rfl rfl

/-- C16 (failing input): with two levels and 4 KiB pages, the state after
`page_allocate(0x1000)` is reachable and `0x200000` is unmapped in it, its
root entry being invalid; `populate_base_address_array` leaves
`base_addr_array[1]` indeterminate and `page_free(0x200000)` goes on to use
it as the table whose entry it reads, whose page it may release with `free`
and which it may release itself. -/
theorem C16_free_through_indeterminate_pointer :
    Reachable cfg12 st_one ∧
    translate cfg12 st_one 0x200000 = .ok SEGFAULT ∧
    populate_base_address_array cfg12 st_one (populate_vpn_offsets cfg12 0x200000)
      (List.replicate cfg12.LEVELS none) = .ok [some 0x10000, none] ∧
    use ([some 0x10000, none].getD (cfg12.LEVELS - 1) none) = .error Fault.uninit ∧
    page_free cfg12 st_one 0x200000 = .error Fault.uninit :=
  ⟨reachable_st_one, rfl, rfl, rfl, rfl⟩

/-- C17 (counterexample): with two levels and 4 KiB pages the translatable
range is 30 bits; after `page_allocate(0x1000)` the addresses `0x1000` and
`0x40001000` both translate to `0x30000`, not the sentinel, and they differ
above the low 12 bits. -/
theorem C17_counterexample :
    Reachable cfg12 st_one ∧
    translate cfg12 st_one 0x1000 = .ok 0x30000 ∧
    translate cfg12 st_one 0x40001000 = .ok 0x30000 ∧
    (0x30000 : Nat) ≠ SEGFAULT ∧
    0x1000 / PAGE_SIZE cfg12 ≠ 0x40001000 / PAGE_SIZE cfg12 :=
  ⟨reachable_st_one, rfl, rfl, by decide, by decide⟩

/-- C17 (amended): in every reachable state, two addresses that both
translate to a non-fault result, the two results agreeing above the low
`POBITS` bits, have the same page within the translatable range: they agree
on bits `POBITS .. POBITS + LEVELS * VPN_BITS - 1`. -/
theorem C17_no_shared_leaf (c : Config) (s : State) (va1 va2 a1 a2 : Nat) (hc : c.WF)
    (hR : Reachable c s) (h1 : translate c s va1 = .ok a1) (hn1 : a1 ≠ SEGFAULT)
    (h2 : translate c s va2 = .ok a2) (hn2 : a2 ≠ SEGFAULT)
    (hsame : a1 / PAGE_SIZE c = a2 / PAGE_SIZE c) :
    virtual_page c va1 = virtual_page c va2 := by
  obtain ⟨hS, _⟩ := reachable_inv c hc s hR
  have hpos : 0 < PAGE_SIZE c := by rw [PAGE_SIZE_eq]; exact Nat.two_pow_pos _
  have key : ∀ va a, translate c s va = .ok a → a ≠ SEGFAULT →
      ∃ p, leaf_page c s va = some p ∧ p = PAGE_SIZE c * (a / PAGE_SIZE c) := by
    intro va a h hn
    rw [translate_eq c hc s hS va] at h
    cases hl : leaf_page c s va with
    | none =>
      rw [hl] at h
      exact absurd (Except.ok.inj h).symm hn
    | some p =>
      rw [hl] at h
      have ha : a = p + calculate_page_offset c va := (Except.ok.inj h).symm
      obtain ⟨_, hal, _, _⟩ := hS.live _ p (by rw [length_populate_vpn_offsets]) hl
      refine ⟨p, rfl, ?_⟩
      obtain ⟨k, hk⟩ := Nat.dvd_of_mod_eq_zero hal
      rw [ha, hk, Nat.mul_add_div hpos, Nat.div_eq_of_lt (calculate_page_offset_lt c va),
        Nat.add_zero]
  obtain ⟨p1, hl1, e1⟩ := key va1 a1 h1 hn1
  obtain ⟨p2, hl2, e2⟩ := key va2 a2 h2 hn2
  have hp : p1 = p2 := by rw [e1, e2, hsame]
  rw [← vpn_eq_iff]
  unfold leaf_page at hl1 hl2
  exact hS.inj _ _ p1 (by rw [length_populate_vpn_offsets])
    (by rw [length_populate_vpn_offsets]) hl1 (hp ▸ hl2)

/-- C17 (witness): `0x1000` and `0x40001000` share the leaf page `0x30000`
and the page number 1 within the 30-bit translatable range. -/
theorem C17_witness : virtual_page cfg12 0x1000 = virtual_page cfg12 0x40001000 :=
  C17_no_shared_leaf cfg12 st_one 0x1000 0x40001000 0x30000 0x30000 (by decide)
    reachable_st_one rfl (by decide) rfl (by decide) rfl

/-- C18 (failing input): with two levels and 4 KiB pages, after allocating
`0x0`, `0x1000` and `0x2000`, the root entry 2 on the path of `0x400000` is
invalid; `populate_base_address_array` stops there and leaves
`base_addr_array[1]` indeterminate, and `page_free(0x400000)` does not return
at that point but uses that element. -/
theorem C18_free_goes_on_after_early_stop :
    Reachable cfg12 st_three ∧
    load st_three.heap st_three.ptbr (vpn_index cfg12 0x400000 0) = .ok 0 ∧
    populate_base_address_array cfg12 st_three (populate_vpn_offsets cfg12 0x400000)
      (List.replicate cfg12.LEVELS none) = .ok [some 0x10000, none] ∧
    page_free cfg12 st_three 0x400000 = .error Fault.uninit :=
  ⟨reachable_st_three, rfl, rfl, rfl⟩


/-- C19 (counterexample): with one level the last-level table is the root;
after `page_allocate(0x0)` and `page_free(0x0)` the entry of `0x0` in it is
invalid and `page_free(0x0)` returns the state unchanged, but the table is
empty, and the pruning loop, which starts at level `LEVELS - 1 = 0`, has no
iteration in which it could find it non-empty. -/
theorem C19_counterexample :
    Reachable cfg_one_level st_emptied ∧
    walk st_emptied
      ((populate_vpn_offsets cfg_one_level 0x0).take (cfg_one_level.LEVELS - 1)) = some 0x10 ∧
    load st_emptied.heap 0x10 (vpn_index cfg_one_level 0x0 0) = .ok 0 ∧
    is_entry_valid 0 = false ∧
    page_free cfg_one_level st_emptied 0x0 = .ok st_emptied ∧
    is_page_table_empty cfg_one_level st_emptied.heap 0x10 = .ok true ∧
    cfg_one_level.LEVELS - 1 = 0 :=
  ⟨reachable_st_emptied, rfl, rfl, rfl, rfl, rfl, rfl⟩

/-- C19 (amended): in every reachable state, for every `va` whose path has
valid entries at all levels `0 .. LEVELS-2`, leading to the last-level table
`tl`, and an invalid entry there, `page_free(va)` returns the state unchanged;
with at least two levels `is_page_table_empty` finds `tl` non-empty, so the
pruning loop breaks in its first iteration, and with one level `tl` is the
root and the pruning loop has no iteration. -/
theorem C19_free_unmapped_leaf (c : Config) (s : State) (va tl : Nat) (t : Page)
    (hc : c.WF) (hR : Reachable c s)
    (hw : walk s ((populate_vpn_offsets c va).take (c.LEVELS - 1)) = some tl)
    (ht : s.heap tl = some t)
    (hinv : is_entry_valid (t (vpn_index c va (c.LEVELS - 1))) = false) :
    page_free c s va = .ok s ∧
    (2 ≤ c.LEVELS → is_page_table_empty c s.heap tl = .ok false) ∧
    (c.LEVELS = 1 → tl = s.ptbr ∧ cleanup_empty_tables_loop c (populate_vpn_offsets c va)
      [some s.ptbr] (c.LEVELS - 1) s.heap = .ok s.heap) := by
  obtain ⟨hS, hP⟩ := reachable_inv c hc s hR
  have hL : 1 ≤ c.LEVELS := hc.2.2.1
  have hlen := length_populate_vpn_offsets c va
  have h0 : s.ptbr ≠ 0 := by
    intro h0
    rw [walk_ptbr_zero s h0] at hw; cases hw
  have hnone : walk s (populate_vpn_offsets c va) = none := by
    have e : populate_vpn_offsets c va =
        (populate_vpn_offsets c va).take (c.LEVELS - 1 + 1) := by
      rw [List.take_of_length_le (by omega)]
    rw [e, take_succ_getD _ (by omega), walk_snoc, hw, child_some_heap _ ht,
      getD_populate_vpn_offsets c va (by omega), hinv]
    rfl
  obtain ⟨s1, hrun, _, _, _, _, _, _, _, hsame⟩ := page_free_ok c hc s hS va h0 tl hw
  refine ⟨by rw [hrun, hsame hnone hP], ?_, ?_⟩
  · intro h2
    have hne : (populate_vpn_offsets c va).take (c.LEVELS - 1) ≠ [] := by
      have := take_ne_take (populate_vpn_offsets c va) (a := c.LEVELS - 1) (b := 0)
        (by omega) (by omega) (by omega)
      simpa using this
    obtain ⟨i, hi, hv⟩ := hP _ tl t hne hne (by rw [List.length_take]; omega) hw ht
    obtain ⟨e, he, hiff⟩ := is_page_table_empty_spec c s.heap tl t ht
    cases e with
    | false => exact he
    | true =>
      have := hiff.1 rfl i hi
      rw [hv] at this; cases this
  · intro h1
    have e0 : c.LEVELS - 1 = 0 := by omega
    rw [e0] at hw ⊢
    refine ⟨?_, rfl⟩
    rw [List.take_zero, walk_nil, if_neg h0] at hw
    exact (Option.some.inj hw).symm

/-- C19 (witness): after `page_allocate(0x1000)` the table at `0x20000` exists
and its entry for `0x0` is invalid; `page_free(0x0)` returns the state
unchanged and the table is found non-empty. -/
theorem C19_witness :
    page_free cfg12 st_one 0x0 = .ok st_one ∧
    is_page_table_empty cfg12 st_one.heap 0x20000 = .ok false :=
  have h := C19_free_unmapped_leaf cfg12 st_one 0x0 0x20000 (zero_page.setEntry 1 0x30001)
    (by decide) reachable_st_one rfl rfl rfl
  ⟨h.1, h.2.1 (by decide)⟩

/-- C20: in every reachable state, for every `va` mapped to the leaf data page
`p`: `p` is page-aligned, `translate(va)` returns `p + offset(va)`, a 64-bit
value that agrees with `p` above the low `POBITS` bits and with `offset(va)`
in them, and this is the fault sentinel exactly when `p` is the highest
page-aligned address `2 ^ 64 - PAGE_SIZE` and `offset(va) = PAGE_SIZE - 1`. -/
theorem C20_sentinel_collision (c : Config) (s : State) (va p : Nat) (hc : c.WF)
    (hR : Reachable c s) (hm : leaf_page c s va = some p) :
    p % PAGE_SIZE c = 0 ∧
    translate c s va = .ok (p + calculate_page_offset c va) ∧
    p + calculate_page_offset c va < 2 ^ 64 ∧
    (p + calculate_page_offset c va) / PAGE_SIZE c = p / PAGE_SIZE c ∧
    (p + calculate_page_offset c va) % PAGE_SIZE c = calculate_page_offset c va ∧
    (translate c s va = .ok SEGFAULT ↔
      p = 2 ^ 64 - PAGE_SIZE c ∧ calculate_page_offset c va = PAGE_SIZE c - 1) ∧
    ((p ≠ 2 ^ 64 - PAGE_SIZE c ∨ calculate_page_offset c va ≠ PAGE_SIZE c - 1) →
      translate c s va ≠ .ok SEGFAULT) := by
  obtain ⟨hS, _⟩ := reachable_inv c hc s hR
  obtain ⟨_, hal, h64, _⟩ := hS.live _ p (by rw [length_populate_vpn_offsets]) hm
  have hpos : 0 < PAGE_SIZE c := by rw [PAGE_SIZE_eq]; exact Nat.two_pow_pos _
  have hoff := calculate_page_offset_lt c va
  have ht := translate_of_leaf hc hS hm
  have hiff : translate c s va = .ok SEGFAULT ↔
      p = 2 ^ 64 - PAGE_SIZE c ∧ calculate_page_offset c va = PAGE_SIZE c - 1 := by
    rw [ht, ← sentinel_iff hc hal h64 hoff]
    constructor
    · intro h; exact Except.ok.inj h
    · intro h; rw [h]
  obtain ⟨k, hk⟩ := Nat.dvd_of_mod_eq_zero hal
  refine ⟨hal, ht, aligned_add_lt hc hal h64 hoff, ?_, ?_, hiff, ?_⟩
  · rw [hk, Nat.mul_add_div hpos, Nat.div_eq_of_lt hoff, Nat.mul_div_cancel_left _ hpos,
      Nat.add_zero]
  · rw [hk, Nat.mul_add_mod, Nat.mod_eq_of_lt hoff]
  · intro h hs
    obtain ⟨e1, e2⟩ := hiff.1 hs
    rcases h with h | h
    · exact h e1
    · exact h e2

/-- C20 (witness): after `page_allocate(0x1000)` the leaf data page of
`0x1FFF` is `0x30000`; `translate(0x1FFF)` is `0x30FFF`, which agrees with the
leaf base above the low 12 bits, and is not the sentinel. -/
theorem C20_witness :
    translate cfg12 st_one 0x1FFF = .ok (0x30000 + 0xFFF) ∧
    (0x30000 + calculate_page_offset cfg12 0x1FFF) / PAGE_SIZE cfg12
      = 0x30000 / PAGE_SIZE cfg12 ∧
    translate cfg12 st_one 0x1FFF ≠ .ok SEGFAULT :=
  have h := C20_sentinel_collision cfg12 st_one 0x1FFF 0x30000 (by decide)
    reachable_st_one rfl
  ⟨h.2.1, h.2.2.2.1, h.2.2.2.2.2.2 (Or.inl (by decide))⟩

end Mlpt
